import Mathlib

/-!
# Plane primitive of `ransac_primitives` (strands_utils)

A shallow embedding of `src/ransac_primitives/src/plane_primitive.cpp`.

Conventions of the embedding.

* A C++ `double` is a real number.  Rounding, overflow and underflow are not
  represented.  The only non-finite values the code can produce from finite
  inputs come from `normalize()` on a zero vector (a division by a zero norm,
  NaN in each component) and from the `INFINITY` literals; every `normalize()`
  of the code whose argument can be zero is modelled by an explicit test of
  the norm, and the outcome of the function then says which members hold
  non-finite values instead of giving them a value.
* `Eigen::Vector3d` and friends are structures of reals; Eigen's own routines
  (`dot`, `cross`, `norm`, `normalize`, quaternion conversions) are written out
  as the arithmetic they perform.
* `int` is `Int`; `std::vector<T>` is `List T`.
-/

set_option linter.unusedVariables false

noncomputable section

namespace ransac_primitives

/-! ## Eigen vectors -/

/-- Model of `Eigen::Vector2d`. -/
@[ext] structure Vector2d where
  x : ℝ
  y : ℝ

/-- Model of `Eigen::Vector3d`. -/
@[ext] structure Vector3d where
  x : ℝ
  y : ℝ
  z : ℝ

/-- Model of `Eigen::Vector4d`, the type of the plane equation `p`. -/
@[ext] structure Vector4d where
  x : ℝ
  y : ℝ
  z : ℝ
  w : ℝ

/-- Model of `Eigen::Quaterniond`, coefficients named as in Eigen. -/
@[ext] structure Quaterniond where
  w : ℝ
  x : ℝ
  y : ℝ
  z : ℝ

/-- Model of a 3x3 matrix, stored by columns (`R.col(0)`, `R.col(1)`, `R.col(2)`). -/
@[ext] structure Matrix3d where
  col0 : Vector3d
  col1 : Vector3d
  col2 : Vector3d

/-- Model of the 3x2 matrix `basis`, stored by columns. -/
@[ext] structure Basis where
  col0 : Vector3d
  col1 : Vector3d

/-- Model of a 2x2 matrix (`axes`), stored by columns. -/
@[ext] structure Matrix2d where
  col0 : Vector2d
  col1 : Vector2d

/-- Componentwise sum `a + b`. -/
def Vector3d.add (a b : Vector3d) : Vector3d := ⟨a.x + b.x, a.y + b.y, a.z + b.z⟩

/-- Componentwise difference `a - b`. -/
def Vector3d.sub (a b : Vector3d) : Vector3d := ⟨a.x - b.x, a.y - b.y, a.z - b.z⟩

/-- Scalar multiple `k * a`. -/
def Vector3d.scale (k : ℝ) (a : Vector3d) : Vector3d := ⟨k * a.x, k * a.y, k * a.z⟩

/-- Inner product `a.dot(b)`. -/
def Vector3d.dot (a b : Vector3d) : ℝ := a.x * b.x + a.y * b.y + a.z * b.z

/-- Vector product `a.cross(b)`. -/
def Vector3d.cross (a b : Vector3d) : Vector3d :=
  ⟨a.y * b.z - a.z * b.y, a.z * b.x - a.x * b.z, a.x * b.y - a.y * b.x⟩

/-- Euclidean length `a.norm()`. -/
def Vector3d.norm (a : Vector3d) : ℝ := Real.sqrt (a.dot a)

/-- The value left in `a` by `a.normalize()`, which is `a /= a.norm()`.  On the zero
vector the code divides by zero and gets NaN components; here the quotient is Lean's
`0 / 0 = 0`, so every function that calls it tests the norm first, or calls it where the
norm cannot be zero (the two basis vectors of `construct`, after the test of line 34). -/
def Vector3d.normalized (a : Vector3d) : Vector3d :=
  ⟨a.x / a.norm, a.y / a.norm, a.z / a.norm⟩

/-- The zero vector. -/
def Vector3d.zero : Vector3d := ⟨0, 0, 0⟩

/-- First three entries of the plane equation, `p.segment<3>(0)` or `p.head<3>()`. -/
def Vector4d.head3 (p : Vector4d) : Vector3d := ⟨p.x, p.y, p.z⟩

/-! ## The primitive's state -/

/-- The data members of `plane_primitive` that the functions of
`plane_primitive.cpp` read or write. -/
structure plane_primitive where
  p : Vector4d
  basis : Basis
  c : Vector3d
  sizes : Vector2d
  quat : Quaterniond
  convex_hull : List Vector3d
  supporting_inds : List Int
  conforming_inds : List Int
  red : Nat
  green : Nat
  blue : Nat

/-! ## `construct` -/

/-- The test `acos(x) > threshold` of line 40.  The C library's `acos` returns NaN
outside `[-1, 1]`, and a comparison with NaN is false. -/
def acos_exceeds (x threshold : ℝ) : Prop :=
  -1 ≤ x ∧ x ≤ 1 ∧ threshold < Real.arccos x

instance acos_exceeds_decidable (x threshold : ℝ) : Decidable (acos_exceeds x threshold) := by
  unfold acos_exceeds
  infer_instance

/-- Lines 22-29 of `construct`: the normalised cross product of the two edge vectors,
negated when it points away from the measured normal of the first sample. -/
def fitted_normal (points normals : Fin 3 → Vector3d) : Vector3d :=
  let first := (points 1).sub (points 0)
  let second := (points 2).sub (points 0)
  let normal := (first.cross second).normalized
  if normal.dot (normals 0) < 0 then normal.scale (-1) else normal

/-- The three ways `construct` can end. -/
inductive construct_result where
  /-- Returned `false` at line 35: `p` holds non-finite values, which the model does
  not represent. -/
  | nonfinite : construct_result
  /-- Returned `false` at line 41, after `p` was written. -/
  | rejected : plane_primitive → construct_result
  /-- Returned `true` at line 51. -/
  | accepted : plane_primitive → construct_result

/-- The boolean returned by `construct`. -/
def construct_result.returned : construct_result → Bool
  | .nonfinite => false
  | .rejected _ => false
  | .accepted _ => true

/-- The plane equation `p` after `construct`, when it is finite. -/
def construct_result.equation : construct_result → Option Vector4d
  | .nonfinite => none
  | .rejected s => some s.p
  | .accepted s => some s.p

/-- Model of `plane_primitive::construct` (lines 18-52).  `points` and `normals` are the
three columns of the two matrices.  With finite inputs, `p` has a non-finite entry
exactly when `normalize()` divided by a zero norm, so the test of line 34 is the test
that the cross product has norm zero. -/
def plane_primitive.construct (self : plane_primitive) (points normals : Fin 3 → Vector3d)
    (inlier_threshold angle_threshold : ℝ) : construct_result :=
  let first := (points 1).sub (points 0)
  let second := (points 2).sub (points 0)
  if (first.cross second).norm = 0 then
    construct_result.nonfinite
  else
    let normal := fitted_normal points normals
    let s1 : plane_primitive :=
      { self with p := ⟨normal.x, normal.y, normal.z, -(normal.dot (points 0))⟩ }
    if acos_exceeds (normal.dot (normals 0)) angle_threshold
        ∨ acos_exceeds (normal.dot (normals 1)) angle_threshold
        ∨ acos_exceeds (normal.dot (normals 2)) angle_threshold then
      construct_result.rejected s1
    else
      let b0 := first.normalized
      let b1 := (normal.cross b0).normalized
      construct_result.accepted { s1 with basis := ⟨b0, b1⟩ }

/-- Three points are collinear when the two edge vectors out of the first point are
linearly dependent (this includes coincident points). -/
def collinear (p0 p1 p2 : Vector3d) : Prop :=
  ∃ a b : ℝ, (a ≠ 0 ∨ b ≠ 0) ∧
    ((p1.sub p0).scale a).add ((p2.sub p0).scale b) = Vector3d.zero

/-- The sample triple of the spec's scenario: `(0,0,0), (1,0,0), (0,1,0)`. -/
def scenario_points : Fin 3 → Vector3d :=
  ![⟨0, 0, 0⟩, ⟨1, 0, 0⟩, ⟨0, 1, 0⟩]

/-- The scenario with the last two points exchanged: `(0,0,0), (0,1,0), (1,0,0)`. -/
def mirrored_points : Fin 3 → Vector3d :=
  ![⟨0, 0, 0⟩, ⟨0, 1, 0⟩, ⟨1, 0, 0⟩]

/-- The normals of the spec's scenario: three times `(0,0,1)`. -/
def scenario_normals : Fin 3 → Vector3d :=
  fun _ => ⟨0, 0, 1⟩

/-- A receiver for the examples: every member zero or empty, identity orientation. -/
def plane_primitive.empty : plane_primitive :=
  { p := ⟨0, 0, 0, 0⟩, basis := ⟨Vector3d.zero, Vector3d.zero⟩, c := Vector3d.zero,
    sizes := ⟨0, 0⟩, quat := ⟨1, 0, 0, 0⟩, convex_hull := [], supporting_inds := [],
    conforming_inds := [], red := 0, green := 0, blue := 0 }

/-! ## `compute_inliers` -/

/-- Model of a `MatrixXd` with three rows (a point or normal array): the list of its
columns. -/
abbrev MatrixXd := List Vector3d

/-- The column access `m.col(i)` with an `int` index; `none` when the index is outside
the matrix (an out-of-bounds access in the code). -/
def MatrixXd.col (m : MatrixXd) (i : Int) : Option Vector3d :=
  if 0 ≤ i then m.get? i.toNat else none

/-- The loop of lines 231-239: `inliers` is the output vector, appended to by
`push_back`.  `none` stands for an out-of-bounds column access. -/
def plane_primitive.compute_inliers_loop (self : plane_primitive) (points normals : MatrixXd)
    (inlier_threshold cos_threshold : ℝ) : List Int → List Int → Option (List Int)
  | [], inliers => some inliers
  | i :: rest, inliers =>
    match points.col i, normals.col i with
    | some pt, some n =>
      if |pt.dot self.p.head3 + self.p.w| < inlier_threshold
          ∧ n.dot self.p.head3 > cos_threshold then
        self.compute_inliers_loop points normals inlier_threshold cos_threshold rest
          (inliers ++ [i])
      else
        self.compute_inliers_loop points normals inlier_threshold cos_threshold rest inliers
    | _, _ => none

/-- Model of `plane_primitive::compute_inliers` (lines 222-240).  The result pairs the
primitive after the call with the output vector. -/
def plane_primitive.compute_inliers (self : plane_primitive) (inliers : List Int)
    (points normals : MatrixXd) (inds : List Int) (inlier_threshold angle_threshold : ℝ) :
    Option (plane_primitive × List Int) :=
  let cos_threshold := Real.cos angle_threshold
  (self.compute_inliers_loop points normals inlier_threshold cos_threshold inds inliers).map
    (fun out => (self, out))

/-- The acceptance condition in the words of the spec: the point with index `i` is at
perpendicular distance `|n . pt + d| < inlier_threshold` from the plane and its measured
normal has `n . normal > cos angle_threshold`. -/
def is_inlier (self : plane_primitive) (points normals : MatrixXd)
    (inlier_threshold angle_threshold : ℝ) (i : Int) : Prop :=
  ∃ pt n, points.col i = some pt ∧ normals.col i = some n
    ∧ |self.p.head3.dot pt + self.p.w| < inlier_threshold
    ∧ Real.cos angle_threshold < self.p.head3.dot n

instance is_inlier_decidable (self : plane_primitive) (points normals : MatrixXd)
    (inlier_threshold angle_threshold : ℝ) (i : Int) :
    Decidable (is_inlier self points normals inlier_threshold angle_threshold i) :=
  Classical.propDecidable _

/-- Every index of `inds` addresses a column of both arrays. -/
def valid_inds (points normals : MatrixXd) (inds : List Int) : Prop :=
  ∀ i ∈ inds, 0 ≤ i ∧ i.toNat < points.length ∧ i.toNat < normals.length

/-- The horizontal plane `z = 0` with upward normal, for the examples. -/
def ground_plane : plane_primitive :=
  { plane_primitive.empty with p := ⟨0, 0, 1, 0⟩ }

/-- Four sample points for the examples: two on the ground plane, one far above it, one
slightly above it. -/
def sample_points : MatrixXd :=
  [⟨0, 0, 0⟩, ⟨1, 2, 0⟩, ⟨0, 0, 5⟩, ⟨3, 1, 1 / 100⟩]

/-- Four sample normals for the examples: up, down, up, up. -/
def sample_normals : MatrixXd :=
  [⟨0, 0, 1⟩, ⟨0, 0, -1⟩, ⟨0, 0, 1⟩, ⟨0, 0, 1⟩]

/-! ## Rasterisation and `largest_connected_component` -/

/-- Model of `Eigen::Vector2i`. -/
@[ext] structure Vector2i where
  x : Int
  y : Int

/-- The constant `INT32_MAX`. -/
def INT32_MAX : Int := 2147483647

/-- The value of an `int` expression on a two's complement machine. -/
def wrap32 (n : Int) : Int := (n + 2147483648) % 4294967296 - 2147483648

/-- The conversion `cast<int>()` of a `double`: truncation toward zero.  `none` when the
truncated value does not fit an `int`, where the conversion is undefined. -/
def cast_int (x : ℝ) : Option Int :=
  let t : Int := if 0 ≤ x then ⌊x⌋ else ⌈x⌉
  if -2147483648 ≤ t ∧ t ≤ 2147483647 then some t else none

/-- The expression `(scale * basis.transpose() * v).cast<int>()` of lines 114 and 253. -/
def plane_primitive.project_cell (self : plane_primitive) (scale : ℝ) (v : Vector3d) :
    Option Vector2i :=
  match cast_int (scale * self.basis.col0.dot v), cast_int (scale * self.basis.col1.dot v) with
  | some cx, some cy => some ⟨cx, cy⟩
  | _, _ => none

/-- The locals `minpt`, `maxpt` and `pts` of the two rasterising functions. -/
structure raster_scan where
  minpt : Vector2i
  maxpt : Vector2i
  pts : List Vector2i

/-- The initial values of lines 105-110 and 245-250. -/
def raster_scan.init : raster_scan :=
  { minpt := ⟨INT32_MAX, INT32_MAX⟩, maxpt := ⟨-INT32_MAX, -INT32_MAX⟩, pts := [] }

/-- One pass through the body of the loop of lines 115-128 and 254-267, for the cell
`pt`. -/
def raster_scan.push (r : raster_scan) (pt : Vector2i) : raster_scan :=
  { minpt := ⟨if pt.x < r.minpt.x then pt.x else r.minpt.x,
              if pt.y < r.minpt.y then pt.y else r.minpt.y⟩
    maxpt := ⟨if pt.x > r.maxpt.x then pt.x else r.maxpt.x,
              if pt.y > r.maxpt.y then pt.y else r.maxpt.y⟩
    pts := r.pts ++ [pt] }

/-- The loop of lines 113-129 and 252-268 over the index list `inds`.  `none` stands for
an out-of-bounds column access or an undefined conversion. -/
def plane_primitive.scan_cells (self : plane_primitive) (scale : ℝ) (points : MatrixXd) :
    List Int → raster_scan → Option raster_scan
  | [], r => some r
  | i :: rest, r =>
    match points.col i with
    | none => none
    | some v =>
      match self.project_cell scale v with
      | none => none
      | some pt => self.scan_cells scale points rest (r.push pt)

/-- The `int` value `1 + maxpt(0) - minpt(0)` of lines 131 and 270. -/
def raster_scan.width (r : raster_scan) : Int := wrap32 (1 + r.maxpt.x - r.minpt.x)

/-- The `int` value `1 + maxpt(1) - minpt(1)` of lines 132 and 271. -/
def raster_scan.height (r : raster_scan) : Int := wrap32 (1 + r.maxpt.y - r.minpt.y)

/-- Model of a `cv::Mat` with `int` entries: the list of its rows. -/
abbrev Mat := List (List Int)

/-- The matrix `cv::Mat::zeros(height, width, CV_32SC1)`. -/
def Mat.zeros (height width : Int) : Mat :=
  List.replicate height.toNat (List.replicate width.toNat 0)

/-- The read `m.at<int>(row, col)`; `none` outside the matrix. -/
def Mat.at (m : Mat) (row col : Int) : Option Int :=
  if 0 ≤ row ∧ 0 ≤ col then (m.get? row.toNat).bind (fun r => r.get? col.toNat) else none

/-- The write `m.at<int>(row, col) = v`; `none` outside the matrix. -/
def Mat.set (m : Mat) (row col : Int) (v : Int) : Option Mat :=
  match Mat.at m row col with
  | none => none
  | some _ => some (m.modify (fun r => r.set col.toNat v) row.toNat)

/-- The loop of lines 281-285 after `pp -= minpt`: every cell of `pts` is set to 1. -/
def mark_cells : Mat → List Vector2i → Option Mat
  | binary, [] => some binary
  | binary, pp :: rest =>
    match Mat.set binary pp.y pp.x 1 with
    | none => none
    | some b => mark_cells b rest

/-- The loop of lines 295-301: the indices whose cell carries the label `largest` are
appended to `inliers`. -/
def collect_largest (binary : Mat) (largest : Int) :
    List Vector2i → List Int → List Int → Option (List Int)
  | pp :: pts, i :: inds, inliers =>
    match Mat.at binary pp.y pp.x with
    | none => none
    | some label =>
      if label = largest then collect_largest binary largest pts inds (inliers ++ [i])
      else collect_largest binary largest pts inds inliers
  | _, _, inliers => some inliers

/-- Model of `plane_primitive::largest_connected_component` (lines 242-305); the result
is the output vector `inliers`.  The base-class members that are not in this file are
parameters: `find_blobs` labels the matrix in place and returns the label of the largest
blob, and `current_connectedness_res` is the value of `current_connectedness_res()`.
A zero resolution makes the scale non-finite and the conversion undefined. -/
def plane_primitive.largest_connected_component (self : plane_primitive)
    (find_blobs : Mat → Mat × Int) (current_connectedness_res : ℝ)
    (inliers : List Int) (points : MatrixXd) : Option (List Int) :=
  if current_connectedness_res = 0 then none
  else
    match self.scan_cells (1 / current_connectedness_res) points self.conforming_inds
        raster_scan.init with
    | none => none
    | some r =>
      let width := r.width
      let height := r.height
      if width < 10 ∨ height < 10 then
        some self.conforming_inds
      else
        let pts := r.pts.map
          (fun pp => (⟨wrap32 (pp.x - r.minpt.x), wrap32 (pp.y - r.minpt.y)⟩ : Vector2i))
        match mark_cells (Mat.zeros height width) pts with
        | none => none
        | some binary =>
          let labelled := find_blobs binary
          collect_largest labelled.1 labelled.2 pts self.conforming_inds inliers

/-- The raster cells of the points with the indices `inds`, one cell per index;
`none` when an index is outside `points` or a cell does not fit an `int`. -/
def plane_primitive.cells_of (self : plane_primitive) (scale : ℝ) (points : MatrixXd) :
    List Int → Option (List Vector2i)
  | [] => some []
  | i :: rest =>
    match points.col i with
    | none => none
    | some v =>
      match self.project_cell scale v with
      | none => none
      | some c => (self.cells_of scale points rest).map (fun cs => c :: cs)

/-- The raster cells of the conforming points in the words of the spec: the cell of a
point is the truncation of `basis^T . point / current_connectedness_res`. -/
def plane_primitive.conforming_cells (self : plane_primitive) (current_connectedness_res : ℝ)
    (points : MatrixXd) : Option (List Vector2i) :=
  if current_connectedness_res = 0 then none
  else self.cells_of (1 / current_connectedness_res) points self.conforming_inds

/-- The cells `cs` fit in fewer than ten columns, or in fewer than ten rows: their
bounding box is less than 10 cells wide or less than 10 cells high. -/
def tiny_footprint (cs : List Vector2i) : Prop :=
  (∃ lo hi : Int, (∀ c ∈ cs, lo ≤ c.x ∧ c.x ≤ hi) ∧ 1 + hi - lo < 10)
  ∨ (∃ lo hi : Int, (∀ c ∈ cs, lo ≤ c.y ∧ c.y ≤ hi) ∧ 1 + hi - lo < 10)

/-- A blob labelling for the examples that labels nothing. -/
def no_blobs : Mat → Mat × Int := fun m => (m, 0)

/-- The ground plane with the in-plane basis `x`, `y` and the conforming indices
`[3, 0, 1]`. -/
def ground_patch : plane_primitive :=
  { ground_plane with basis := ⟨⟨1, 0, 0⟩, ⟨0, 1, 0⟩⟩, conforming_inds := [3, 0, 1] }

/-! ## Rotations and `merge_planes` -/

/-- Entry `v(i)` of a vector. -/
def Vector3d.coeff (v : Vector3d) (i : Fin 3) : ℝ := ![v.x, v.y, v.z] i

/-- Entry `m(i, j)` (row `i`, column `j`) of a matrix. -/
def Matrix3d.coeff (m : Matrix3d) (i j : Fin 3) : ℝ := (![m.col0, m.col1, m.col2] j).coeff i

/-- The product `m * v`. -/
def Matrix3d.mulVec (m : Matrix3d) (v : Vector3d) : Vector3d :=
  ((m.col0.scale v.x).add (m.col1.scale v.y)).add (m.col2.scale v.z)

/-- The product `m.transpose() * v`. -/
def Matrix3d.transposeMulVec (m : Matrix3d) (v : Vector3d) : Vector3d :=
  ⟨m.col0.dot v, m.col1.dot v, m.col2.dot v⟩

/-- Eigen's `Quaterniond::toRotationMatrix()`, the conversion `Matrix3d R(q)`. -/
def Quaterniond.toRotationMatrix (q : Quaterniond) : Matrix3d :=
  let tx := 2 * q.x
  let ty := 2 * q.y
  let tz := 2 * q.z
  let twx := tx * q.w
  let twy := ty * q.w
  let twz := tz * q.w
  let txx := tx * q.x
  let txy := ty * q.x
  let txz := tz * q.x
  let tyy := ty * q.y
  let tyz := tz * q.y
  let tzz := tz * q.z
  { col0 := ⟨1 - (tyy + tzz), txy + twz, txz - twy⟩
    col1 := ⟨txy - twz, 1 - (txx + tzz), tyz + twx⟩
    col2 := ⟨txz + twy, tyz - twx, 1 - (txx + tyy)⟩ }

/-- Eigen's conversion `Quaterniond(mat)` of a rotation matrix (the trace-based
branches of `quaternionbase_assign_impl`). -/
def Quaterniond.ofMatrix (mat : Matrix3d) : Quaterniond :=
  let t := mat.coeff 0 0 + mat.coeff 1 1 + mat.coeff 2 2
  if t > 0 then
    let t1 := Real.sqrt (t + 1)
    let t2 := 0.5 / t1
    { w := 0.5 * t1
      x := (mat.coeff 2 1 - mat.coeff 1 2) * t2
      y := (mat.coeff 0 2 - mat.coeff 2 0) * t2
      z := (mat.coeff 1 0 - mat.coeff 0 1) * t2 }
  else
    let i0 : Fin 3 := if mat.coeff 1 1 > mat.coeff 0 0 then 1 else 0
    let i : Fin 3 := if mat.coeff 2 2 > mat.coeff i0 i0 then 2 else i0
    let j : Fin 3 := i + 1
    let k : Fin 3 := j + 1
    let t1 := Real.sqrt (mat.coeff i i - mat.coeff j j - mat.coeff k k + 1)
    let t2 := 0.5 / t1
    let xyz : Fin 3 → ℝ := fun a =>
      if a = i then 0.5 * t1
      else if a = j then (mat.coeff j i + mat.coeff i j) * t2
      else (mat.coeff k i + mat.coeff i k) * t2
    { w := (mat.coeff k j - mat.coeff j k) * t2, x := xyz 0, y := xyz 1, z := xyz 2 }

/-- Model of `plane_primitive::direction_and_center` (lines 327-337): the pair
`(direction, center)`. -/
def plane_primitive.direction_and_center (self : plane_primitive) : Vector3d × Vector3d :=
  (self.p.head3, self.c)

/-- Model of `plane_primitive::shape_data` (lines 344-356): the vector `data`. -/
def plane_primitive.shape_data (self : plane_primitive) : List ℝ :=
  [self.p.x, self.p.y, self.p.z, self.p.w, self.sizes.x, self.sizes.y,
    self.c.x, self.c.y, self.c.z, self.quat.x, self.quat.y, self.quat.z, self.quat.w]

/-- Model of `plane_primitive::shape_points` (lines 358-361). -/
def plane_primitive.shape_points (self : plane_primitive) : List Vector3d :=
  self.convex_hull

/-- The entry `data(i)` of a `VectorXd`. -/
def VectorXd_at (data : List ℝ) (i : Nat) : ℝ := data.getD i 0

/-- The library call `std::sort` on a vector of `int`. -/
def std_sort (l : List Int) : List Int := l.insertionSort (fun a b => a ≤ b)

/-- The three ways `merge_planes` can end.  A `normalize()` that divides by a zero norm
leaves non-finite values, which the model does not represent: the outcome then lists the
members that the call has written with finite values. -/
inductive merge_result where
  /-- The call `v.normalize()` of line 378 divided by zero: `p`, `basis`, `quat` and every
  vertex of `convex_hull` are non-finite.  The arguments are `c`, the three colours and
  `supporting_inds` after the call. -/
  | nonfinite_normal (c : Vector3d) (red green blue : Nat) (supporting_inds : List Int) :
      merge_result
  /-- A call of `normalize()` at line 390 or 392 divided by zero: `basis`, `quat` and
  every vertex of `convex_hull` are non-finite.  The arguments are `p`, `c`, the three
  colours and `supporting_inds` after the call. -/
  | nonfinite_frame (p : Vector4d) (c : Vector3d) (red green blue : Nat)
      (supporting_inds : List Int) : merge_result
  /-- No `normalize()` divided by zero; the primitive after the call. -/
  | merged : plane_primitive → merge_result

/-- The member `supporting_inds` after `merge_planes`, which is written in every case. -/
def merge_result.supporting_inds : merge_result → List Int
  | .nonfinite_normal _ _ _ _ inds => inds
  | .nonfinite_frame _ _ _ _ _ inds => inds
  | .merged s => s.supporting_inds

/-- The member `c` after `merge_planes`, which is finite in every case. -/
def merge_result.c : merge_result → Vector3d
  | .nonfinite_normal c _ _ _ _ => c
  | .nonfinite_frame _ c _ _ _ _ => c
  | .merged s => s.c

/-- The plane equation `p` after `merge_planes`, when it is finite. -/
def merge_result.equation : merge_result → Option Vector4d
  | .nonfinite_normal _ _ _ _ _ => none
  | .nonfinite_frame p _ _ _ _ _ => some p
  | .merged s => some s.p

/-- Model of `plane_primitive::merge_planes` (lines 363-430), for a receiver that is
neither of the two arguments.  `convex_hull_fn mean points` is the hull written by the
static `base_primitive::convex_hull(hull, mean, points)`, which is not in this file.
Each of the three `normalize()` calls (lines 378, 390, 392) is preceded by the test
whether it divides by a zero norm.  When both siblings have an empty hull, line 407
divides the zero vector by zero; the routine then has no point to build a hull from, and
`convex_hull_fn` stands for an arbitrary routine, so its result on the empty list covers
that case. -/
def plane_primitive.merge_planes (self : plane_primitive)
    (convex_hull_fn : Vector3d → List Vector3d → List Vector3d)
    (other1 other2 : plane_primitive) : merge_result :=
  let v_p := other1.direction_and_center.1
  let c_p := other1.direction_and_center.2
  let v_q := other2.direction_and_center.1
  let c_q := other2.direction_and_center.2
  let c := (c_p.add c_q).scale 0.5
  let v0 := if v_p.dot v_q > 0 then v_p.add v_q else v_p.sub v_q
  let supporting_inds := std_sort (other1.supporting_inds ++ other2.supporting_inds)
  if v0.norm = 0 then
    merge_result.nonfinite_normal c other1.red other1.green other1.blue supporting_inds
  else
    let v := v0.normalized
    let d := -(v.dot c)
    let data := other1.shape_data
    let q_p : Quaterniond :=
      { w := VectorXd_at data 12, x := VectorXd_at data 9, y := VectorXd_at data 10,
        z := VectorXd_at data 11 }
    let R_p := q_p.toRotationMatrix
    let r10 := R_p.col1.sub (v.scale (v.dot R_p.col1))
    if r10.norm = 0 then
      merge_result.nonfinite_frame ⟨v.x, v.y, v.z, d⟩ c other1.red other1.green other1.blue
        supporting_inds
    else
      let r1 := r10.normalized
      let r20 := v.cross r1
      if r20.norm = 0 then
        merge_result.nonfinite_frame ⟨v.x, v.y, v.z, d⟩ c other1.red other1.green other1.blue
          supporting_inds
      else
        let r2 := r20.normalized
        let R : Matrix3d := { col0 := v, col1 := r1, col2 := r2 }
        let hull1 := other1.shape_points
        let hull2 := other2.shape_points
        let points := (hull1 ++ hull2).map R.transposeMulVec
        let total := points.foldl Vector3d.add Vector3d.zero
        let mean : Vector3d :=
          ⟨total.x / (points.length : ℝ), total.y / (points.length : ℝ),
            total.z / (points.length : ℝ)⟩
        let hull := (convex_hull_fn mean points).map (fun point =>
          let dist := v.dot (R.mulVec point) + d
          R.mulVec ⟨point.x - dist, point.y, point.z⟩)
        merge_result.merged
          { self with
            c := c
            quat := Quaterniond.ofMatrix R
            basis := ⟨R.col1, R.col2⟩
            convex_hull := hull
            p := ⟨v.x, v.y, v.z, d⟩
            red := other1.red
            green := other1.green
            blue := other1.blue
            supporting_inds := supporting_inds }

/-- A hull routine for the examples that returns its input points. -/
def keep_points : Vector3d → List Vector3d → List Vector3d := fun _ pts => pts

/-- A second patch of the ground plane for the examples, centred at `(2, 0, 0)`. -/
def ground_neighbour : plane_primitive :=
  { ground_plane with c := ⟨2, 0, 0⟩, supporting_inds := [2, 5] }

/-! ## `find_smallest_enclosing_box` -/

/-- Componentwise sum of 2-D vectors. -/
def Vector2d.add (a b : Vector2d) : Vector2d := ⟨a.x + b.x, a.y + b.y⟩

/-- Componentwise difference of 2-D vectors. -/
def Vector2d.sub (a b : Vector2d) : Vector2d := ⟨a.x - b.x, a.y - b.y⟩

/-- Scalar multiple of a 2-D vector. -/
def Vector2d.scale (k : ℝ) (a : Vector2d) : Vector2d := ⟨k * a.x, k * a.y⟩

/-- Inner product of 2-D vectors. -/
def Vector2d.dot (a b : Vector2d) : ℝ := a.x * b.x + a.y * b.y

/-- Euclidean length of a 2-D vector. -/
def Vector2d.norm (a : Vector2d) : ℝ := Real.sqrt (a.dot a)

/-- The value left in `a` by `a.normalize()` (see `Vector3d.normalized`). -/
def Vector2d.normalized (a : Vector2d) : Vector2d := ⟨a.x / a.norm, a.y / a.norm⟩

/-- Model of `cv::Point`, a pixel with `int` coordinates. -/
@[ext] structure Point where
  x : Int
  y : Int

/-- The conversion loop of lines 63-67. -/
def to_dpts (pts : List Point) : List Vector2d :=
  pts.map (fun q => (⟨(q.x : ℝ), (q.y : ℝ)⟩ : Vector2d))

/-- The three outputs `cmin`, `axes`, `lengths` of `find_smallest_enclosing_box`. -/
structure box where
  cmin : Vector2d
  axes : Matrix2d
  lengths : Vector2d

/-- The locals `widthmin`, `widthmax`, `heightmax` of the inner loop; `none` is the
initial `INFINITY` of `widthmin` and the initial `-INFINITY` of `widthmax`. -/
structure extent where
  widthmin : Option ℝ
  widthmax : Option ℝ
  heightmax : ℝ

/-- The initial values of lines 74-76. -/
def extent.init : extent := { widthmin := none, widthmax := none, heightmax := 0 }

/-- The body of the inner loop (lines 78-88) for the vertex `q`, with `base = dpts[i]`.
Every finite projection is below `INFINITY` and above `-INFINITY`. -/
def extent.step (vec ovec base : Vector2d) (e : extent) (q : Vector2d) : extent :=
  let proj := vec.dot (q.sub base)
  let oproj := ovec.dot (q.sub base)
  { widthmin :=
      match e.widthmin with
      | none => some proj
      | some m => if proj < m then some proj else some m
    widthmax :=
      match e.widthmax with
      | none => some proj
      | some m => if proj > m then some proj else some m
    heightmax := if |oproj| > |e.heightmax| then oproj else e.heightmax }

/-- One pass through the body of the outer loop (lines 70-91 and 94-97) for the edge
`i`: the candidate area and the outputs this edge would write.  `none` means that the
test `area < areamin` of line 92 is false whatever `areamin` is.  That is the case of an
edge of length zero: `normalize()` makes `vec` and `ovec` NaN, every comparison of the
inner loop is false, `width` is `-INFINITY - INFINITY` and `area` is NaN.  (It would
also be the case if the inner loop had left `widthmin` or `widthmax` infinite.) -/
def edge_candidate (dpts : List Vector2d) (i : Nat) : Option (ℝ × box) :=
  match dpts.get? i, dpts.get? ((i + 1) % dpts.length) with
  | some a, some a1 =>
    let vec0 := a1.sub a
    if vec0.norm = 0 then none
    else
      let ovec := (⟨-vec0.y, vec0.x⟩ : Vector2d).normalized
      let vec := vec0.normalized
      let e := dpts.foldl (extent.step vec ovec a) extent.init
      match e.widthmin, e.widthmax with
      | some widthmin, some widthmax =>
        let width := widthmax - widthmin
        let area := |e.heightmax| * width
        some (area,
          { cmin := a.add ((((vec.scale widthmin).add (vec.scale widthmax)).add
              (ovec.scale e.heightmax)).scale 0.5)
            axes := ⟨vec, ovec⟩
            lengths := ⟨width, e.heightmax⟩ })
      | _, _ => none
  | _, _ => none

/-- The update of lines 92-98: `best` is `areamin` with the outputs written so far,
`none` while `areamin` is still `INFINITY` and no output has been written. -/
def box_update (dpts : List Vector2d) (best : Option (ℝ × box)) (i : Nat) :
    Option (ℝ × box) :=
  match edge_candidate dpts i with
  | none => best
  | some cand =>
    match best with
    | none => some cand
    | some b => if cand.1 < b.1 then some cand else some b

/-- Model of `plane_primitive::find_smallest_enclosing_box` (lines 55-100).  The result
is `none` when the function returns without having written `cmin`, `axes` and
`lengths`. -/
def find_smallest_enclosing_box (pts : List Point) : Option box :=
  let dpts := to_dpts pts
  ((List.range dpts.length).foldl (box_update dpts) none).map Prod.snd

/-- The candidate area `|height| * width` of a rectangle with the given `lengths`. -/
def box.area (b : box) : ℝ := |b.lengths.y| * b.lengths.x

/-- The rectangle data that the claim attaches to the edge `i -> i+1 (mod n)`, in the
claim's words: `vec` is the unit edge direction and `ovec` its perpendicular; `lo` and
`hi` are the least and the greatest projection of the vertices onto `vec`, `h` is a
signed projection onto `ovec` of largest absolute value; the lengths are
`(hi - lo, h)`, the axes `(vec, ovec)`, the center `vertex_i + 0.5 * ((lo + hi) * vec +
h * ovec)`. -/
def is_edge_box (dpts : List Vector2d) (i : Nat) (b : box) : Prop :=
  ∃ a a1 vec ovec : Vector2d, ∃ lo hi h : ℝ,
    dpts.get? i = some a ∧ dpts.get? ((i + 1) % dpts.length) = some a1
    ∧ vec.norm = 1 ∧ (∃ k : ℝ, 0 < k ∧ a1.sub a = vec.scale k)
    ∧ ovec = ⟨-vec.y, vec.x⟩
    ∧ (∃ q ∈ dpts, vec.dot (q.sub a) = lo) ∧ (∀ q ∈ dpts, lo ≤ vec.dot (q.sub a))
    ∧ (∃ q ∈ dpts, vec.dot (q.sub a) = hi) ∧ (∀ q ∈ dpts, vec.dot (q.sub a) ≤ hi)
    ∧ (∃ q ∈ dpts, ovec.dot (q.sub a) = h) ∧ (∀ q ∈ dpts, |ovec.dot (q.sub a)| ≤ |h|)
    ∧ b.lengths = ⟨hi - lo, h⟩
    ∧ b.axes = ⟨vec, ovec⟩
    ∧ b.cmin = a.add (((vec.scale (lo + hi)).add (ovec.scale h)).scale 0.5)

/-- The claim about `find_smallest_enclosing_box` at the polygon `pts`: the function
returns the data of the first edge that minimises the candidate area. -/
def returns_first_minimal_edge (pts : List Point) : Prop :=
  ∃ i b, i < pts.length ∧ find_smallest_enclosing_box pts = some b
    ∧ is_edge_box (to_dpts pts) i b
    ∧ (∀ j bj, j < pts.length → is_edge_box (to_dpts pts) j bj → b.area ≤ bj.area)
    ∧ (∀ j bj, j < i → is_edge_box (to_dpts pts) j bj → b.area < bj.area)

/-- The polygon has an edge `i -> i+1 (mod n)` of non-zero length. -/
def has_proper_edge (pts : List Point) : Prop :=
  ∃ i a a1, (to_dpts pts).get? i = some a
    ∧ (to_dpts pts).get? ((i + 1) % (to_dpts pts).length) = some a1 ∧ a1 ≠ a

/-- The hull that `compute_shape_size` builds at line 137 for a footprint of one cell
(`width = height = 1`): four times the pixel `(0, 0)`. -/
def one_cell_hull : List Point := [⟨0, 0⟩, ⟨0, 0⟩, ⟨0, 0⟩, ⟨0, 0⟩]

/-- The hull that `compute_shape_size` builds at line 137 for a footprint of 2 x 4
cells: an axis-aligned rectangle. -/
def two_by_four_hull : List Point := [⟨0, 0⟩, ⟨0, 3⟩, ⟨1, 3⟩, ⟨1, 0⟩]

/-! ## `distance_to_pt` and `switch_direction` -/

/-- Model of `plane_primitive::distance_to_pt` (lines 322-325). -/
def plane_primitive.distance_to_pt (self : plane_primitive) (pt : Vector3d) : ℝ :=
  |pt.dot self.p.head3 + self.p.w|

/-- The vector `-p`. -/
def Vector4d.neg (p : Vector4d) : Vector4d := ⟨-p.x, -p.y, -p.z, -p.w⟩

/-- Model of `Eigen::AngleAxisd`: an angle and an axis (stored as given, not
normalised). -/
structure AngleAxisd where
  angle : ℝ
  axis : Vector3d

/-- Eigen's conversion of an angle-axis to a quaternion: `w = cos (angle / 2)`,
`vec = sin (angle / 2) * axis`. -/
def AngleAxisd.toQuaternion (aa : AngleAxisd) : Quaterniond :=
  let ha := 0.5 * aa.angle
  { w := Real.cos ha
    x := Real.sin ha * aa.axis.x
    y := Real.sin ha * aa.axis.y
    z := Real.sin ha * aa.axis.z }

/-- Eigen's quaternion product `a * b`. -/
def Quaterniond.mul (a b : Quaterniond) : Quaterniond :=
  { w := a.w * b.w - a.x * b.x - a.y * b.y - a.z * b.z
    x := a.w * b.x + a.x * b.w + a.y * b.z - a.z * b.y
    y := a.w * b.y + a.y * b.w + a.z * b.x - a.x * b.z
    z := a.w * b.z + a.z * b.w + a.x * b.y - a.y * b.x }

/-- Eigen's `AngleAxisd::toRotationMatrix()` (Rodrigues' formula as Eigen writes it). -/
def AngleAxisd.toRotationMatrix (aa : AngleAxisd) : Matrix3d :=
  let sin_axis := aa.axis.scale (Real.sin aa.angle)
  let c := Real.cos aa.angle
  let cos1_axis := aa.axis.scale (1 - c)
  { col0 := ⟨cos1_axis.x * aa.axis.x + c,
             cos1_axis.x * aa.axis.y + sin_axis.z,
             cos1_axis.x * aa.axis.z - sin_axis.y⟩
    col1 := ⟨cos1_axis.x * aa.axis.y - sin_axis.z,
             cos1_axis.y * aa.axis.y + c,
             cos1_axis.y * aa.axis.z + sin_axis.x⟩
    col2 := ⟨cos1_axis.x * aa.axis.z + sin_axis.y,
             cos1_axis.y * aa.axis.z - sin_axis.x,
             cos1_axis.z * aa.axis.z + c⟩ }

/-- Model of `plane_primitive::switch_direction` (lines 432-440).  `M_PI` is the real
number pi; `aa * quat` is the product of the quaternion of `aa` with `quat`, and
`aa * v` is the product of the rotation matrix of `aa` with `v`. -/
def plane_primitive.switch_direction (self : plane_primitive) : plane_primitive :=
  let RR := self.quat.toRotationMatrix
  let aa : AngleAxisd := { angle := Real.pi, axis := RR.col1 }
  { self with
    p := self.p.neg
    quat := aa.toQuaternion.mul self.quat
    basis := ⟨aa.toRotationMatrix.mulVec self.basis.col0,
              aa.toRotationMatrix.mulVec self.basis.col1⟩ }

/-! ## `compute_shape_size` -/

/-- The loop of lines 141-143: the cell of every point, taken relative to `minpt`, is
set to 255.  `none` stands for a write outside the matrix. -/
def mark_footprint (minpt : Vector2i) : Mat → List Vector2i → Option Mat
  | binary, [] => some binary
  | binary, pp :: rest =>
    match Mat.set binary (wrap32 (pp.y - minpt.y)) (wrap32 (pp.x - minpt.x)) 255 with
    | none => none
    | some b => mark_footprint minpt b rest

/-- The loop of lines 173-178 over the contours after the first: `i` is the index of the
head of the list, `maxind` and `maxval` are the locals of the code. -/
def largest_contour_loop : List (List Point) → Nat → Nat → Nat → Nat
  | [], _, maxind, _ => maxind
  | c :: rest, i, maxind, maxval =>
    if c.length > maxval then largest_contour_loop rest (i + 1) i c.length
    else largest_contour_loop rest (i + 1) maxind maxval

/-- Lines 165-178: `none` when there is no contour, else the first contour with the most
vertices, `contours[maxind]`. -/
def largest_contour (contours : List (List Point)) : Option (List Point) :=
  match contours with
  | [] => none
  | c0 :: rest => contours.get? (largest_contour_loop rest 1 0 c0.length)

/-- The three ways the first part of `compute_shape_size` (lines 104-195) can end. -/
inductive footprint_result where
  /-- An out-of-bounds access or an undefined conversion happened. -/
  | fault : footprint_result
  /-- No contour was found: the function returns at line 168. -/
  | no_contours : footprint_result
  /-- The scan and the hull `hull[0]` that the second part works on. -/
  | hull : raster_scan → List Point → footprint_result

/-- Lines 104-195 of `compute_shape_size`: the raster scan of the supporting points at
the scale `0.5 / connectedness_res` and the hull of the footprint.  The OpenCV routines
are parameters: `findContours binary` is the list of contours and `convexHull contour`
the hull of a contour.  A zero resolution makes the scale non-finite and the conversion
undefined. -/
def plane_primitive.footprint (self : plane_primitive) (connectedness_res : ℝ)
    (findContours : Mat → List (List Point)) (convexHull : List Point → List Point)
    (points : MatrixXd) : footprint_result :=
  if connectedness_res = 0 then footprint_result.fault
  else
    match self.scan_cells (0.5 / connectedness_res) points self.supporting_inds
        raster_scan.init with
    | none => footprint_result.fault
    | some r =>
      let width := r.width
      let height := r.height
      if width ≤ 2 ∨ height ≤ 2 then
        footprint_result.hull r
          [⟨0, 0⟩, ⟨0, wrap32 (height - 1)⟩, ⟨wrap32 (width - 1), wrap32 (height - 1)⟩,
            ⟨wrap32 (width - 1), 0⟩]
      else
        match mark_footprint r.minpt (Mat.zeros height width) r.pts with
        | none => footprint_result.fault
        | some binary =>
          match largest_contour (findContours binary) with
          | none => footprint_result.no_contours
          | some contour => footprint_result.hull r (convexHull contour)

/-- The four ways `compute_shape_size` can end. -/
inductive shape_size_result where
  /-- An out-of-bounds access or an undefined conversion happened. -/
  | fault : shape_size_result
  /-- Returned at line 168 without changing the primitive. -/
  | aborted : shape_size_result
  /-- Ran to line 220, but a `normalize()` of lines 207-211 divided by zero: `quat` is
  non-finite, which the model does not represent.  The arguments are the members `c`,
  `sizes` and `convex_hull` after the call; the other members are not written. -/
  | nonfinite (c : Vector3d) (sizes : Vector2d) (convex_hull : List Vector3d) :
      shape_size_result
  /-- Ran to line 220 and no `normalize()` divided by zero; the primitive after the
  call. -/
  | completed : plane_primitive → shape_size_result

/-- The member `c` after a `compute_shape_size` that ran to line 220. -/
def shape_size_result.c : shape_size_result → Option Vector3d
  | .fault => none
  | .aborted => none
  | .nonfinite c _ _ => some c
  | .completed s => some s.c

/-- The member `sizes` after a `compute_shape_size` that ran to line 220. -/
def shape_size_result.sizes : shape_size_result → Option Vector2d
  | .fault => none
  | .aborted => none
  | .nonfinite _ sizes _ => some sizes
  | .completed s => some s.sizes

/-- The member `convex_hull` after a `compute_shape_size` that ran to line 220. -/
def shape_size_result.convex_hull : shape_size_result → Option (List Vector3d)
  | .fault => none
  | .aborted => none
  | .nonfinite _ _ hull => some hull
  | .completed s => some s.convex_hull

/-- The product `basis * v` of the 3x2 matrix with a 2-vector. -/
def Basis.mulVec (basis : Basis) (v : Vector2d) : Vector3d :=
  (basis.col0.scale v.x).add (basis.col1.scale v.y)

/-- Lines 201-202 and 217-218: the point `2 * connectedness_res * basis * v` moved along
the normal onto the plane. -/
def plane_primitive.lift_to_plane (self : plane_primitive) (connectedness_res : ℝ)
    (v : Vector2d) : Vector3d :=
  let p3 := (self.basis.mulVec v).scale (2.0 * connectedness_res)
  p3.sub (self.p.head3.scale (self.p.w + p3.dot self.p.head3))

/-- Model of `plane_primitive::compute_shape_size` (lines 102-220).  `uninit` holds the
values that the uninitialised locals `c2`, `axes`, `lengths` have before the call of
`find_smallest_enclosing_box`; they are used when that call writes nothing.  The three
`normalize()` calls of lines 207-211 are preceded by the test whether one of them divides
by a zero norm. -/
def plane_primitive.compute_shape_size (self : plane_primitive) (connectedness_res : ℝ)
    (findContours : Mat → List (List Point)) (convexHull : List Point → List Point)
    (uninit : box) (points : MatrixXd) : shape_size_result :=
  match self.footprint connectedness_res findContours convexHull points with
  | footprint_result.fault => shape_size_result.fault
  | footprint_result.no_contours => shape_size_result.aborted
  | footprint_result.hull r hull =>
    let b := (find_smallest_enclosing_box hull).getD uninit
    let c := self.lift_to_plane connectedness_res
      ((⟨(r.minpt.x : ℝ), (r.minpt.y : ℝ)⟩ : Vector2d).add b.cmin)
    let sizes : Vector2d :=
      ⟨2.0 * connectedness_res * |b.lengths.x|, 2.0 * connectedness_res * |b.lengths.y|⟩
    let convex_hull := hull.map (fun p2 =>
      self.lift_to_plane connectedness_res
        ⟨((wrap32 (r.minpt.x + p2.x) : Int) : ℝ), ((wrap32 (r.minpt.y + p2.y) : Int) : ℝ)⟩)
    if self.p.head3.norm = 0 ∨ (self.basis.mulVec b.axes.col0).norm = 0
        ∨ (self.basis.mulVec b.axes.col1).norm = 0 then
      shape_size_result.nonfinite c sizes convex_hull
    else
      let R : Matrix3d :=
        { col0 := self.p.head3.normalized
          col1 := (self.basis.mulVec b.axes.col0).normalized
          col2 := (self.basis.mulVec b.axes.col1).normalized }
      shape_size_result.completed
        { self with
          c := c
          sizes := sizes
          quat := Quaterniond.ofMatrix R
          convex_hull := convex_hull }

/-- A patch of the ground plane for the examples, with the supporting indices
`[1, 4]`. -/
def patch_a : plane_primitive :=
  { ground_plane with supporting_inds := [1, 4] }

/-- A patch of the ground plane for the examples, with the supporting indices `[2, 4]`:
it shares the index 4 with `patch_a`. -/
def patch_b : plane_primitive :=
  { ground_plane with c := ⟨2, 0, 0⟩, supporting_inds := [2, 4] }

/-! ## Invariants of the primitive -/

/-- The squared norm of a quaternion. -/
def Quaterniond.normSq (q : Quaterniond) : ℝ := q.w * q.w + q.x * q.x + q.y * q.y + q.z * q.z

/-- The quaternion `-q`, which stands for the same rotation as `q`. -/
def Quaterniond.neg (q : Quaterniond) : Quaterniond := ⟨-q.w, -q.x, -q.y, -q.z⟩

/-- The matrix `|q|^2 * R(q)` written as a homogeneous polynomial in the coefficients of
`q`; it is `q.toRotationMatrix` when `q` has norm 1, and it is multiplicative for every
`q`. -/
def Quaterniond.homogeneousMatrix (q : Quaterniond) : Matrix3d :=
  { col0 := ⟨q.w * q.w + q.x * q.x - q.y * q.y - q.z * q.z,
             2 * (q.x * q.y + q.w * q.z), 2 * (q.x * q.z - q.w * q.y)⟩
    col1 := ⟨2 * (q.x * q.y - q.w * q.z),
             q.w * q.w - q.x * q.x + q.y * q.y - q.z * q.z, 2 * (q.y * q.z + q.w * q.x)⟩
    col2 := ⟨2 * (q.x * q.z + q.w * q.y), 2 * (q.y * q.z - q.w * q.x),
             q.w * q.w - q.x * q.x - q.y * q.y + q.z * q.z⟩ }

/-- The matrix product `a * b`. -/
def Matrix3d.mul (a b : Matrix3d) : Matrix3d :=
  { col0 := a.mulVec b.col0, col1 := a.mulVec b.col1, col2 := a.mulVec b.col2 }

/-- A proper rotation: the columns are orthonormal and right-handed. -/
def Matrix3d.is_rotation (m : Matrix3d) : Prop :=
  m.col0.dot m.col0 = 1 ∧ m.col1.dot m.col1 = 1 ∧ m.col2.dot m.col2 = 1
  ∧ m.col0.dot m.col1 = 0 ∧ m.col0.dot m.col2 = 0 ∧ m.col1.dot m.col2 = 0
  ∧ m.col0.cross m.col1 = m.col2

/-- The basis predicate: the two basis vectors are orthonormal, both are orthogonal to
the stored normal `n`, and `basis[1] = n x basis[0]`. -/
def plane_primitive.basis_ok (self : plane_primitive) : Prop :=
  self.basis.col0.dot self.basis.col0 = 1 ∧ self.basis.col1.dot self.basis.col1 = 1
  ∧ self.basis.col0.dot self.basis.col1 = 0
  ∧ self.p.head3.dot self.basis.col0 = 0 ∧ self.p.head3.dot self.basis.col1 = 0
  ∧ self.basis.col1 = self.p.head3.cross self.basis.col0

/-- The stored orientation is a unit quaternion whose rotation has the stored normal as
first axis. -/
def plane_primitive.orientation_ok (self : plane_primitive) : Prop :=
  self.quat.normSq = 1 ∧ self.quat.toRotationMatrix.col0 = self.p.head3

/-- The relations between the nine entries `(a b c; d e f; g h k)` of a proper rotation
matrix: orthonormal columns, orthonormal rows, and every entry equal to its cofactor. -/
def rotation_entries (a b c d e f g h k : ℝ) : Prop :=
  (a * a + d * d + g * g = 1 ∧ b * b + e * e + h * h = 1 ∧ c * c + f * f + k * k = 1
    ∧ a * b + d * e + g * h = 0 ∧ a * c + d * f + g * k = 0 ∧ b * c + e * f + h * k = 0)
  ∧ (a * a + b * b + c * c = 1 ∧ d * d + e * e + f * f = 1 ∧ g * g + h * h + k * k = 1
    ∧ a * d + b * e + c * f = 0 ∧ a * g + b * h + c * k = 0 ∧ d * g + e * h + f * k = 0)
  ∧ (a = e * k - f * h ∧ b = f * g - d * k ∧ c = d * h - e * g
    ∧ d = c * h - b * k ∧ e = a * k - c * g ∧ f = b * g - a * h
    ∧ g = b * f - c * e ∧ h = c * d - a * f ∧ k = a * e - b * d)

/-- The nine entries of the rotation matrix that Eigen builds from the quaternion
`(w, x, y, z)` are `(a b c; d e f; g h k)`, and the quaternion has norm 1. -/
def quaternion_entries (w x y z a b c d e f g h k : ℝ) : Prop :=
  1 - (2 * y * y + 2 * z * z) = a ∧ 2 * y * x - 2 * z * w = b ∧ 2 * z * x + 2 * y * w = c
  ∧ 2 * y * x + 2 * z * w = d ∧ 1 - (2 * x * x + 2 * z * z) = e ∧ 2 * z * y - 2 * x * w = f
  ∧ 2 * z * x - 2 * y * w = g ∧ 2 * z * y + 2 * x * w = h ∧ 1 - (2 * x * x + 2 * y * y) = k
  ∧ w * w + x * x + y * y + z * z = 1

/-- The ten products of two coefficients of the quaternion `(w, x, y, z)`, expressed by
the entries `(a b c; d e f; g h k)` of its rotation matrix. -/
def quaternion_products (w x y z a b c d e f g h k : ℝ) : Prop :=
  4 * (w * w) = 1 + a + e + k ∧ 4 * (x * x) = 1 + a - e - k ∧ 4 * (y * y) = 1 - a + e - k
  ∧ 4 * (z * z) = 1 - a - e + k
  ∧ 4 * (w * x) = h - f ∧ 4 * (w * y) = c - g ∧ 4 * (w * z) = d - b
  ∧ 4 * (x * y) = d + b ∧ 4 * (x * z) = c + g ∧ 4 * (y * z) = f + h

/-! ## Examples for the footprint -/

/-- The axis-aligned rectangle hull with the vertices `(0,0), (0,H), (W,H), (W,0)`, in
this order: the hull that line 137 builds with `W = width - 1`, `H = height - 1`. -/
def rectangle_hull (W H : Int) : List Point := [⟨0, 0⟩, ⟨0, H⟩, ⟨W, H⟩, ⟨W, 0⟩]

/-- The primitive that `construct` leaves for the spec's scenario, with the supporting
indices `[0, 1]`. -/
def scenario_patch : plane_primitive :=
  { plane_primitive.empty with
    p := ⟨0, 0, 1, 0⟩
    basis := ⟨⟨1, 0, 0⟩, ⟨0, 1, 0⟩⟩
    supporting_inds := [0, 1] }

/-- A contour routine for the examples that finds nothing. -/
def no_contours : Mat → List (List Point) := fun _ => []

/-- A hull routine for the examples that returns the contour. -/
def keep_contour : List Point → List Point := fun c => c

/-- A sample triple in the plane `y = 0`: `(0,0,0), (0,0,1), (1,0,0)`. -/
def tilted_points : Fin 3 → Vector3d :=
  ![⟨0, 0, 0⟩, ⟨0, 0, 1⟩, ⟨1, 0, 0⟩]

/-- The measured normals of `tilted_points`: three times `(0,1,0)`. -/
def tilted_normals : Fin 3 → Vector3d :=
  fun _ => ⟨0, 1, 0⟩

/-- The primitive that `construct` makes of `plane_primitive.empty` on `tilted_points`:
the normal is `(0,1,0)`, the basis is `(0,0,1), (1,0,0)`, and the orientation is still
the identity, whose axes are `x, y, z`. -/
def tilted : plane_primitive :=
  { plane_primitive.empty with
    p := ⟨0, 1, 0, 0⟩
    basis := ⟨⟨0, 0, 1⟩, ⟨1, 0, 0⟩⟩ }

/-- A primitive whose identity orientation fits its plane: the normal is `(1,0,0)` and
the basis is `(0,1,0), (0,0,1)`. -/
def upright : plane_primitive :=
  { plane_primitive.empty with
    p := ⟨1, 0, 0, 0⟩
    basis := ⟨⟨0, 1, 0⟩, ⟨0, 0, 1⟩⟩ }

/-! ## The life cycle of the orientation -/

/-- The matrix has `h` rows of `w` entries each. -/
def Mat.has_shape (m : Mat) (h w : Nat) : Prop :=
  m.length = h ∧ ∀ row ∈ m, row.length = w

/-- The labelling leaves the size of the matrix as it is: `find_blobs` labels its
argument in place. -/
def keeps_shape (find_blobs : Mat → Mat × Int) : Prop :=
  ∀ m h w, Mat.has_shape m h w → Mat.has_shape (find_blobs m).1 h w

/-! ## Convex polygons -/

/-- The 2-D cross product `a.x * b.y - a.y * b.x`: positive when `b` points to the left
of `a`. -/
def Vector2d.cross (a b : Vector2d) : ℝ := a.x * b.y - a.y * b.x

/-- A convex polygon given in boundary order: every vertex lies on the same closed side
of the line through every edge `i -> i+1 (mod n)`, the left side for all edges
(counter-clockwise order) or the right side for all edges (clockwise order). -/
def convex_in_order (dpts : List Vector2d) : Prop :=
  (∀ i a a1, dpts.get? i = some a → dpts.get? ((i + 1) % dpts.length) = some a1 →
    ∀ q ∈ dpts, 0 ≤ (a1.sub a).cross (q.sub a))
  ∨ (∀ i a a1, dpts.get? i = some a → dpts.get? ((i + 1) % dpts.length) = some a1 →
    ∀ q ∈ dpts, (a1.sub a).cross (q.sub a) ≤ 0)

/-- Consecutive vertices of the polygon (the last and the first included) are
distinct. -/
def distinct_consecutive (dpts : List Vector2d) : Prop :=
  ∀ i a a1, dpts.get? i = some a → dpts.get? ((i + 1) % dpts.length) = some a1 → a1 ≠ a

/-- The vertices are not all on one line: three of them span a triangle. -/
def not_all_collinear (dpts : List Vector2d) : Prop :=
  ∃ a ∈ dpts, ∃ b ∈ dpts, ∃ c ∈ dpts, (b.sub a).cross (c.sub a) ≠ 0

/-! ## Vector algebra -/

theorem Vector3d.dot_self_nonneg (a : Vector3d) : 0 ≤ a.dot a := by
  unfold Vector3d.dot
  nlinarith [sq_nonneg a.x, sq_nonneg a.y, sq_nonneg a.z]

theorem Vector3d.norm_nonneg (a : Vector3d) : 0 ≤ a.norm :=
  Real.sqrt_nonneg _

theorem Vector3d.norm_sq (a : Vector3d) : a.norm * a.norm = a.dot a :=
  Real.mul_self_sqrt a.dot_self_nonneg

theorem Vector3d.norm_eq_zero_iff (a : Vector3d) : a.norm = 0 ↔ a = Vector3d.zero := by
  unfold Vector3d.norm
  rw [Real.sqrt_eq_zero a.dot_self_nonneg]
  constructor
  · intro h
    unfold Vector3d.dot at h
    have hx : a.x = 0 := by nlinarith [sq_nonneg a.x, sq_nonneg a.y, sq_nonneg a.z]
    have hy : a.y = 0 := by nlinarith [sq_nonneg a.x, sq_nonneg a.y, sq_nonneg a.z]
    have hz : a.z = 0 := by nlinarith [sq_nonneg a.x, sq_nonneg a.y, sq_nonneg a.z]
    exact Vector3d.ext hx hy hz
  · intro h
    subst h
    simp [Vector3d.dot, Vector3d.zero]

theorem Vector3d.norm_normalized (a : Vector3d) (h : a.norm ≠ 0) : a.normalized.norm = 1 := by
  have hsq : a.normalized.dot a.normalized = 1 := by
    unfold Vector3d.normalized Vector3d.dot
    simp only
    have := a.norm_sq
    unfold Vector3d.dot at this
    field_simp
    linarith
  unfold Vector3d.norm
  rw [hsq, Real.sqrt_one]

theorem Vector3d.norm_scale_neg_one (a : Vector3d) : (a.scale (-1)).norm = a.norm := by
  unfold Vector3d.norm Vector3d.scale Vector3d.dot
  congr 1
  ring

theorem Vector3d.cross_dot_left (a b : Vector3d) : (a.cross b).dot a = 0 := by
  unfold Vector3d.cross Vector3d.dot
  ring

theorem Vector3d.cross_dot_right (a b : Vector3d) : (a.cross b).dot b = 0 := by
  unfold Vector3d.cross Vector3d.dot
  ring

/-- Cauchy-Schwarz for unit vectors, from the Lagrange identity. -/
theorem Vector3d.abs_dot_le_one (a b : Vector3d) (ha : a.norm = 1) (hb : b.norm = 1) :
    -1 ≤ a.dot b ∧ a.dot b ≤ 1 := by
  have h1 : a.dot a = 1 := by rw [← a.norm_sq, ha]; norm_num
  have h2 : b.dot b = 1 := by rw [← b.norm_sq, hb]; norm_num
  unfold Vector3d.dot at *
  constructor
  · nlinarith [sq_nonneg (a.x + b.x), sq_nonneg (a.y + b.y), sq_nonneg (a.z + b.z)]
  · nlinarith [sq_nonneg (a.x - b.x), sq_nonneg (a.y - b.y), sq_nonneg (a.z - b.z)]

/-- Collinearity of three points is the vanishing of the cross product that
`construct` normalises. -/
theorem collinear_iff_cross_eq_zero (p0 p1 p2 : Vector3d) :
    collinear p0 p1 p2 ↔ (p1.sub p0).cross (p2.sub p0) = Vector3d.zero := by
  unfold collinear
  generalize p1.sub p0 = f
  generalize p2.sub p0 = g
  constructor
  · rintro ⟨a, b, hab, h⟩
    have hx := congrArg Vector3d.x h
    have hy := congrArg Vector3d.y h
    have hz := congrArg Vector3d.z h
    simp only [Vector3d.add, Vector3d.scale, Vector3d.zero] at hx hy hz
    rcases hab with ha | hb
    · have e1 : a * (f.y * g.z - f.z * g.y) = 0 := by linear_combination g.z * hy - g.y * hz
      have e2 : a * (f.z * g.x - f.x * g.z) = 0 := by linear_combination g.x * hz - g.z * hx
      have e3 : a * (f.x * g.y - f.y * g.x) = 0 := by linear_combination g.y * hx - g.x * hy
      exact Vector3d.ext ((mul_eq_zero.mp e1).resolve_left ha)
        ((mul_eq_zero.mp e2).resolve_left ha) ((mul_eq_zero.mp e3).resolve_left ha)
    · have e1 : b * (f.y * g.z - f.z * g.y) = 0 := by linear_combination f.y * hz - f.z * hy
      have e2 : b * (f.z * g.x - f.x * g.z) = 0 := by linear_combination f.z * hx - f.x * hz
      have e3 : b * (f.x * g.y - f.y * g.x) = 0 := by linear_combination f.x * hy - f.y * hx
      exact Vector3d.ext ((mul_eq_zero.mp e1).resolve_left hb)
        ((mul_eq_zero.mp e2).resolve_left hb) ((mul_eq_zero.mp e3).resolve_left hb)
  · intro h
    have hx := congrArg Vector3d.x h
    have hy := congrArg Vector3d.y h
    have hz := congrArg Vector3d.z h
    simp only [Vector3d.cross, Vector3d.zero] at hx hy hz
    by_cases hf : f = Vector3d.zero
    · refine ⟨1, 0, Or.inl one_ne_zero, ?_⟩
      subst hf
      simp [Vector3d.add, Vector3d.scale, Vector3d.zero]
    · refine ⟨-(f.dot g), f.dot f, Or.inr ?_, ?_⟩
      · intro h0
        apply hf
        rw [← Vector3d.norm_eq_zero_iff]
        unfold Vector3d.norm
        rw [h0, Real.sqrt_zero]
      · unfold Vector3d.add Vector3d.scale Vector3d.dot Vector3d.zero
        refine Vector3d.ext ?_ ?_ ?_
        · show -(f.x * g.x + f.y * g.y + f.z * g.z) * f.x
            + (f.x * f.x + f.y * f.y + f.z * f.z) * g.x = 0
          linear_combination f.z * hy - f.y * hz
        · show -(f.x * g.x + f.y * g.y + f.z * g.z) * f.y
            + (f.x * f.x + f.y * f.y + f.z * f.z) * g.y = 0
          linear_combination f.x * hz - f.z * hx
        · show -(f.x * g.x + f.y * g.y + f.z * g.z) * f.z
            + (f.x * f.x + f.y * f.y + f.z * f.z) * g.z = 0
          linear_combination f.y * hx - f.x * hy

theorem cross_norm_ne_zero_of_not_collinear (points : Fin 3 → Vector3d)
    (h : ¬ collinear (points 0) (points 1) (points 2)) :
    (((points 1).sub (points 0)).cross ((points 2).sub (points 0))).norm ≠ 0 := by
  intro h0
  exact h ((collinear_iff_cross_eq_zero _ _ _).mpr ((Vector3d.norm_eq_zero_iff _).mp h0))

/-! ## `construct` -/

theorem Vector3d.normalized_dot (a b : Vector3d) : a.normalized.dot b = a.dot b / a.norm := by
  unfold Vector3d.normalized Vector3d.dot
  simp only
  ring

theorem Vector3d.scale_neg_one_dot (a b : Vector3d) : (a.scale (-1)).dot b = -(a.dot b) := by
  unfold Vector3d.scale Vector3d.dot
  simp only
  ring

theorem Vector3d.dot_sub (a b c : Vector3d) : a.dot (b.sub c) = a.dot b - a.dot c := by
  unfold Vector3d.sub Vector3d.dot
  simp only
  ring

/-- The fitted normal is the normalised cross product or its negation. -/
theorem fitted_normal_cases (points normals : Fin 3 → Vector3d) :
    fitted_normal points normals
        = (((points 1).sub (points 0)).cross ((points 2).sub (points 0))).normalized
      ∨ fitted_normal points normals
        = ((((points 1).sub (points 0)).cross ((points 2).sub (points 0))).normalized).scale (-1) := by
  unfold fitted_normal
  simp only
  split
  · exact Or.inr rfl
  · exact Or.inl rfl

/-- After the orientation fix the fitted normal does not point away from `normals[0]`. -/
theorem fitted_normal_dot_nonneg (points normals : Fin 3 → Vector3d) :
    0 ≤ (fitted_normal points normals).dot (normals 0) := by
  unfold fitted_normal
  simp only
  split
  · rename_i h
    rw [Vector3d.scale_neg_one_dot]
    linarith
  · rename_i h
    exact not_lt.mp h

theorem fitted_normal_norm (points normals : Fin 3 → Vector3d)
    (h : (((points 1).sub (points 0)).cross ((points 2).sub (points 0))).norm ≠ 0) :
    (fitted_normal points normals).norm = 1 := by
  rcases fitted_normal_cases points normals with e | e
  · rw [e]; exact Vector3d.norm_normalized _ h
  · rw [e, Vector3d.norm_scale_neg_one]; exact Vector3d.norm_normalized _ h

theorem fitted_normal_dot_first (points normals : Fin 3 → Vector3d) :
    (fitted_normal points normals).dot ((points 1).sub (points 0)) = 0 := by
  rcases fitted_normal_cases points normals with e | e
  · rw [e, Vector3d.normalized_dot, Vector3d.cross_dot_left, zero_div]
  · rw [e, Vector3d.scale_neg_one_dot, Vector3d.normalized_dot, Vector3d.cross_dot_left,
      zero_div, neg_zero]

theorem fitted_normal_dot_second (points normals : Fin 3 → Vector3d) :
    (fitted_normal points normals).dot ((points 2).sub (points 0)) = 0 := by
  rcases fitted_normal_cases points normals with e | e
  · rw [e, Vector3d.normalized_dot, Vector3d.cross_dot_right, zero_div]
  · rw [e, Vector3d.scale_neg_one_dot, Vector3d.normalized_dot, Vector3d.cross_dot_right,
      zero_div, neg_zero]

/-- The three sample points satisfy the equation `n . x - n . p0 = 0`. -/
theorem fitted_normal_on_plane (points normals : Fin 3 → Vector3d) (i : Fin 3) :
    (fitted_normal points normals).dot (points i)
      + -((fitted_normal points normals).dot (points 0)) = 0 := by
  have h1 := fitted_normal_dot_first points normals
  have h2 := fitted_normal_dot_second points normals
  rw [Vector3d.dot_sub] at h1 h2
  fin_cases i
  · simp
  · simp only [Fin.mk_one]; linarith
  · show (fitted_normal points normals).dot (points 2) + _ = 0
    linarith

/-- When the sample is not degenerate, `construct` is decided by the angle gate alone. -/
theorem construct_eq_of_cross_ne_zero (self : plane_primitive) (points normals : Fin 3 → Vector3d)
    (inlier_threshold angle_threshold : ℝ)
    (h : (((points 1).sub (points 0)).cross ((points 2).sub (points 0))).norm ≠ 0) :
    self.construct points normals inlier_threshold angle_threshold =
      if acos_exceeds ((fitted_normal points normals).dot (normals 0)) angle_threshold
          ∨ acos_exceeds ((fitted_normal points normals).dot (normals 1)) angle_threshold
          ∨ acos_exceeds ((fitted_normal points normals).dot (normals 2)) angle_threshold then
        construct_result.rejected
          { self with p := ⟨(fitted_normal points normals).x, (fitted_normal points normals).y,
              (fitted_normal points normals).z, -((fitted_normal points normals).dot (points 0))⟩ }
      else
        construct_result.accepted
          { self with
            p := ⟨(fitted_normal points normals).x, (fitted_normal points normals).y,
              (fitted_normal points normals).z, -((fitted_normal points normals).dot (points 0))⟩
            basis := ⟨((points 1).sub (points 0)).normalized,
              ((fitted_normal points normals).cross
                ((points 1).sub (points 0)).normalized).normalized⟩ } := by
  unfold plane_primitive.construct
  simp only [if_neg h]

theorem acos_exceeds_iff_of_unit (a b : Vector3d) (t : ℝ) (ha : a.norm = 1) (hb : b.norm = 1) :
    acos_exceeds (a.dot b) t ↔ t < Real.arccos (a.dot b) := by
  have := Vector3d.abs_dot_le_one a b ha hb
  unfold acos_exceeds
  tauto

theorem exists_fin3_iff (P : Fin 3 → Prop) : (∃ i, P i) ↔ P 0 ∨ P 1 ∨ P 2 := by
  constructor
  · rintro ⟨i, hi⟩
    fin_cases i
    · exact Or.inl hi
    · exact Or.inr (Or.inl hi)
    · exact Or.inr (Or.inr hi)
  · rintro (h | h | h)
    exacts [⟨0, h⟩, ⟨1, h⟩, ⟨2, h⟩]

theorem scenario_cross :
    ((scenario_points 1).sub (scenario_points 0)).cross
      ((scenario_points 2).sub (scenario_points 0)) = ⟨0, 0, 1⟩ := by
  simp [scenario_points, Vector3d.sub, Vector3d.cross]

theorem scenario_not_collinear :
    ¬ collinear (scenario_points 0) (scenario_points 1) (scenario_points 2) := by
  rw [collinear_iff_cross_eq_zero, scenario_cross]
  intro h
  have := congrArg Vector3d.z h
  simp [Vector3d.zero] at this

theorem scenario_fitted_normal :
    fitted_normal scenario_points scenario_normals = ⟨0, 0, 1⟩ := by
  unfold fitted_normal
  simp only [scenario_cross]
  simp [Vector3d.normalized, Vector3d.norm, Vector3d.dot, scenario_normals]

/-- With a non-degenerate sample and all three deviations within the threshold,
`construct` reaches line 51. -/
theorem construct_accepted_of_within (self : plane_primitive) (points normals : Fin 3 → Vector3d)
    (inlier_threshold angle_threshold : ℝ)
    (hc : (((points 1).sub (points 0)).cross ((points 2).sub (points 0))).norm ≠ 0)
    (hang : ∀ i, Real.arccos ((fitted_normal points normals).dot (normals i)) ≤ angle_threshold) :
    self.construct points normals inlier_threshold angle_threshold =
      construct_result.accepted
        { self with
          p := ⟨(fitted_normal points normals).x, (fitted_normal points normals).y,
            (fitted_normal points normals).z, -((fitted_normal points normals).dot (points 0))⟩
          basis := ⟨((points 1).sub (points 0)).normalized,
            ((fitted_normal points normals).cross
              ((points 1).sub (points 0)).normalized).normalized⟩ } := by
  have hgate : ¬ (acos_exceeds ((fitted_normal points normals).dot (normals 0)) angle_threshold
      ∨ acos_exceeds ((fitted_normal points normals).dot (normals 1)) angle_threshold
      ∨ acos_exceeds ((fitted_normal points normals).dot (normals 2)) angle_threshold) := by
    rintro (h | h | h)
    · exact absurd h.2.2 (not_lt.mpr (hang 0))
    · exact absurd h.2.2 (not_lt.mpr (hang 1))
    · exact absurd h.2.2 (not_lt.mpr (hang 2))
  rw [construct_eq_of_cross_ne_zero self points normals inlier_threshold angle_threshold hc,
    if_neg hgate]

/-- C1: for three non-collinear points whose measured normals are each within
`angle_threshold` of the fitted, oriented normal, `construct` returns true, and the
stored equation `(n, d)` has `|n| = 1` and `n . p_i + d = 0` at each of the three
sample points.  (Unit length of the measured normals is not needed for this.) -/
theorem construct_fits_sample (self : plane_primitive) (points normals : Fin 3 → Vector3d)
    (inlier_threshold angle_threshold : ℝ)
    (hnc : ¬ collinear (points 0) (points 1) (points 2))
    (hang : ∀ i, Real.arccos ((fitted_normal points normals).dot (normals i)) ≤ angle_threshold) :
    (self.construct points normals inlier_threshold angle_threshold).returned = true ∧
    ∃ s, self.construct points normals inlier_threshold angle_threshold
          = construct_result.accepted s
      ∧ s.p.head3.norm = 1
      ∧ ∀ i, s.p.head3.dot (points i) + s.p.w = 0 := by
  have hc := cross_norm_ne_zero_of_not_collinear points hnc
  rw [construct_accepted_of_within self points normals inlier_threshold angle_threshold hc hang]
  refine ⟨rfl, _, rfl, ?_, ?_⟩
  · exact fitted_normal_norm points normals hc
  · intro i
    exact fitted_normal_on_plane points normals i

/-- C1 at the spec's scenario, with the angle threshold `0.1`. -/
theorem construct_fits_sample_witness :
    (plane_primitive.empty.construct scenario_points scenario_normals 1 (1 / 10)).returned = true ∧
    ∃ s, plane_primitive.empty.construct scenario_points scenario_normals 1 (1 / 10)
          = construct_result.accepted s
      ∧ s.p.head3.norm = 1
      ∧ ∀ i, s.p.head3.dot (scenario_points i) + s.p.w = 0 :=
  construct_fits_sample plane_primitive.empty scenario_points scenario_normals 1 (1 / 10)
    scenario_not_collinear
    (by
      intro i
      rw [scenario_fitted_normal]
      simp [Vector3d.dot, scenario_normals])

/-- C2: on three exactly collinear points (coincident points included) `construct`
returns false, whatever the normals and the thresholds. -/
theorem construct_collinear_fails (self : plane_primitive) (points normals : Fin 3 → Vector3d)
    (inlier_threshold angle_threshold : ℝ)
    (h : collinear (points 0) (points 1) (points 2)) :
    (self.construct points normals inlier_threshold angle_threshold).returned = false := by
  have h0 : (((points 1).sub (points 0)).cross ((points 2).sub (points 0))).norm = 0 :=
    (Vector3d.norm_eq_zero_iff _).mpr ((collinear_iff_cross_eq_zero _ _ _).mp h)
  unfold plane_primitive.construct
  simp only [if_pos h0]
  rfl

/-- C2 on the collinear triple `(0,0,0), (1,1,1), (2,2,2)`, with a generous angle
threshold. -/
theorem construct_collinear_fails_witness :
    (plane_primitive.empty.construct ![⟨0, 0, 0⟩, ⟨1, 1, 1⟩, ⟨2, 2, 2⟩] scenario_normals 1 4).returned
      = false :=
  construct_collinear_fails plane_primitive.empty ![⟨0, 0, 0⟩, ⟨1, 1, 1⟩, ⟨2, 2, 2⟩]
    scenario_normals 1 4
    ⟨2, -1, Or.inl two_ne_zero, by
      simp [Vector3d.add, Vector3d.scale, Vector3d.sub, Vector3d.zero]⟩

/-- C3: for three non-collinear points and unit measured normals, with `n` the fitted
normal after the orientation fix, `construct` returns false as soon as
`arccos (n . normals[i]) > angle_threshold` for some `i`, and returns true when
`arccos (n . normals[i]) <= angle_threshold` for all three `i` (equality is accepted). -/
theorem construct_angle_gate (self : plane_primitive) (points normals : Fin 3 → Vector3d)
    (inlier_threshold angle_threshold : ℝ)
    (hnc : ¬ collinear (points 0) (points 1) (points 2))
    (hunit : ∀ i, (normals i).norm = 1) :
    ((∃ i, angle_threshold < Real.arccos ((fitted_normal points normals).dot (normals i))) →
      (self.construct points normals inlier_threshold angle_threshold).returned = false) ∧
    ((∀ i, Real.arccos ((fitted_normal points normals).dot (normals i)) ≤ angle_threshold) →
      (self.construct points normals inlier_threshold angle_threshold).returned = true) := by
  have hc := cross_norm_ne_zero_of_not_collinear points hnc
  have hn := fitted_normal_norm points normals hc
  constructor
  · intro hex
    have hgate : acos_exceeds ((fitted_normal points normals).dot (normals 0)) angle_threshold
        ∨ acos_exceeds ((fitted_normal points normals).dot (normals 1)) angle_threshold
        ∨ acos_exceeds ((fitted_normal points normals).dot (normals 2)) angle_threshold := by
      rw [acos_exceeds_iff_of_unit _ _ _ hn (hunit 0), acos_exceeds_iff_of_unit _ _ _ hn (hunit 1),
        acos_exceeds_iff_of_unit _ _ _ hn (hunit 2)]
      exact (exists_fin3_iff _).mp hex
    rw [construct_eq_of_cross_ne_zero self points normals inlier_threshold angle_threshold hc,
      if_pos hgate]
    rfl
  · intro hall
    rw [construct_accepted_of_within self points normals inlier_threshold angle_threshold hc hall]
    rfl

/-- C3 at the spec's scenario: the deviation is `arccos 1 = 0`, so the threshold `0` is
met exactly and `construct` accepts, while no normal exceeds it. -/
theorem construct_angle_gate_witness :
    ((∃ i, (0 : ℝ) < Real.arccos
        ((fitted_normal scenario_points scenario_normals).dot (scenario_normals i))) →
      (plane_primitive.empty.construct scenario_points scenario_normals 1 0).returned = false) ∧
    ((∀ i, Real.arccos
        ((fitted_normal scenario_points scenario_normals).dot (scenario_normals i)) ≤ 0) →
      (plane_primitive.empty.construct scenario_points scenario_normals 1 0).returned = true) :=
  construct_angle_gate plane_primitive.empty scenario_points scenario_normals 1 0
    scenario_not_collinear
    (by intro i; simp [scenario_normals, Vector3d.norm, Vector3d.dot])

/-- C4: for three non-collinear points the normal stored by `construct` is the
normalised cross product of `p1 - p0` and `p2 - p0` or its negation, and it satisfies
`n . normals[0] >= 0`; on the spec's scenario the stored equation is `(0, 0, 1, 0)`. -/
theorem construct_stored_normal (self : plane_primitive) (points normals : Fin 3 → Vector3d)
    (inlier_threshold angle_threshold : ℝ)
    (hnc : ¬ collinear (points 0) (points 1) (points 2)) :
    (∃ eq, (self.construct points normals inlier_threshold angle_threshold).equation = some eq
      ∧ (eq.head3 = (((points 1).sub (points 0)).cross ((points 2).sub (points 0))).normalized
        ∨ eq.head3
          = ((((points 1).sub (points 0)).cross ((points 2).sub (points 0))).normalized).scale (-1))
      ∧ 0 ≤ eq.head3.dot (normals 0)) ∧
    (self.construct scenario_points scenario_normals inlier_threshold angle_threshold).equation
      = some ⟨0, 0, 1, 0⟩ := by
  have key : ∀ (pts nrm : Fin 3 → Vector3d),
      (((pts 1).sub (pts 0)).cross ((pts 2).sub (pts 0))).norm ≠ 0 →
      (self.construct pts nrm inlier_threshold angle_threshold).equation
        = some ⟨(fitted_normal pts nrm).x, (fitted_normal pts nrm).y, (fitted_normal pts nrm).z,
            -((fitted_normal pts nrm).dot (pts 0))⟩ := by
    intro pts nrm hc
    rw [construct_eq_of_cross_ne_zero self pts nrm inlier_threshold angle_threshold hc]
    split <;> rfl
  constructor
  · refine ⟨_, key points normals (cross_norm_ne_zero_of_not_collinear points hnc), ?_, ?_⟩
    · exact fitted_normal_cases points normals
    · exact fitted_normal_dot_nonneg points normals
  · rw [key scenario_points scenario_normals
      (cross_norm_ne_zero_of_not_collinear scenario_points scenario_not_collinear),
      scenario_fitted_normal]
    simp [Vector3d.dot, scenario_points]

/-- C4 at the mirrored scenario `(0,0,0), (0,1,0), (1,0,0)`, where the cross product
points down and the orientation fix applies. -/
theorem construct_stored_normal_witness :
    (∃ eq, (plane_primitive.empty.construct mirrored_points scenario_normals 1 (1 / 10)).equation
        = some eq
      ∧ (eq.head3 = (((mirrored_points 1).sub (mirrored_points 0)).cross
            ((mirrored_points 2).sub (mirrored_points 0))).normalized
        ∨ eq.head3 = ((((mirrored_points 1).sub (mirrored_points 0)).cross
            ((mirrored_points 2).sub (mirrored_points 0))).normalized).scale (-1))
      ∧ 0 ≤ eq.head3.dot (scenario_normals 0)) ∧
    (plane_primitive.empty.construct scenario_points scenario_normals 1 (1 / 10)).equation
      = some ⟨0, 0, 1, 0⟩ :=
  construct_stored_normal plane_primitive.empty mirrored_points scenario_normals 1 (1 / 10)
    (by
      rw [collinear_iff_cross_eq_zero]
      intro h
      have := congrArg Vector3d.z h
      simp [mirrored_points, Vector3d.zero, Vector3d.sub, Vector3d.cross] at this)

/-! ## `compute_inliers` -/

theorem Vector3d.dot_comm (a b : Vector3d) : a.dot b = b.dot a := by
  unfold Vector3d.dot
  ring

theorem MatrixXd.col_isSome (m : MatrixXd) (i : Int) (h0 : 0 ≤ i) (h1 : i.toNat < m.length) :
    ∃ v, MatrixXd.col m i = some v := by
  unfold MatrixXd.col
  rw [if_pos h0]
  exact ⟨m.get ⟨i.toNat, h1⟩, List.get?_eq_get h1⟩

/-- The loop appends to the output exactly the candidates that pass the spec's test, in
their order. -/
theorem compute_inliers_loop_eq (self : plane_primitive) (points normals : MatrixXd)
    (inlier_threshold angle_threshold : ℝ) (inds : List Int) :
    ∀ inliers : List Int, valid_inds points normals inds →
      self.compute_inliers_loop points normals inlier_threshold (Real.cos angle_threshold)
          inds inliers
        = some (inliers ++ inds.filter
            (fun i => decide (is_inlier self points normals inlier_threshold angle_threshold i))) := by
  induction inds with
  | nil => intro inliers _; simp [plane_primitive.compute_inliers_loop]
  | cons i rest ih =>
    intro inliers hv
    have hi := hv i (List.mem_cons_self _ _)
    have hrest : valid_inds points normals rest := fun j hj => hv j (List.mem_cons_of_mem _ hj)
    obtain ⟨pt, hpt⟩ := MatrixXd.col_isSome points i hi.1 hi.2.1
    obtain ⟨n, hn⟩ := MatrixXd.col_isSome normals i hi.1 hi.2.2
    have hiff : is_inlier self points normals inlier_threshold angle_threshold i ↔
        (|pt.dot self.p.head3 + self.p.w| < inlier_threshold
          ∧ n.dot self.p.head3 > Real.cos angle_threshold) := by
      unfold is_inlier
      rw [hpt, hn]
      constructor
      · rintro ⟨pt1, n1, h1, h2, h3, h4⟩
        have e1 : pt = pt1 := Option.some.inj h1
        have e2 : n = n1 := Option.some.inj h2
        rw [e1, e2, Vector3d.dot_comm pt1, Vector3d.dot_comm n1]
        exact ⟨h3, h4⟩
      · rintro ⟨h3, h4⟩
        refine ⟨pt, n, rfl, rfl, ?_, ?_⟩
        · rw [Vector3d.dot_comm]; exact h3
        · rw [Vector3d.dot_comm]; exact h4
    unfold plane_primitive.compute_inliers_loop
    rw [hpt, hn]
    simp only
    by_cases hc : |pt.dot self.p.head3 + self.p.w| < inlier_threshold
        ∧ n.dot self.p.head3 > Real.cos angle_threshold
    · rw [if_pos hc, ih _ hrest, List.filter_cons_of_pos (by simpa using hiff.mpr hc)]
      simp
    · rw [if_neg hc, ih _ hrest, List.filter_cons_of_neg (by simpa using fun h => hc (hiff.mp h))]

theorem valid_inds_filter (points normals : MatrixXd) (inds : List Int) (q : Int → Bool)
    (h : valid_inds points normals inds) : valid_inds points normals (inds.filter q) :=
  fun i hi => h i (List.mem_of_mem_filter hi)

/-- C5: called with an empty output list on candidate indices that all address the
arrays, `compute_inliers` returns exactly the sub-list of `inds` (order and
multiplicities kept) of those `i` with `|n . points[i] + d| < inlier_threshold` and
`n . normals[i] > cos angle_threshold`, and returns the plane state unchanged. -/
theorem compute_inliers_eq_filter (self : plane_primitive) (points normals : MatrixXd)
    (inds : List Int) (inlier_threshold angle_threshold : ℝ)
    (hv : valid_inds points normals inds) :
    self.compute_inliers [] points normals inds inlier_threshold angle_threshold
      = some (self, inds.filter
          (fun i => decide (is_inlier self points normals inlier_threshold angle_threshold i))) := by
  unfold plane_primitive.compute_inliers
  simp only
  rw [compute_inliers_loop_eq self points normals inlier_threshold angle_threshold inds [] hv]
  simp

/-- C6: `compute_inliers` is idempotent: on valid candidate indices it produces a list,
and running it again on that list (same plane, arrays and thresholds, fresh empty
output) produces the same list. -/
theorem compute_inliers_idempotent (self : plane_primitive) (points normals : MatrixXd)
    (inds : List Int) (inlier_threshold angle_threshold : ℝ)
    (hv : valid_inds points normals inds) :
    ∃ out, self.compute_inliers [] points normals inds inlier_threshold angle_threshold
        = some (self, out)
      ∧ self.compute_inliers [] points normals out inlier_threshold angle_threshold
        = some (self, out) := by
  refine ⟨inds.filter
    (fun i => decide (is_inlier self points normals inlier_threshold angle_threshold i)), ?_, ?_⟩
  · unfold plane_primitive.compute_inliers
    simp only
    rw [compute_inliers_loop_eq self points normals inlier_threshold angle_threshold inds [] hv]
    simp
  · unfold plane_primitive.compute_inliers
    simp only
    rw [compute_inliers_loop_eq self points normals inlier_threshold angle_threshold _ []
      (valid_inds_filter points normals inds _ hv)]
    simp [List.filter_filter]

theorem is_inlier_iff_of_col (self : plane_primitive) (points normals : MatrixXd)
    (inlier_threshold angle_threshold : ℝ) (i : Int) (pt n : Vector3d)
    (hpt : points.col i = some pt) (hn : normals.col i = some n) :
    is_inlier self points normals inlier_threshold angle_threshold i ↔
      (|self.p.head3.dot pt + self.p.w| < inlier_threshold
        ∧ Real.cos angle_threshold < self.p.head3.dot n) := by
  unfold is_inlier
  rw [hpt, hn]
  constructor
  · rintro ⟨pt1, n1, h1, h2, h3, h4⟩
    rw [Option.some.inj h1, Option.some.inj h2]
    exact ⟨h3, h4⟩
  · rintro ⟨h3, h4⟩
    exact ⟨pt, n, rfl, rfl, h3, h4⟩

theorem sample_valid_inds : valid_inds sample_points sample_normals [3, 0, 1, 2, 0] := by
  intro i hi
  simp only [List.mem_cons, List.mem_singleton, List.not_mem_nil, or_false] at hi
  rcases hi with rfl | rfl | rfl | rfl | rfl <;> simp [sample_points, sample_normals]

/-- The candidates `[3, 0, 1, 2, 0]` against the ground plane with distance threshold
`0.1` and angle threshold `pi / 3`: index 1 has a downward normal, index 2 is too far. -/
theorem sample_filter :
    ([3, 0, 1, 2, 0] : List Int).filter
      (fun i => decide (is_inlier ground_plane sample_points sample_normals (1 / 10)
        (Real.pi / 3) i)) = [3, 0, 0] := by
  have h3 : is_inlier ground_plane sample_points sample_normals (1 / 10) (Real.pi / 3) 3 := by
    rw [is_inlier_iff_of_col ground_plane sample_points sample_normals _ _ 3 ⟨3, 1, 1 / 100⟩ ⟨0, 0, 1⟩ rfl rfl,
      Real.cos_pi_div_three]
    simp only [ground_plane, Vector4d.head3, Vector3d.dot]
    constructor
    · rw [abs_lt]; constructor <;> norm_num
    · norm_num
  have h0 : is_inlier ground_plane sample_points sample_normals (1 / 10) (Real.pi / 3) 0 := by
    rw [is_inlier_iff_of_col ground_plane sample_points sample_normals _ _ 0 ⟨0, 0, 0⟩ ⟨0, 0, 1⟩ rfl rfl,
      Real.cos_pi_div_three]
    simp only [ground_plane, Vector4d.head3, Vector3d.dot]
    constructor
    · rw [abs_lt]; constructor <;> norm_num
    · norm_num
  have h1 : ¬ is_inlier ground_plane sample_points sample_normals (1 / 10) (Real.pi / 3) 1 := by
    rw [is_inlier_iff_of_col ground_plane sample_points sample_normals _ _ 1 ⟨1, 2, 0⟩ ⟨0, 0, -1⟩ rfl rfl,
      Real.cos_pi_div_three]
    simp only [ground_plane, Vector4d.head3, Vector3d.dot]
    rintro ⟨_, h⟩
    norm_num at h
  have h2 : ¬ is_inlier ground_plane sample_points sample_normals (1 / 10) (Real.pi / 3) 2 := by
    rw [is_inlier_iff_of_col ground_plane sample_points sample_normals _ _ 2 ⟨0, 0, 5⟩ ⟨0, 0, 1⟩ rfl rfl,
      Real.cos_pi_div_three]
    simp only [ground_plane, Vector4d.head3, Vector3d.dot]
    rintro ⟨h, _⟩
    rw [abs_lt] at h
    norm_num at h
  simp only [List.filter, decide_eq_true h3, decide_eq_true h0, decide_eq_false h1,
    decide_eq_false h2]

/-- C5 on the sample cloud: the candidates `[3, 0, 1, 2, 0]` give `[3, 0, 0]`. -/
theorem compute_inliers_eq_filter_witness :
    valid_inds sample_points sample_normals [3, 0, 1, 2, 0] ∧
    ground_plane.compute_inliers [] sample_points sample_normals [3, 0, 1, 2, 0] (1 / 10)
        (Real.pi / 3) = some (ground_plane, [3, 0, 0]) :=
  ⟨sample_valid_inds,
    (compute_inliers_eq_filter ground_plane sample_points sample_normals [3, 0, 1, 2, 0]
      (1 / 10) (Real.pi / 3) sample_valid_inds).trans (by rw [sample_filter])⟩

/-- C6 on the sample cloud. -/
theorem compute_inliers_idempotent_witness :
    valid_inds sample_points sample_normals [3, 0, 1, 2, 0] ∧
    ∃ out, ground_plane.compute_inliers [] sample_points sample_normals [3, 0, 1, 2, 0]
          (1 / 10) (Real.pi / 3) = some (ground_plane, out)
      ∧ ground_plane.compute_inliers [] sample_points sample_normals out (1 / 10) (Real.pi / 3)
        = some (ground_plane, out) :=
  ⟨sample_valid_inds,
    compute_inliers_idempotent ground_plane sample_points sample_normals [3, 0, 1, 2, 0]
      (1 / 10) (Real.pi / 3) sample_valid_inds⟩

/-! ## Rasterisation and `largest_connected_component` -/

theorem fold_min_le_init {α : Type} (f : α → Int) (cs : List α) :
    ∀ m : Int, cs.foldl (fun m c => if f c < m then f c else m) m ≤ m := by
  induction cs with
  | nil => intro m; exact le_refl _
  | cons c rest ih =>
    intro m
    simp only [List.foldl_cons]
    refine le_trans (ih _) ?_
    split <;> omega

theorem fold_min_le_mem {α : Type} (f : α → Int) (cs : List α) :
    ∀ m : Int, ∀ c ∈ cs, cs.foldl (fun m c => if f c < m then f c else m) m ≤ f c := by
  induction cs with
  | nil => intro m c hc; cases hc
  | cons d rest ih =>
    intro m c hc
    simp only [List.foldl_cons]
    rcases List.mem_cons.mp hc with rfl | hc
    · refine le_trans (fold_min_le_init f rest _) ?_
      split <;> omega
    · exact ih _ c hc

theorem fold_min_ge {α : Type} (f : α → Int) (cs : List α) (b : Int)
    (hb : ∀ c ∈ cs, b ≤ f c) :
    ∀ m : Int, b ≤ m → b ≤ cs.foldl (fun m c => if f c < m then f c else m) m := by
  induction cs with
  | nil => intro m hm; exact hm
  | cons d rest ih =>
    intro m hm
    simp only [List.foldl_cons]
    apply ih (fun c hc => hb c (List.mem_cons_of_mem _ hc))
    have := hb d (List.mem_cons_self _ _)
    split <;> omega

theorem fold_max_ge_init {α : Type} (f : α → Int) (cs : List α) :
    ∀ m : Int, m ≤ cs.foldl (fun m c => if f c > m then f c else m) m := by
  induction cs with
  | nil => intro m; exact le_refl _
  | cons c rest ih =>
    intro m
    simp only [List.foldl_cons]
    refine le_trans ?_ (ih _)
    split <;> omega

theorem fold_max_ge_mem {α : Type} (f : α → Int) (cs : List α) :
    ∀ m : Int, ∀ c ∈ cs, f c ≤ cs.foldl (fun m c => if f c > m then f c else m) m := by
  induction cs with
  | nil => intro m c hc; cases hc
  | cons d rest ih =>
    intro m c hc
    simp only [List.foldl_cons]
    rcases List.mem_cons.mp hc with rfl | hc
    · refine le_trans ?_ (fold_max_ge_init f rest _)
      split <;> omega
    · exact ih _ c hc

theorem fold_max_le {α : Type} (f : α → Int) (cs : List α) (b : Int)
    (hb : ∀ c ∈ cs, f c ≤ b) :
    ∀ m : Int, m ≤ b → cs.foldl (fun m c => if f c > m then f c else m) m ≤ b := by
  induction cs with
  | nil => intro m hm; exact hm
  | cons d rest ih =>
    intro m hm
    simp only [List.foldl_cons]
    apply ih (fun c hc => hb c (List.mem_cons_of_mem _ hc))
    have := hb d (List.mem_cons_self _ _)
    split <;> omega

/-- The scan is a left fold of `push`; its four bounds are running minima and maxima and
its `pts` is the list of cells pushed. -/
theorem foldl_push_eq (cs : List Vector2i) :
    ∀ r : raster_scan,
      (cs.foldl raster_scan.push r).minpt.x
          = cs.foldl (fun m c => if Vector2i.x c < m then Vector2i.x c else m) r.minpt.x
      ∧ (cs.foldl raster_scan.push r).minpt.y
          = cs.foldl (fun m c => if Vector2i.y c < m then Vector2i.y c else m) r.minpt.y
      ∧ (cs.foldl raster_scan.push r).maxpt.x
          = cs.foldl (fun m c => if Vector2i.x c > m then Vector2i.x c else m) r.maxpt.x
      ∧ (cs.foldl raster_scan.push r).maxpt.y
          = cs.foldl (fun m c => if Vector2i.y c > m then Vector2i.y c else m) r.maxpt.y
      ∧ (cs.foldl raster_scan.push r).pts = r.pts ++ cs := by
  induction cs with
  | nil => intro r; simp
  | cons c rest ih =>
    intro r
    simp only [List.foldl_cons]
    obtain ⟨h1, h2, h3, h4, h5⟩ := ih (r.push c)
    refine ⟨h1, h2, h3, h4, ?_⟩
    rw [h5]
    simp [raster_scan.push]

/-- The loop of the code computes the fold over the cells of the spec. -/
theorem scan_cells_eq_foldl (self : plane_primitive) (scale : ℝ) (points : MatrixXd)
    (inds : List Int) :
    ∀ (r : raster_scan) (cs : List Vector2i),
      self.cells_of scale points inds = some cs →
      self.scan_cells scale points inds r = some (cs.foldl raster_scan.push r) := by
  induction inds with
  | nil =>
    intro r cs h
    simp only [plane_primitive.cells_of, Option.some.injEq] at h
    subst h
    rfl
  | cons i rest ih =>
    intro r cs h
    unfold plane_primitive.cells_of at h
    unfold plane_primitive.scan_cells
    cases hcol : points.col i with
    | none => simp [hcol] at h
    | some v =>
      cases hcell : self.project_cell scale v with
      | none => simp [hcol, hcell] at h
      | some pt =>
        cases hrest : self.cells_of scale points rest with
        | none => simp [hcol, hcell, hrest] at h
        | some cs1 =>
          simp only [hcol, hcell, hrest, Option.map_some', Option.some.injEq] at h
          subst h
          simp only [List.foldl_cons, hcell]
          exact ih (r.push pt) cs1 hrest

theorem cast_int_range (x : ℝ) (t : Int) (h : cast_int x = some t) :
    -2147483648 ≤ t ∧ t ≤ 2147483647 := by
  unfold cast_int at h
  simp only at h
  by_cases hr : -2147483648 ≤ (if 0 ≤ x then ⌊x⌋ else ⌈x⌉)
      ∧ (if 0 ≤ x then ⌊x⌋ else ⌈x⌉) ≤ 2147483647
  · rw [if_pos hr] at h
    rw [← Option.some.inj h]
    exact hr
  · rw [if_neg hr] at h
    cases h

theorem project_cell_range (self : plane_primitive) (scale : ℝ) (v : Vector3d) (c : Vector2i)
    (h : self.project_cell scale v = some c) :
    (-2147483648 ≤ c.x ∧ c.x ≤ 2147483647) ∧ (-2147483648 ≤ c.y ∧ c.y ≤ 2147483647) := by
  unfold plane_primitive.project_cell at h
  split at h
  · rename_i cx cy hx hy
    cases h
    exact ⟨cast_int_range _ _ hx, cast_int_range _ _ hy⟩
  · cases h

theorem cells_of_range (self : plane_primitive) (scale : ℝ) (points : MatrixXd)
    (inds : List Int) :
    ∀ cs : List Vector2i, self.cells_of scale points inds = some cs →
      ∀ c ∈ cs, (-2147483648 ≤ c.x ∧ c.x ≤ 2147483647)
        ∧ (-2147483648 ≤ c.y ∧ c.y ≤ 2147483647) := by
  induction inds with
  | nil =>
    intro cs h c hc
    simp only [plane_primitive.cells_of, Option.some.injEq] at h
    subst h
    cases hc
  | cons i rest ih =>
    intro cs h c hc
    unfold plane_primitive.cells_of at h
    cases hcol : points.col i with
    | none => simp [hcol] at h
    | some v =>
      cases hcell : self.project_cell scale v with
      | none => simp [hcol, hcell] at h
      | some pt =>
        cases hrest : self.cells_of scale points rest with
        | none => simp [hcol, hcell, hrest] at h
        | some cs1 =>
          simp only [hcol, hcell, hrest, Option.map_some', Option.some.injEq] at h
          subst h
          rcases List.mem_cons.mp hc with rfl | hc
          · exact project_cell_range self scale v _ hcell
          · exact ih cs1 hrest c hc

/-- A set of `int` values that fits in fewer than ten consecutive integers is scanned to
a width below ten; so is the empty set, for which the `int` expression wraps to 3. -/
theorem fold_span_lt_ten {α : Type} (f : α → Int) (cs : List α) (lo hi : Int)
    (hr : ∀ c ∈ cs, -2147483648 ≤ f c ∧ f c ≤ 2147483647)
    (hb : ∀ c ∈ cs, lo ≤ f c ∧ f c ≤ hi) (h10 : 1 + hi - lo < 10) :
    wrap32 (1 + cs.foldl (fun m c => if f c > m then f c else m) (-INT32_MAX)
      - cs.foldl (fun m c => if f c < m then f c else m) INT32_MAX) < 10 := by
  cases cs with
  | nil =>
    simp only [List.foldl_nil, wrap32, INT32_MAX]
    norm_num
  | cons c0 rest =>
    have hc0 : c0 ∈ c0 :: rest := List.mem_cons_self _ _
    have h1 := fold_min_le_mem f (c0 :: rest) INT32_MAX c0 hc0
    have h2 := fold_max_ge_mem f (c0 :: rest) (-INT32_MAX) c0 hc0
    have h3 := fold_min_ge f (c0 :: rest) (-2147483648) (fun c hc => (hr c hc).1) INT32_MAX
      (by unfold INT32_MAX; norm_num)
    have h4 := fold_min_ge f (c0 :: rest) lo (fun c hc => (hb c hc).1) INT32_MAX
      (by have := hb c0 hc0; have := hr c0 hc0; unfold INT32_MAX; omega)
    have h5 := fold_max_le f (c0 :: rest) (max hi (-INT32_MAX))
      (fun c hc => le_trans (hb c hc).2 (le_max_left _ _)) (-INT32_MAX) (le_max_right _ _)
    generalize (c0 :: rest).foldl (fun m c => if f c > m then f c else m) (-INT32_MAX) = mx at *
    generalize (c0 :: rest).foldl (fun m c => if f c < m then f c else m) INT32_MAX = mn at *
    have h6 : mx ≤ hi ∨ mx ≤ -INT32_MAX := by
      rcases le_max_iff.mp (le_trans h5 (le_refl _)) with h | h
      · exact Or.inl h
      · exact Or.inr h
    unfold INT32_MAX at h6
    unfold wrap32
    omega

/-- C7: tiny-footprint fallback of `largest_connected_component`.  Whenever the raster
cells of the conforming points (cell = truncation of `basis^T . point /
current_connectedness_res`) have a bounding box less than 10 cells wide or less than 10
cells high, the output list is exactly `conforming_inds`, whatever the output held before
and whatever the blob labelling is. -/
theorem largest_connected_component_tiny (self : plane_primitive)
    (find_blobs : Mat → Mat × Int) (current_connectedness_res : ℝ) (inliers : List Int)
    (points : MatrixXd) (cs : List Vector2i)
    (hcells : self.conforming_cells current_connectedness_res points = some cs)
    (htiny : tiny_footprint cs) :
    self.largest_connected_component find_blobs current_connectedness_res inliers points
      = some self.conforming_inds := by
  unfold plane_primitive.conforming_cells at hcells
  unfold plane_primitive.largest_connected_component
  by_cases hres : current_connectedness_res = 0
  · rw [if_pos hres] at hcells
    cases hcells
  · rw [if_neg hres] at hcells
    rw [if_neg hres,
      scan_cells_eq_foldl self _ points self.conforming_inds raster_scan.init cs hcells]
    have hrange := cells_of_range self _ points self.conforming_inds cs hcells
    obtain ⟨e1, e2, e3, e4, _⟩ := foldl_push_eq cs raster_scan.init
    have hsmall : (cs.foldl raster_scan.push raster_scan.init).width < 10
        ∨ (cs.foldl raster_scan.push raster_scan.init).height < 10 := by
      rcases htiny with ⟨lo, hi, hb, h10⟩ | ⟨lo, hi, hb, h10⟩
      · left
        unfold raster_scan.width
        rw [e1, e3]
        exact fold_span_lt_ten Vector2i.x cs lo hi (fun c hc => (hrange c hc).1) hb h10
      · right
        unfold raster_scan.height
        rw [e2, e4]
        exact fold_span_lt_ten Vector2i.y cs lo hi (fun c hc => (hrange c hc).2) hb h10
    simp only [if_pos hsmall]

theorem cast_int_natCast (n : Nat) (h : (n : Int) ≤ 2147483647) :
    cast_int (n : ℝ) = some (n : Int) := by
  unfold cast_int
  have h0 : (0 : ℝ) ≤ (n : ℝ) := Nat.cast_nonneg n
  simp only [if_pos h0, Int.floor_natCast]
  rw [if_pos]
  constructor
  · have : (0 : Int) ≤ (n : Int) := Int.natCast_nonneg n
    omega
  · exact h

/-- The cells of the conforming points of `ground_patch` at resolution 1. -/
theorem ground_patch_cells :
    ground_patch.conforming_cells 1 sample_points = some [⟨3, 1⟩, ⟨0, 0⟩, ⟨1, 2⟩] := by
  have c0 : cast_int (0 : ℝ) = some 0 := by simpa using cast_int_natCast 0 (by norm_num)
  have c1 : cast_int (1 : ℝ) = some 1 := by simpa using cast_int_natCast 1 (by norm_num)
  have c2 : cast_int (2 : ℝ) = some 2 := by simpa using cast_int_natCast 2 (by norm_num)
  have c3 : cast_int (3 : ℝ) = some 3 := by simpa using cast_int_natCast 3 (by norm_num)
  simp [plane_primitive.conforming_cells, plane_primitive.cells_of, ground_patch, ground_plane,
    plane_primitive.empty, MatrixXd.col, sample_points, plane_primitive.project_cell,
    Vector3d.dot, c0, c1, c2, c3]

/-- C7 on `ground_patch`: three cells in a 4 x 3 box, so the stale output `[7, 7]` is
replaced by the conforming indices. -/
theorem largest_connected_component_tiny_witness :
    ground_patch.conforming_cells 1 sample_points = some [⟨3, 1⟩, ⟨0, 0⟩, ⟨1, 2⟩] ∧
    tiny_footprint [⟨3, 1⟩, ⟨0, 0⟩, ⟨1, 2⟩] ∧
    ground_patch.largest_connected_component no_blobs 1 [7, 7] sample_points
      = some [3, 0, 1] :=
  have ht : tiny_footprint [⟨3, 1⟩, ⟨0, 0⟩, ⟨1, 2⟩] :=
    Or.inl ⟨0, 3, by
      intro c hc
      simp only [List.mem_cons, List.mem_singleton, List.not_mem_nil, or_false] at hc
      rcases hc with rfl | rfl | rfl <;> norm_num, by norm_num⟩
  ⟨ground_patch_cells, ht,
    largest_connected_component_tiny ground_patch no_blobs 1 [7, 7] sample_points _
      ground_patch_cells ht⟩

/-! ## `merge_planes` -/

theorem std_sort_sorted (l : List Int) : (std_sort l).Sorted (fun a b => a ≤ b) :=
  List.sorted_insertionSort (fun a b : Int => a ≤ b) l

theorem std_sort_perm (l : List Int) : (std_sort l).Perm l :=
  List.perm_insertionSort (fun a b : Int => a ≤ b) l

theorem merge_planes_supporting_inds_eq (self : plane_primitive)
    (convex_hull_fn : Vector3d → List Vector3d → List Vector3d)
    (other1 other2 : plane_primitive) :
    (self.merge_planes convex_hull_fn other1 other2).supporting_inds
      = std_sort (other1.supporting_inds ++ other2.supporting_inds) := by
  unfold plane_primitive.merge_planes
  simp only
  split_ifs <;> rfl

/-- C8: after `merge_planes(other1, other2)` the receiver's `supporting_inds` is sorted in
non-decreasing order, is a rearrangement of the concatenation of the two siblings' lists,
and so contains exactly the indices of their union. -/
theorem merge_planes_supporting_inds (self : plane_primitive)
    (convex_hull_fn : Vector3d → List Vector3d → List Vector3d)
    (other1 other2 : plane_primitive) :
    ((self.merge_planes convex_hull_fn other1 other2).supporting_inds).Sorted (fun a b => a ≤ b)
    ∧ ((self.merge_planes convex_hull_fn other1 other2).supporting_inds).Perm
        (other1.supporting_inds ++ other2.supporting_inds)
    ∧ ∀ i, i ∈ (self.merge_planes convex_hull_fn other1 other2).supporting_inds
        ↔ (i ∈ other1.supporting_inds ∨ i ∈ other2.supporting_inds) := by
  rw [merge_planes_supporting_inds_eq]
  refine ⟨std_sort_sorted _, std_sort_perm _, ?_⟩
  intro i
  rw [(std_sort_perm _).mem_iff, List.mem_append]

theorem Vector3d.norm_ne_zero_of_dot_pos (a : Vector3d) (h : 0 < a.dot a) : a.norm ≠ 0 := by
  unfold Vector3d.norm
  exact ne_of_gt (Real.sqrt_pos.mpr h)

theorem Vector3d.dot_self_of_norm_one (a : Vector3d) (h : a.norm = 1) : a.dot a = 1 := by
  rw [← a.norm_sq, h]
  norm_num

/-- The vector that `merge_planes` normalises is never zero for unit sibling normals. -/
theorem merged_direction_norm_ne_zero (v_p v_q : Vector3d) (hp : v_p.norm = 1)
    (hq : v_q.norm = 1) :
    (if v_p.dot v_q > 0 then v_p.add v_q else v_p.sub v_q).norm ≠ 0 := by
  have h1 := v_p.dot_self_of_norm_one hp
  have h2 := v_q.dot_self_of_norm_one hq
  split
  · rename_i h
    apply Vector3d.norm_ne_zero_of_dot_pos
    unfold Vector3d.dot Vector3d.add at *
    simp only
    nlinarith
  · rename_i h
    apply Vector3d.norm_ne_zero_of_dot_pos
    unfold Vector3d.dot Vector3d.sub at *
    simp only
    nlinarith

theorem Vector3d.normalized_add_self (n : Vector3d) (h : n.norm = 1) :
    (n.add n).normalized = n := by
  have h1 := n.dot_self_of_norm_one h
  have hn : (n.add n).norm = 2 := by
    unfold Vector3d.norm
    have : (n.add n).dot (n.add n) = 2 ^ 2 := by
      unfold Vector3d.dot Vector3d.add at *
      simp only
      nlinarith
    rw [this, Real.sqrt_sq (by norm_num)]
  unfold Vector3d.normalized
  rw [hn]
  refine Vector3d.ext ?_ ?_ ?_ <;> simp [Vector3d.add]

/-- When the two normals do not cancel, `merge_planes` writes a finite plane equation:
the normalised sum or difference of the normals, with the offset `-v . c` for the
average `c` of the two centers. -/
theorem merge_planes_p (self : plane_primitive)
    (convex_hull_fn : Vector3d → List Vector3d → List Vector3d)
    (other1 other2 : plane_primitive)
    (h : (if other1.p.head3.dot other2.p.head3 > 0 then other1.p.head3.add other2.p.head3
            else other1.p.head3.sub other2.p.head3).norm ≠ 0) :
    ∃ p, (self.merge_planes convex_hull_fn other1 other2).equation = some p
      ∧ p.head3
        = (if other1.p.head3.dot other2.p.head3 > 0 then other1.p.head3.add other2.p.head3
            else other1.p.head3.sub other2.p.head3).normalized
      ∧ p.w = -(p.head3.dot ((other1.c.add other2.c).scale 0.5))
      ∧ (self.merge_planes convex_hull_fn other1 other2).c
        = (other1.c.add other2.c).scale 0.5 := by
  unfold plane_primitive.merge_planes
  simp only [plane_primitive.direction_and_center]
  by_cases hd : other1.p.head3.dot other2.p.head3 > 0
  · simp only [if_pos hd] at h ⊢
    rw [if_neg h]
    split_ifs <;> exact ⟨_, rfl, rfl, rfl, rfl⟩
  · simp only [if_neg hd] at h ⊢
    rw [if_neg h]
    split_ifs <;> exact ⟨_, rfl, rfl, rfl, rfl⟩

/-- The members that `merge_planes` writes when no `normalize()` divides by zero: with
`v` the merged normal and `a` the second axis of the first sibling's orientation, the
frame is `(v, r1, r2)` for `r1 = normalize (a - (v . a) v)` and `r2 = normalize (v x r1)`,
the basis is `(r1, r2)`, and every vertex that the hull routine returns is moved along
the first axis of the frame and rotated back. -/
theorem merge_planes_merged (self : plane_primitive)
    (convex_hull_fn : Vector3d → List Vector3d → List Vector3d)
    (other1 other2 s : plane_primitive)
    (h : self.merge_planes convex_hull_fn other1 other2 = merge_result.merged s) :
    (if other1.p.head3.dot other2.p.head3 > 0 then other1.p.head3.add other2.p.head3
        else other1.p.head3.sub other2.p.head3).norm ≠ 0
    ∧ s.p.head3
        = (if other1.p.head3.dot other2.p.head3 > 0 then other1.p.head3.add other2.p.head3
            else other1.p.head3.sub other2.p.head3).normalized
    ∧ s.p.w = -(s.p.head3.dot ((other1.c.add other2.c).scale 0.5))
    ∧ s.c = (other1.c.add other2.c).scale 0.5
    ∧ (other1.quat.toRotationMatrix.col1.sub
        (s.p.head3.scale (s.p.head3.dot other1.quat.toRotationMatrix.col1))).norm ≠ 0
    ∧ s.basis.col0
        = (other1.quat.toRotationMatrix.col1.sub
            (s.p.head3.scale (s.p.head3.dot other1.quat.toRotationMatrix.col1))).normalized
    ∧ (s.p.head3.cross s.basis.col0).norm ≠ 0
    ∧ s.basis.col1 = (s.p.head3.cross s.basis.col0).normalized
    ∧ s.quat = Quaterniond.ofMatrix ⟨s.p.head3, s.basis.col0, s.basis.col1⟩
    ∧ (∃ hull0 : List Vector3d, s.convex_hull = hull0.map (fun point =>
        (Matrix3d.mk s.p.head3 s.basis.col0 s.basis.col1).mulVec
          ⟨point.x - (s.p.head3.dot
              ((Matrix3d.mk s.p.head3 s.basis.col0 s.basis.col1).mulVec point) + s.p.w),
            point.y, point.z⟩)) := by
  unfold plane_primitive.merge_planes at h
  simp only [plane_primitive.direction_and_center] at h
  by_cases hd : other1.p.head3.dot other2.p.head3 > 0
  · simp only [if_pos hd] at h ⊢
    split_ifs at h with h1 h2 h3
    have e := merge_result.merged.inj h
    subst e
    exact ⟨h1, rfl, rfl, rfl, h2, rfl, h3, rfl, rfl, _, rfl⟩
  · simp only [if_neg hd] at h ⊢
    split_ifs at h with h1 h2 h3
    have e := merge_result.merged.inj h
    subst e
    exact ⟨h1, rfl, rfl, rfl, h2, rfl, h3, rfl, rfl, _, rfl⟩

/-- C9: for two siblings with unit normals `v_p`, `v_q`, `merge_planes` stores the normal
`normalize (v_p + v_q)` when `v_p . v_q > 0` and `normalize (v_p - v_q)` otherwise; the
vector normalised is never zero and the stored normal has length 1; when the siblings
share the normal `n`, the merged normal is `n` and the offset is `d = -n . c` for `c` the
average of the two centers. -/
theorem merge_planes_normal (self : plane_primitive)
    (convex_hull_fn : Vector3d → List Vector3d → List Vector3d)
    (other1 other2 : plane_primitive)
    (hp : other1.p.head3.norm = 1) (hq : other2.p.head3.norm = 1) :
    ∃ p, (self.merge_planes convex_hull_fn other1 other2).equation = some p
    ∧ (0 < other1.p.head3.dot other2.p.head3 →
      p.head3 = (other1.p.head3.add other2.p.head3).normalized)
    ∧ (¬ 0 < other1.p.head3.dot other2.p.head3 →
      p.head3 = (other1.p.head3.sub other2.p.head3).normalized)
    ∧ (if other1.p.head3.dot other2.p.head3 > 0 then other1.p.head3.add other2.p.head3
        else other1.p.head3.sub other2.p.head3).norm ≠ 0
    ∧ p.head3.norm = 1
    ∧ (other1.p.head3 = other2.p.head3 →
      p.head3 = other1.p.head3
      ∧ (self.merge_planes convex_hull_fn other1 other2).c
          = (other1.c.add other2.c).scale 0.5
      ∧ p.w = -(other1.p.head3.dot ((other1.c.add other2.c).scale 0.5))) := by
  have hne := merged_direction_norm_ne_zero _ _ hp hq
  obtain ⟨p, hp0, e1, e2, e3⟩ := merge_planes_p self convex_hull_fn other1 other2 hne
  refine ⟨p, hp0, ?_, ?_, hne, ?_, ?_⟩
  · intro h
    rw [e1, if_pos h]
  · intro h
    rw [e1, if_neg h]
  · rw [e1]
    exact Vector3d.norm_normalized _ hne
  · intro hsame
    have hn : p.head3 = other1.p.head3 := by
      rw [e1, ← hsame, if_pos (by rw [other1.p.head3.dot_self_of_norm_one hp]; norm_num)]
      exact Vector3d.normalized_add_self _ hp
    refine ⟨hn, e3, ?_⟩
    rw [e2, hn]

/-- C9 on two patches of the ground plane. -/
theorem merge_planes_normal_witness :
    ground_plane.p.head3.norm = 1 ∧ ground_neighbour.p.head3.norm = 1
    ∧ ∃ p, (plane_primitive.empty.merge_planes keep_points ground_plane
          ground_neighbour).equation = some p
      ∧ p.head3 = ⟨0, 0, 1⟩ ∧ p.w = 0 :=
  have hp : ground_plane.p.head3.norm = 1 := by
    simp [ground_plane, Vector4d.head3, Vector3d.norm, Vector3d.dot]
  have hq : ground_neighbour.p.head3.norm = 1 := by
    simp [ground_neighbour, ground_plane, Vector4d.head3, Vector3d.norm, Vector3d.dot]
  have h := merge_planes_normal plane_primitive.empty keep_points ground_plane ground_neighbour
    hp hq
  ⟨hp, hq, h.choose, h.choose_spec.1, (h.choose_spec.2.2.2.2.2 rfl).1.trans rfl,
    (h.choose_spec.2.2.2.2.2 rfl).2.2.trans (by
      simp [ground_plane, ground_neighbour, plane_primitive.empty, Vector4d.head3, Vector3d.dot,
        Vector3d.add, Vector3d.scale, Vector3d.zero])⟩

/-! ## `find_smallest_enclosing_box` -/

theorem Vector2d.planar_dot_self_nonneg (a : Vector2d) : 0 ≤ a.dot a := by
  unfold Vector2d.dot
  nlinarith [sq_nonneg a.x, sq_nonneg a.y]

theorem Vector2d.planar_norm_sq (a : Vector2d) : a.norm * a.norm = a.dot a :=
  Real.mul_self_sqrt a.planar_dot_self_nonneg

theorem Vector2d.planar_norm_nonneg (a : Vector2d) : 0 ≤ a.norm := Real.sqrt_nonneg _

theorem Vector2d.planar_norm_eq_zero_iff (a : Vector2d) : a.norm = 0 ↔ a = ⟨0, 0⟩ := by
  unfold Vector2d.norm
  rw [Real.sqrt_eq_zero a.planar_dot_self_nonneg]
  constructor
  · intro h
    unfold Vector2d.dot at h
    have hx : a.x = 0 := by nlinarith [sq_nonneg a.x, sq_nonneg a.y]
    have hy : a.y = 0 := by nlinarith [sq_nonneg a.x, sq_nonneg a.y]
    exact Vector2d.ext hx hy
  · intro h
    subst h
    simp [Vector2d.dot]

theorem Vector2d.sub_norm_ne_zero_iff (a a1 : Vector2d) : (a1.sub a).norm ≠ 0 ↔ a1 ≠ a := by
  rw [Ne, Vector2d.planar_norm_eq_zero_iff]
  constructor
  · intro h e
    apply h
    subst e
    simp [Vector2d.sub]
  · intro h e
    apply h
    have hx := congrArg Vector2d.x e
    have hy := congrArg Vector2d.y e
    simp only [Vector2d.sub] at hx hy
    exact Vector2d.ext (by linarith) (by linarith)

theorem Vector2d.planar_norm_normalized (a : Vector2d) (h : a.norm ≠ 0) : a.normalized.norm = 1 := by
  have hsq : a.normalized.dot a.normalized = 1 := by
    unfold Vector2d.normalized Vector2d.dot
    simp only
    have := a.planar_norm_sq
    unfold Vector2d.dot at this
    field_simp
    linarith
  unfold Vector2d.norm
  rw [hsq, Real.sqrt_one]

theorem Vector2d.eq_scale_normalized (a : Vector2d) (h : a.norm ≠ 0) :
    a = a.normalized.scale a.norm := by
  unfold Vector2d.normalized Vector2d.scale
  refine Vector2d.ext ?_ ?_ <;> simp only <;> field_simp

/-- The perpendicular built by the code from the unnormalised edge, once normalised, is
the perpendicular of the unit edge direction. -/
theorem Vector2d.normalized_perp (a : Vector2d) :
    (⟨-a.y, a.x⟩ : Vector2d).normalized = ⟨-a.normalized.y, a.normalized.x⟩ := by
  have hn : (⟨-a.y, a.x⟩ : Vector2d).norm = a.norm := by
    unfold Vector2d.norm Vector2d.dot
    congr 1
    simp only
    ring
  unfold Vector2d.normalized
  rw [hn]
  refine Vector2d.ext ?_ ?_
  · simp only
    ring
  · simp only

/-- A unit vector with a positive multiple equal to `e` is the normalisation of `e`. -/
theorem Vector2d.normalized_of_scale (e vec : Vector2d) (k : ℝ) (hk : 0 < k)
    (hvec : vec.norm = 1) (he : e = vec.scale k) : e.norm = k ∧ e.normalized = vec := by
  have h1 : vec.dot vec = 1 := by rw [← vec.planar_norm_sq, hvec]; norm_num
  have hn : e.norm = k := by
    unfold Vector2d.norm
    have : e.dot e = k ^ 2 := by
      rw [he]
      unfold Vector2d.dot Vector2d.scale at *
      simp only
      linear_combination (k ^ 2) * h1
    rw [this, Real.sqrt_sq hk.le]
  refine ⟨hn, ?_⟩
  unfold Vector2d.normalized
  rw [hn, he]
  unfold Vector2d.scale
  refine Vector2d.ext ?_ ?_ <;> simp only <;> field_simp

/-- The running minimum of the inner loop, started at `INFINITY`, is the least value. -/
theorem fold_widthmin_spec {α : Type} (f : α → ℝ) (l : List α) (hl : l ≠ []) :
    ∃ lo, l.foldl (fun (m : Option ℝ) q =>
        match m with
        | none => some (f q)
        | some m => if f q < m then some (f q) else some m) none = some lo
      ∧ (∃ q ∈ l, f q = lo) ∧ ∀ q ∈ l, lo ≤ f q := by
  induction l using List.reverseRecOn with
  | nil => exact absurd rfl hl
  | append_singleton l q ih =>
    rw [List.foldl_append]
    simp only [List.foldl_cons, List.foldl_nil]
    by_cases hl1 : l = []
    · subst hl1
      refine ⟨f q, rfl, ⟨q, by simp, rfl⟩, ?_⟩
      intro q1 hq1
      simp only [List.nil_append, List.mem_singleton] at hq1
      rw [hq1]
    · obtain ⟨lo, e, ⟨q0, hq0, hq0e⟩, hlb⟩ := ih hl1
      rw [e]
      simp only
      by_cases hlt : f q < lo
      · rw [if_pos hlt]
        refine ⟨f q, rfl, ⟨q, by simp, rfl⟩, ?_⟩
        intro q1 hq1
        rcases List.mem_append.mp hq1 with h | h
        · exact le_trans hlt.le (hlb q1 h)
        · rw [List.mem_singleton.mp h]
      · rw [if_neg hlt]
        refine ⟨lo, rfl, ⟨q0, List.mem_append_left _ hq0, hq0e⟩, ?_⟩
        intro q1 hq1
        rcases List.mem_append.mp hq1 with h | h
        · exact hlb q1 h
        · rw [List.mem_singleton.mp h]; exact not_lt.mp hlt

/-- The running maximum of the inner loop, started at `-INFINITY`, is the greatest
value. -/
theorem fold_widthmax_spec {α : Type} (f : α → ℝ) (l : List α) (hl : l ≠ []) :
    ∃ hi, l.foldl (fun (m : Option ℝ) q =>
        match m with
        | none => some (f q)
        | some m => if f q > m then some (f q) else some m) none = some hi
      ∧ (∃ q ∈ l, f q = hi) ∧ ∀ q ∈ l, f q ≤ hi := by
  induction l using List.reverseRecOn with
  | nil => exact absurd rfl hl
  | append_singleton l q ih =>
    rw [List.foldl_append]
    simp only [List.foldl_cons, List.foldl_nil]
    by_cases hl1 : l = []
    · subst hl1
      refine ⟨f q, rfl, ⟨q, by simp, rfl⟩, ?_⟩
      intro q1 hq1
      simp only [List.nil_append, List.mem_singleton] at hq1
      rw [hq1]
    · obtain ⟨hi, e, ⟨q0, hq0, hq0e⟩, hub⟩ := ih hl1
      rw [e]
      simp only
      by_cases hgt : f q > hi
      · rw [if_pos hgt]
        refine ⟨f q, rfl, ⟨q, by simp, rfl⟩, ?_⟩
        intro q1 hq1
        rcases List.mem_append.mp hq1 with h | h
        · exact le_trans (hub q1 h) (le_of_lt hgt)
        · rw [List.mem_singleton.mp h]
      · rw [if_neg hgt]
        refine ⟨hi, rfl, ⟨q0, List.mem_append_left _ hq0, hq0e⟩, ?_⟩
        intro q1 hq1
        rcases List.mem_append.mp hq1 with h | h
        · exact hub q1 h
        · rw [List.mem_singleton.mp h]; exact not_lt.mp hgt

/-- The running `heightmax` is the start value or one of the values seen, and no value
seen (nor the start value) exceeds it in absolute value. -/
theorem fold_heightmax_spec {α : Type} (g : α → ℝ) (l : List α) :
    ∀ h0 : ℝ,
      (l.foldl (fun h q => if |g q| > |h| then g q else h) h0 = h0
        ∨ ∃ q ∈ l, g q = l.foldl (fun h q => if |g q| > |h| then g q else h) h0)
      ∧ |h0| ≤ |l.foldl (fun h q => if |g q| > |h| then g q else h) h0|
      ∧ ∀ q ∈ l, |g q| ≤ |l.foldl (fun h q => if |g q| > |h| then g q else h) h0| := by
  induction l with
  | nil => intro h0; simp
  | cons q rest ih =>
    intro h0
    simp only [List.foldl_cons]
    obtain ⟨h1, h2, h3⟩ := ih (if |g q| > |h0| then g q else h0)
    have hstep : |h0| ≤ |if |g q| > |h0| then g q else h0|
        ∧ |g q| ≤ |if |g q| > |h0| then g q else h0| := by
      split
      · rename_i hc
        exact ⟨le_of_lt hc, le_refl _⟩
      · rename_i hc
        exact ⟨le_refl _, not_lt.mp hc⟩
    refine ⟨?_, le_trans hstep.1 h2, ?_⟩
    · rcases h1 with h1 | ⟨q1, hq1, e1⟩
      · by_cases hc : |g q| > |h0|
        · right
          refine ⟨q, List.mem_cons_self _ _, ?_⟩
          rw [h1, if_pos hc]
        · left
          rw [h1, if_neg hc]
      · exact Or.inr ⟨q1, List.mem_cons_of_mem _ hq1, e1⟩
    · intro q1 hq1
      rcases List.mem_cons.mp hq1 with rfl | hq1
      · exact le_trans hstep.2 h2
      · exact h3 q1 hq1

/-- The three locals of the inner loop evolve independently of one another. -/
theorem extent_foldl_eq (vec ovec base : Vector2d) (l : List Vector2d) :
    ∀ e : extent,
      (l.foldl (extent.step vec ovec base) e).widthmin
        = l.foldl (fun (m : Option ℝ) q =>
            match m with
            | none => some (vec.dot (Vector2d.sub q base))
            | some m => if vec.dot (Vector2d.sub q base) < m
                then some (vec.dot (Vector2d.sub q base)) else some m) e.widthmin
      ∧ (l.foldl (extent.step vec ovec base) e).widthmax
        = l.foldl (fun (m : Option ℝ) q =>
            match m with
            | none => some (vec.dot (Vector2d.sub q base))
            | some m => if vec.dot (Vector2d.sub q base) > m
                then some (vec.dot (Vector2d.sub q base)) else some m) e.widthmax
      ∧ (l.foldl (extent.step vec ovec base) e).heightmax
        = l.foldl (fun h q => if |ovec.dot (Vector2d.sub q base)| > |h|
            then ovec.dot (Vector2d.sub q base) else h) e.heightmax := by
  induction l with
  | nil => intro e; exact ⟨rfl, rfl, rfl⟩
  | cons q rest ih =>
    intro e
    simp only [List.foldl_cons]
    obtain ⟨h1, h2, h3⟩ := ih (extent.step vec ovec base e q)
    exact ⟨h1, h2, h3⟩

/-- What one pass of the outer loop computes for an edge of non-zero length. -/
theorem edge_candidate_spec (dpts : List Vector2d) (i : Nat) (a a1 : Vector2d)
    (ha : dpts.get? i = some a) (ha1 : dpts.get? ((i + 1) % dpts.length) = some a1)
    (hne : (a1.sub a).norm ≠ 0) :
    ∃ lo hi h : ℝ,
      edge_candidate dpts i = some (|h| * (hi - lo),
        { cmin := a.add (((((a1.sub a).normalized.scale lo).add
              ((a1.sub a).normalized.scale hi)).add
              ((⟨-(a1.sub a).y, (a1.sub a).x⟩ : Vector2d).normalized.scale h)).scale 0.5)
          axes := ⟨(a1.sub a).normalized, (⟨-(a1.sub a).y, (a1.sub a).x⟩ : Vector2d).normalized⟩
          lengths := ⟨hi - lo, h⟩ })
      ∧ (∃ q ∈ dpts, (a1.sub a).normalized.dot (q.sub a) = lo)
      ∧ (∀ q ∈ dpts, lo ≤ (a1.sub a).normalized.dot (q.sub a))
      ∧ (∃ q ∈ dpts, (a1.sub a).normalized.dot (q.sub a) = hi)
      ∧ (∀ q ∈ dpts, (a1.sub a).normalized.dot (q.sub a) ≤ hi)
      ∧ (∃ q ∈ dpts, (⟨-(a1.sub a).y, (a1.sub a).x⟩ : Vector2d).normalized.dot (q.sub a) = h)
      ∧ (∀ q ∈ dpts,
          |(⟨-(a1.sub a).y, (a1.sub a).x⟩ : Vector2d).normalized.dot (q.sub a)| ≤ |h|) := by
  have hmem : a ∈ dpts := List.get?_mem ha
  have hl : dpts ≠ [] := List.ne_nil_of_mem hmem
  obtain ⟨e1, e2, e3⟩ := extent_foldl_eq (a1.sub a).normalized
    (⟨-(a1.sub a).y, (a1.sub a).x⟩ : Vector2d).normalized a dpts extent.init
  obtain ⟨lo, hlo, hlo1, hlo2⟩ :=
    fold_widthmin_spec (fun q => (a1.sub a).normalized.dot (Vector2d.sub q a)) dpts hl
  obtain ⟨hi, hhi, hhi1, hhi2⟩ :=
    fold_widthmax_spec (fun q => (a1.sub a).normalized.dot (Vector2d.sub q a)) dpts hl
  obtain ⟨hh1, _, hh3⟩ := fold_heightmax_spec
    (fun q => (⟨-(a1.sub a).y, (a1.sub a).x⟩ : Vector2d).normalized.dot (Vector2d.sub q a)) dpts 0
  have e1a := e1.trans hlo
  have e2a := e2.trans hhi
  have e3a : _ = List.foldl _ (0 : ℝ) dpts := e3
  refine ⟨lo, hi, _, ?_, hlo1, hlo2, hhi1, hhi2, ?_, hh3⟩
  · unfold edge_candidate
    simp only [ha, ha1, if_neg hne, e1a, e2a, e3a]
  · rcases hh1 with h0 | h0
    · refine ⟨a, hmem, ?_⟩
      rw [h0]
      simp [Vector2d.sub, Vector2d.dot]
    · exact h0

theorem edge_candidate_isSome_of_proper (dpts : List Vector2d) (i : Nat) (a a1 : Vector2d)
    (ha : dpts.get? i = some a) (ha1 : dpts.get? ((i + 1) % dpts.length) = some a1)
    (hne : a1 ≠ a) : edge_candidate dpts i ≠ none := by
  obtain ⟨lo, hi, h, e, _⟩ := edge_candidate_spec dpts i a a1 ha ha1
    ((Vector2d.sub_norm_ne_zero_iff a a1).mpr hne)
  rw [e]
  exact Option.some_ne_none _

/-- A candidate of the loop is the claim's rectangle of its edge, with its area. -/
theorem is_edge_box_of_edge_candidate (dpts : List Vector2d) (i : Nat) (area : ℝ) (b : box)
    (h : edge_candidate dpts i = some (area, b)) : is_edge_box dpts i b ∧ area = b.area := by
  cases ha : dpts.get? i with
  | none =>
    unfold edge_candidate at h
    rw [ha] at h
    simp at h
  | some a =>
    cases ha1 : dpts.get? ((i + 1) % dpts.length) with
    | none =>
      unfold edge_candidate at h
      rw [ha, ha1] at h
      simp at h
    | some a1 =>
      by_cases hne : (a1.sub a).norm = 0
      · unfold edge_candidate at h
        rw [ha, ha1] at h
        simp [hne] at h
      · obtain ⟨lo, hi, ht, e, m1, m2, m3, m4, m5, m6⟩ :=
          edge_candidate_spec dpts i a a1 ha ha1 hne
        rw [e] at h
        have hb := (Prod.mk.inj (Option.some.inj h)).2
        have harea := (Prod.mk.inj (Option.some.inj h)).1
        subst hb
        refine ⟨⟨a, a1, (a1.sub a).normalized, (⟨-(a1.sub a).y, (a1.sub a).x⟩ : Vector2d).normalized,
          lo, hi, ht, ha, ha1, Vector2d.planar_norm_normalized _ hne,
          ⟨(a1.sub a).norm, lt_of_le_of_ne (Vector2d.planar_norm_nonneg _) (Ne.symm hne),
            Vector2d.eq_scale_normalized _ hne⟩,
          Vector2d.normalized_perp _, m1, m2, m3, m4, m5, m6, rfl, rfl, ?_⟩, ?_⟩
        · simp only
          congr 2
          unfold Vector2d.add Vector2d.scale
          refine Vector2d.ext ?_ ?_ <;> simp only <;> ring
        · rw [← harea]
          rfl

/-- The claim's rectangle of an edge has the area of the loop's candidate for it. -/
theorem edge_candidate_of_is_edge_box (dpts : List Vector2d) (i : Nat) (bj : box)
    (h : is_edge_box dpts i bj) : ∃ b, edge_candidate dpts i = some (bj.area, b) := by
  obtain ⟨a, a1, vec, ovec, lo, hi, ht, ha, ha1, hvec, ⟨k, hk, hedge⟩, hovec,
    ⟨q1, hq1, e1⟩, s2, ⟨q3, hq3, e3⟩, s4, ⟨q5, hq5, e5⟩, s6, hlen, _, _⟩ := h
  obtain ⟨hn, hnorm⟩ := Vector2d.normalized_of_scale (a1.sub a) vec k hk hvec hedge
  have hne : (a1.sub a).norm ≠ 0 := by rw [hn]; exact ne_of_gt hk
  obtain ⟨lo1, hi1, ht1, e, ⟨p1, hp1, f1⟩, m2, ⟨p3, hp3, f3⟩, m4, ⟨p5, hp5, f5⟩, m6⟩ :=
    edge_candidate_spec dpts i a a1 ha ha1 hne
  rw [Vector2d.normalized_perp, hnorm, ← hovec] at f5 m6
  rw [hnorm] at f1 m2 f3 m4
  have hlo : lo1 = lo := by
    apply le_antisymm
    · rw [← e1]; exact m2 q1 hq1
    · rw [← f1]; exact s2 p1 hp1
  have hhi : hi1 = hi := by
    apply le_antisymm
    · rw [← f3]; exact s4 p3 hp3
    · rw [← e3]; exact m4 q3 hq3
  have hht : |ht1| = |ht| := by
    apply le_antisymm
    · rw [← f5]; exact s6 p5 hp5
    · rw [← e5]; exact m6 q5 hq5
  have harea : |ht1| * (hi1 - lo1) = bj.area := by
    unfold box.area
    rw [hlen, hlo, hhi, hht]
  rw [e, harea]
  exact ⟨_, rfl⟩

/-- The outer loop keeps the first candidate of least area among the first `n` edges;
it keeps nothing exactly when none of them has a candidate. -/
theorem box_loop_spec (dpts : List Vector2d) (n : Nat) :
    ((List.range n).foldl (box_update dpts) none = none →
      ∀ i < n, edge_candidate dpts i = none)
    ∧ ∀ best, (List.range n).foldl (box_update dpts) none = some best →
      ∃ i < n, edge_candidate dpts i = some best
        ∧ (∀ j < n, ∀ c, edge_candidate dpts j = some c → best.1 ≤ c.1)
        ∧ (∀ j < i, ∀ c, edge_candidate dpts j = some c → best.1 < c.1) := by
  induction n with
  | zero =>
    refine ⟨fun _ i hi => absurd hi (Nat.not_lt_zero i), ?_⟩
    intro best h
    simp at h
  | succ n ih =>
    obtain ⟨ih0, ih1⟩ := ih
    rw [List.range_succ, List.foldl_append]
    simp only [List.foldl_cons, List.foldl_nil]
    cases hc : edge_candidate dpts n with
    | none =>
      have hstep : ∀ b, box_update dpts b n = b := by
        intro b
        unfold box_update
        rw [hc]
      rw [hstep]
      constructor
      · intro h i hi
        rcases Nat.lt_succ_iff_lt_or_eq.mp hi with hlt | rfl
        · exact ih0 h i hlt
        · exact hc
      · intro best h
        obtain ⟨i, hi, e, hmin, hfirst⟩ := ih1 best h
        refine ⟨i, Nat.lt_succ_of_lt hi, e, ?_, hfirst⟩
        intro j hj c hcj
        rcases Nat.lt_succ_iff_lt_or_eq.mp hj with hlt | rfl
        · exact hmin j hlt c hcj
        · rw [hc] at hcj
          cases hcj
    | some cand =>
      cases hb : (List.range n).foldl (box_update dpts) none with
      | none =>
        have hstep : box_update dpts none n = some cand := by
          unfold box_update
          rw [hc]
        rw [hstep]
        refine ⟨fun h => Option.noConfusion h, ?_⟩
        intro best h
        have hbest : cand = best := Option.some.inj h
        subst hbest
        refine ⟨n, Nat.lt_succ_self n, hc, ?_, ?_⟩
        · intro j hj c hcj
          rcases Nat.lt_succ_iff_lt_or_eq.mp hj with hlt | rfl
          · rw [ih0 hb j hlt] at hcj
            cases hcj
          · rw [hc] at hcj
            rw [Option.some.inj hcj]
        · intro j hj c hcj
          rw [ih0 hb j hj] at hcj
          cases hcj
      | some b =>
        obtain ⟨i, hi, e, hmin, hfirst⟩ := ih1 b hb
        by_cases hlt : cand.1 < b.1
        · have hstep : box_update dpts (some b) n = some cand := by
            unfold box_update
            rw [hc]
            simp only [if_pos hlt]
          rw [hstep]
          refine ⟨fun h => Option.noConfusion h, ?_⟩
          intro best h
          have hbest : cand = best := Option.some.inj h
          subst hbest
          refine ⟨n, Nat.lt_succ_self n, hc, ?_, ?_⟩
          · intro j hj c hcj
            rcases Nat.lt_succ_iff_lt_or_eq.mp hj with hjn | rfl
            · exact le_trans hlt.le (hmin j hjn c hcj)
            · rw [hc] at hcj
              rw [Option.some.inj hcj]
          · intro j hj c hcj
            exact lt_of_lt_of_le hlt (hmin j hj c hcj)
        · have hstep : box_update dpts (some b) n = some b := by
            unfold box_update
            rw [hc]
            simp only [if_neg hlt]
          rw [hstep]
          refine ⟨fun h => Option.noConfusion h, ?_⟩
          intro best h
          have hbest : b = best := Option.some.inj h
          subst hbest
          refine ⟨i, Nat.lt_succ_of_lt hi, e, ?_, hfirst⟩
          intro j hj c hcj
          rcases Nat.lt_succ_iff_lt_or_eq.mp hj with hjn | rfl
          · exact hmin j hjn c hcj
          · rw [hc] at hcj
            rw [← Option.some.inj hcj]
            exact not_lt.mp hlt

theorem to_dpts_length (pts : List Point) : (to_dpts pts).length = pts.length := by
  unfold to_dpts
  simp

/-- C10, as amended: for every polygon with at least one edge of non-zero length,
`find_smallest_enclosing_box` returns the data of the first edge `i -> i+1 (mod n)` of
non-zero length that minimises the candidate area `|height_i| * width_i` among the edges
of non-zero length, where `width_i = max - min` of the vertex projections onto the unit
edge direction and `height_i` is a signed projection of largest absolute value onto the
perpendicular; the lengths are `(width_i, height_i)`, the axes are `(vec_i, ovec_i)`
and the center is `vertex_i + 0.5 * ((min + max) * vec_i + height_i * ovec_i)`.
(Edges of length zero have no unit direction and carry no rectangle in `is_edge_box`.) -/
theorem find_smallest_enclosing_box_first_minimal (pts : List Point)
    (h : has_proper_edge pts) : returns_first_minimal_edge pts := by
  obtain ⟨i0, a, a1, ha, ha1, hne⟩ := h
  have hsome := edge_candidate_isSome_of_proper (to_dpts pts) i0 a a1 ha ha1 hne
  have hi0 : i0 < (to_dpts pts).length := by
    by_contra hcon
    rw [List.get?_eq_none.mpr (not_lt.mp hcon)] at ha
    cases ha
  obtain ⟨h0, h1⟩ := box_loop_spec (to_dpts pts) (to_dpts pts).length
  cases hb : (List.range (to_dpts pts).length).foldl (box_update (to_dpts pts)) none with
  | none => exact absurd (h0 hb i0 hi0) hsome
  | some best =>
    obtain ⟨i, hi, e, hmin, hfirst⟩ := h1 best hb
    obtain ⟨hbox, harea⟩ := is_edge_box_of_edge_candidate (to_dpts pts) i best.1 best.2 e
    refine ⟨i, best.2, ?_, ?_, hbox, ?_, ?_⟩
    · rw [← to_dpts_length]; exact hi
    · unfold find_smallest_enclosing_box
      simp only [hb, Option.map_some']
    · intro j bj hj hbj
      obtain ⟨b1, e1⟩ := edge_candidate_of_is_edge_box (to_dpts pts) j bj hbj
      rw [← harea]
      exact hmin j (by rw [to_dpts_length]; exact hj) _ e1
    · intro j bj hj hbj
      obtain ⟨b1, e1⟩ := edge_candidate_of_is_edge_box (to_dpts pts) j bj hbj
      rw [← harea]
      exact hfirst j hj _ e1

/-- C10 on the 2 x 4 rectangle hull, whose first edge `(0,0) -> (0,3)` has length 3. -/
theorem find_smallest_enclosing_box_first_minimal_witness :
    has_proper_edge two_by_four_hull ∧ returns_first_minimal_edge two_by_four_hull :=
  have h : has_proper_edge two_by_four_hull :=
    ⟨0, ⟨0, 0⟩, ⟨0, 3⟩, by simp [to_dpts, two_by_four_hull],
      by simp [to_dpts, two_by_four_hull], by
        intro e
        have := congrArg Vector2d.y e
        norm_num at this⟩
  ⟨h, find_smallest_enclosing_box_first_minimal two_by_four_hull h⟩

/-- On the hull of a one-cell footprint every edge has length zero and the function
returns without writing its outputs. -/
theorem find_smallest_enclosing_box_one_cell :
    find_smallest_enclosing_box one_cell_hull = none := by
  have hn : (Vector2d.sub (⟨0, 0⟩ : Vector2d) ⟨0, 0⟩).norm = 0 := by
    simp [Vector2d.sub, Vector2d.norm, Vector2d.dot]
  have hc : ∀ i, edge_candidate (to_dpts one_cell_hull) i = none := by
    intro i
    unfold edge_candidate
    cases ha : (to_dpts one_cell_hull).get? i with
    | none => rfl
    | some a =>
      cases ha1 : (to_dpts one_cell_hull).get? ((i + 1) % (to_dpts one_cell_hull).length) with
      | none => rfl
      | some a1 =>
        have e : a = ⟨0, 0⟩ := by
          have := List.get?_mem ha
          simp [to_dpts, one_cell_hull] at this
          exact this
        have e1 : a1 = ⟨0, 0⟩ := by
          have := List.get?_mem ha1
          simp [to_dpts, one_cell_hull] at this
          exact this
        subst e
        subst e1
        simp only [if_pos hn]
  have hfold : ∀ l : List Nat, l.foldl (box_update (to_dpts one_cell_hull)) none = none := by
    intro l
    induction l with
    | nil => rfl
    | cons i rest ih =>
      simp only [List.foldl_cons]
      have : box_update (to_dpts one_cell_hull) none i = none := by
        unfold box_update
        rw [hc i]
      rw [this, ih]
  unfold find_smallest_enclosing_box
  simp only [hfold, Option.map_none']

/-- C10 fails as stated: the non-empty polygon `one_cell_hull` gets no rectangle. -/
theorem find_smallest_enclosing_box_one_cell_counterexample :
    one_cell_hull ≠ [] ∧ ¬ returns_first_minimal_edge one_cell_hull := by
  refine ⟨by simp [one_cell_hull], ?_⟩
  rintro ⟨i, b, _, hb, _⟩
  rw [find_smallest_enclosing_box_one_cell] at hb
  cases hb

/-! ## `distance_to_pt`, `shape_data` -/

/-- What an accepting `construct` leaves in the primitive. -/
theorem construct_accepted_state (self : plane_primitive) (points normals : Fin 3 → Vector3d)
    (inlier_threshold angle_threshold : ℝ) (s : plane_primitive)
    (h : self.construct points normals inlier_threshold angle_threshold
      = construct_result.accepted s) :
    (((points 1).sub (points 0)).cross ((points 2).sub (points 0))).norm ≠ 0
    ∧ s = { self with
        p := ⟨(fitted_normal points normals).x, (fitted_normal points normals).y,
          (fitted_normal points normals).z, -((fitted_normal points normals).dot (points 0))⟩
        basis := ⟨((points 1).sub (points 0)).normalized,
          ((fitted_normal points normals).cross
            ((points 1).sub (points 0)).normalized).normalized⟩ } := by
  by_cases hc : (((points 1).sub (points 0)).cross ((points 2).sub (points 0))).norm = 0
  · unfold plane_primitive.construct at h
    simp only [if_pos hc] at h
    cases h
  · refine ⟨hc, ?_⟩
    rw [construct_eq_of_cross_ne_zero self points normals inlier_threshold angle_threshold hc] at h
    split at h
    · cases h
    · exact (construct_result.accepted.inj h).symm

/-- The spec's scenario is accepted with the angle threshold `0.1`. -/
theorem scenario_accepted :
    plane_primitive.empty.construct scenario_points scenario_normals 1 (1 / 10)
      = construct_result.accepted
        { plane_primitive.empty with
          p := ⟨(fitted_normal scenario_points scenario_normals).x,
            (fitted_normal scenario_points scenario_normals).y,
            (fitted_normal scenario_points scenario_normals).z,
            -((fitted_normal scenario_points scenario_normals).dot (scenario_points 0))⟩
          basis := ⟨((scenario_points 1).sub (scenario_points 0)).normalized,
            ((fitted_normal scenario_points scenario_normals).cross
              ((scenario_points 1).sub (scenario_points 0)).normalized).normalized⟩ } :=
  construct_accepted_of_within plane_primitive.empty scenario_points scenario_normals 1 (1 / 10)
    (cross_norm_ne_zero_of_not_collinear scenario_points scenario_not_collinear)
    (by
      intro i
      rw [scenario_fitted_normal]
      simp [Vector3d.dot, scenario_normals])

theorem switch_direction_p (self : plane_primitive) :
    self.switch_direction.p = self.p.neg := rfl

theorem switch_direction_distance (self : plane_primitive) (pt : Vector3d) :
    self.switch_direction.distance_to_pt pt = self.distance_to_pt pt := by
  unfold plane_primitive.distance_to_pt
  rw [switch_direction_p]
  have : pt.dot self.p.neg.head3 + self.p.neg.w = -(pt.dot self.p.head3 + self.p.w) := by
    simp only [Vector4d.neg, Vector4d.head3, Vector3d.dot]
    ring
  rw [this, abs_neg]

/-- C12: `distance_to_pt pt = |n . pt + d|`; it is 0 at every point with
`n . pt + d = 0`, in particular at the three points an accepting `construct` was built
from; and its value at every point is the same before and after `switch_direction`. -/
theorem distance_to_pt_spec (self : plane_primitive) (pt : Vector3d) :
    self.distance_to_pt pt = |self.p.head3.dot pt + self.p.w|
    ∧ (self.p.head3.dot pt + self.p.w = 0 → self.distance_to_pt pt = 0)
    ∧ (∀ (points normals : Fin 3 → Vector3d) (inlier_threshold angle_threshold : ℝ)
        (s : plane_primitive),
        self.construct points normals inlier_threshold angle_threshold
          = construct_result.accepted s →
        ∀ i, s.distance_to_pt (points i) = 0)
    ∧ self.switch_direction.distance_to_pt pt = self.distance_to_pt pt := by
  have hd : ∀ (s : plane_primitive) (q : Vector3d),
      s.distance_to_pt q = |s.p.head3.dot q + s.p.w| := by
    intro s q
    unfold plane_primitive.distance_to_pt
    rw [Vector3d.dot_comm]
  refine ⟨hd self pt, ?_, ?_, switch_direction_distance self pt⟩
  · intro h0
    rw [hd, h0, abs_zero]
  · intro points normals inlier_threshold angle_threshold s hs i
    obtain ⟨_, e⟩ := construct_accepted_state self points normals inlier_threshold
      angle_threshold s hs
    rw [hd, e]
    have := fitted_normal_on_plane points normals i
    simp only [Vector4d.head3]
    rw [this, abs_zero]

/-- C12 at the spec's scenario: the three sample points are at distance 0 from the
constructed plane. -/
theorem distance_to_pt_spec_witness :
    ∃ s, plane_primitive.empty.construct scenario_points scenario_normals 1 (1 / 10)
        = construct_result.accepted s
      ∧ ∀ i, s.distance_to_pt (scenario_points i) = 0 :=
  ⟨_, scenario_accepted, (distance_to_pt_spec plane_primitive.empty ⟨0, 0, 0⟩).2.2.1
    scenario_points scenario_normals 1 (1 / 10) _ scenario_accepted⟩

/-- C18: `shape_data` produces exactly 13 scalars, laid out as equation `n_x, n_y, n_z,
d`, the two extents, the three center coordinates and the quaternion in the order
`x, y, z, w`; the quaternion that `merge_planes` rebuilds from entries 12, 9, 10, 11 is
the stored orientation, so the frame that `merge_planes` derives (when it is finite) is
that of the first sibling's orientation. -/
theorem shape_data_layout (self : plane_primitive) :
    self.shape_data.length = 13
    ∧ self.shape_data
        = [self.p.x, self.p.y, self.p.z, self.p.w] ++ [self.sizes.x, self.sizes.y]
          ++ [self.c.x, self.c.y, self.c.z]
          ++ [self.quat.x, self.quat.y, self.quat.z, self.quat.w]
    ∧ ({ w := VectorXd_at self.shape_data 12, x := VectorXd_at self.shape_data 9,
         y := VectorXd_at self.shape_data 10, z := VectorXd_at self.shape_data 11 }
        : Quaterniond) = self.quat
    ∧ ∀ (receiver other2 s : plane_primitive)
        (convex_hull_fn : Vector3d → List Vector3d → List Vector3d),
        receiver.merge_planes convex_hull_fn self other2 = merge_result.merged s →
        s.basis.col0
          = (self.quat.toRotationMatrix.col1.sub
              (s.p.head3.scale (s.p.head3.dot self.quat.toRotationMatrix.col1))).normalized :=
  ⟨rfl, rfl, rfl, fun receiver other2 s convex_hull_fn h =>
    (merge_planes_merged receiver convex_hull_fn self other2 s h).2.2.2.2.2.1⟩

/-- The two sample patches have sorted, duplicate-free index lists, and the merged list
is `[1, 2, 4, 4]`. -/
theorem merge_patches_supporting_inds :
    (plane_primitive.empty.merge_planes keep_points patch_a patch_b).supporting_inds
      = [1, 2, 4, 4] := by
  rw [merge_planes_supporting_inds_eq]
  decide

/-- C17 fails as stated: `patch_a` and `patch_b` have sorted, duplicate-free index
lists, yet the merged list contains the index 4 twice. -/
theorem merge_planes_duplicate_counterexample :
    (patch_a.supporting_inds.Sorted (fun a b => a ≤ b) ∧ patch_a.supporting_inds.Nodup)
    ∧ (patch_b.supporting_inds.Sorted (fun a b => a ≤ b) ∧ patch_b.supporting_inds.Nodup)
    ∧ ¬ (plane_primitive.empty.merge_planes keep_points patch_a patch_b).supporting_inds.Nodup := by
  refine ⟨⟨?_, ?_⟩, ⟨?_, ?_⟩, ?_⟩
  · simp [patch_a]
  · simp [patch_a]
  · simp [patch_b]
  · simp [patch_b]
  · rw [merge_patches_supporting_inds]
    decide

/-- C17, as amended: for two siblings whose `supporting_inds` are each sorted and free of
duplicates and have no index in common, the receiver's `supporting_inds` after
`merge_planes` is sorted and contains no index twice. -/
theorem merge_planes_sorted_nodup (self : plane_primitive)
    (convex_hull_fn : Vector3d → List Vector3d → List Vector3d)
    (other1 other2 : plane_primitive)
    (h1 : other1.supporting_inds.Sorted (fun a b => a ≤ b) ∧ other1.supporting_inds.Nodup)
    (h2 : other2.supporting_inds.Sorted (fun a b => a ≤ b) ∧ other2.supporting_inds.Nodup)
    (hdis : ∀ i ∈ other1.supporting_inds, i ∉ other2.supporting_inds) :
    ((self.merge_planes convex_hull_fn other1 other2).supporting_inds).Sorted (fun a b => a ≤ b)
    ∧ ((self.merge_planes convex_hull_fn other1 other2).supporting_inds).Nodup := by
  rw [merge_planes_supporting_inds_eq]
  refine ⟨std_sort_sorted _, ?_⟩
  rw [(std_sort_perm _).nodup_iff]
  exact List.Nodup.append h1.2 h2.2 (fun i hi1 hi2 => hdis i hi1 hi2)

/-- C17 (amended) on `patch_a` and `ground_neighbour`, whose indices `[1, 4]` and
`[2, 5]` are disjoint. -/
theorem merge_planes_sorted_nodup_witness :
    ((plane_primitive.empty.merge_planes keep_points patch_a ground_neighbour).supporting_inds).Sorted
      (fun a b => a ≤ b)
    ∧ ((plane_primitive.empty.merge_planes keep_points patch_a ground_neighbour).supporting_inds).Nodup :=
  merge_planes_sorted_nodup plane_primitive.empty keep_points patch_a ground_neighbour
    (by simp [patch_a]) (by simp [ground_neighbour])
    (by simp [patch_a, ground_neighbour])

/-! ## The on-plane invariant -/

/-- The merged normal has length 1 whenever `merge_planes` ends with finite values. -/
theorem merge_planes_unit_normal (self : plane_primitive)
    (convex_hull_fn : Vector3d → List Vector3d → List Vector3d)
    (other1 other2 s : plane_primitive)
    (h : self.merge_planes convex_hull_fn other1 other2 = merge_result.merged s) :
    s.p.head3.norm = 1 := by
  obtain ⟨h0, e, _⟩ := merge_planes_merged self convex_hull_fn other1 other2 s h
  rw [e]
  exact Vector3d.norm_normalized _ h0

theorem Quaterniond.normSq_mul (a b : Quaterniond) :
    (a.mul b).normSq = a.normSq * b.normSq := by
  unfold Quaterniond.normSq Quaterniond.mul
  simp only
  ring

theorem Quaterniond.toRotationMatrix_eq_homogeneous (q : Quaterniond) (h : q.normSq = 1) :
    q.toRotationMatrix = q.homogeneousMatrix := by
  unfold Quaterniond.normSq at h
  unfold Quaterniond.toRotationMatrix Quaterniond.homogeneousMatrix
  simp only
  refine Matrix3d.ext (Vector3d.ext ?_ ?_ ?_) (Vector3d.ext ?_ ?_ ?_) (Vector3d.ext ?_ ?_ ?_)
    <;> simp only <;> first | ring1 | linear_combination (-1 : ℝ) * h

theorem Quaterniond.homogeneousMatrix_mul (a b : Quaterniond) :
    (a.mul b).homogeneousMatrix = a.homogeneousMatrix.mul b.homogeneousMatrix := by
  unfold Quaterniond.homogeneousMatrix Quaterniond.mul Matrix3d.mul Matrix3d.mulVec
    Vector3d.add Vector3d.scale
  simp only
  refine Matrix3d.ext (Vector3d.ext ?_ ?_ ?_) (Vector3d.ext ?_ ?_ ?_) (Vector3d.ext ?_ ?_ ?_)
    <;> simp only <;> ring

theorem Quaterniond.toRotationMatrix_mul (a b : Quaterniond) (ha : a.normSq = 1)
    (hb : b.normSq = 1) :
    (a.mul b).toRotationMatrix = a.toRotationMatrix.mul b.toRotationMatrix := by
  rw [Quaterniond.toRotationMatrix_eq_homogeneous _ (by rw [Quaterniond.normSq_mul, ha, hb, one_mul]),
    Quaterniond.toRotationMatrix_eq_homogeneous a ha,
    Quaterniond.toRotationMatrix_eq_homogeneous b hb, Quaterniond.homogeneousMatrix_mul]

theorem Quaterniond.homogeneous_dot (q : Quaterniond) (x y : Vector3d) :
    (q.homogeneousMatrix.mulVec x).dot (q.homogeneousMatrix.mulVec y)
      = q.normSq * q.normSq * x.dot y := by
  unfold Quaterniond.homogeneousMatrix Matrix3d.mulVec Vector3d.add Vector3d.scale Vector3d.dot
    Quaterniond.normSq
  simp only
  ring

theorem Quaterniond.homogeneous_cross (q : Quaterniond) (x y : Vector3d) :
    (q.homogeneousMatrix.mulVec x).cross (q.homogeneousMatrix.mulVec y)
      = (q.homogeneousMatrix.mulVec (x.cross y)).scale q.normSq := by
  unfold Quaterniond.homogeneousMatrix Matrix3d.mulVec Vector3d.add Vector3d.scale Vector3d.cross
    Quaterniond.normSq
  simp only
  refine Vector3d.ext ?_ ?_ ?_ <;> simp only <;> ring

/-- The rotation of a unit quaternion keeps inner products. -/
theorem Quaterniond.rotation_dot (q : Quaterniond) (h : q.normSq = 1) (x y : Vector3d) :
    (q.toRotationMatrix.mulVec x).dot (q.toRotationMatrix.mulVec y) = x.dot y := by
  rw [Quaterniond.toRotationMatrix_eq_homogeneous q h, Quaterniond.homogeneous_dot, h]
  ring

/-- The rotation of a unit quaternion keeps vector products. -/
theorem Quaterniond.rotation_cross (q : Quaterniond) (h : q.normSq = 1) (x y : Vector3d) :
    (q.toRotationMatrix.mulVec x).cross (q.toRotationMatrix.mulVec y)
      = q.toRotationMatrix.mulVec (x.cross y) := by
  rw [Quaterniond.toRotationMatrix_eq_homogeneous q h, Quaterniond.homogeneous_cross, h]
  unfold Vector3d.scale
  refine Vector3d.ext ?_ ?_ ?_ <;> simp

theorem Matrix3d.mulVec_e0 (m : Matrix3d) : m.mulVec ⟨1, 0, 0⟩ = m.col0 := by
  unfold Matrix3d.mulVec Vector3d.add Vector3d.scale
  refine Vector3d.ext ?_ ?_ ?_ <;> simp

theorem Matrix3d.mulVec_e1 (m : Matrix3d) : m.mulVec ⟨0, 1, 0⟩ = m.col1 := by
  unfold Matrix3d.mulVec Vector3d.add Vector3d.scale
  refine Vector3d.ext ?_ ?_ ?_ <;> simp

theorem Matrix3d.mulVec_e2 (m : Matrix3d) : m.mulVec ⟨0, 0, 1⟩ = m.col2 := by
  unfold Matrix3d.mulVec Vector3d.add Vector3d.scale
  refine Vector3d.ext ?_ ?_ ?_ <;> simp

/-- The matrix of a unit quaternion is a proper rotation. -/
theorem Quaterniond.is_rotation_of_unit (q : Quaterniond) (h : q.normSq = 1) :
    q.toRotationMatrix.is_rotation := by
  have hd := Quaterniond.rotation_dot q h
  have hc := Quaterniond.rotation_cross q h
  unfold Matrix3d.is_rotation
  rw [← Matrix3d.mulVec_e0 q.toRotationMatrix, ← Matrix3d.mulVec_e1 q.toRotationMatrix,
    ← Matrix3d.mulVec_e2 q.toRotationMatrix]
  simp only [hd, hc]
  refine ⟨?_, ?_, ?_, ?_, ?_, ?_, ?_⟩ <;> simp [Vector3d.dot, Vector3d.cross]

/-! ## `switch_direction` -/

/-- The quaternion of a half turn about `a` is the pure quaternion `(0, a)`. -/
theorem half_turn_quaternion (a : Vector3d) :
    (AngleAxisd.mk Real.pi a).toQuaternion = ⟨0, a.x, a.y, a.z⟩ := by
  have h : (0.5 : ℝ) * Real.pi = Real.pi / 2 := by ring
  unfold AngleAxisd.toQuaternion
  simp only [h, Real.cos_pi_div_two, Real.sin_pi_div_two, one_mul]

/-- For a unit axis, the matrix that Eigen builds for a half turn is the matrix of the
pure quaternion `(0, a)`. -/
theorem half_turn_matrix (a : Vector3d) (h : a.dot a = 1) :
    (AngleAxisd.mk Real.pi a).toRotationMatrix
      = (⟨0, a.x, a.y, a.z⟩ : Quaterniond).toRotationMatrix := by
  unfold Vector3d.dot at h
  unfold AngleAxisd.toRotationMatrix Quaterniond.toRotationMatrix Vector3d.scale
  simp only [Real.sin_pi, Real.cos_pi]
  refine Matrix3d.ext (Vector3d.ext ?_ ?_ ?_) (Vector3d.ext ?_ ?_ ?_) (Vector3d.ext ?_ ?_ ?_)
    <;> simp only <;> first | ring1 | linear_combination (2 : ℝ) * h

theorem pure_quaternion_normSq (a : Vector3d) (h : a.dot a = 1) :
    (⟨0, a.x, a.y, a.z⟩ : Quaterniond).normSq = 1 := by
  unfold Vector3d.dot at h
  unfold Quaterniond.normSq
  simp only
  linear_combination h

/-- The second axis of the orientation of a unit quaternion is a unit vector. -/
theorem Quaterniond.col1_unit (q : Quaterniond) (h : q.normSq = 1) :
    q.toRotationMatrix.col1.dot q.toRotationMatrix.col1 = 1 :=
  (Quaterniond.is_rotation_of_unit q h).2.1

/-- The half turn about `a` maps `v` to `2 (a . v) a - v`. -/
theorem pure_quaternion_mulVec (a v : Vector3d) (h : a.dot a = 1) :
    (⟨0, a.x, a.y, a.z⟩ : Quaterniond).toRotationMatrix.mulVec v
      = (a.scale (2 * a.dot v)).sub v := by
  unfold Vector3d.dot at h
  unfold Quaterniond.toRotationMatrix Matrix3d.mulVec Vector3d.add Vector3d.scale Vector3d.sub
    Vector3d.dot
  simp only
  refine Vector3d.ext ?_ ?_ ?_ <;> simp only
  · linear_combination (-2 * v.x) * h
  · linear_combination (-2 * v.y) * h
  · linear_combination (-2 * v.z) * h

/-- What `switch_direction` does to a primitive with a unit orientation: with `a` the
second axis of the orientation, the orientation is multiplied by the pure quaternion
`(0, a)` and both basis vectors are turned by its matrix. -/
theorem switch_direction_of_unit (s : plane_primitive) (h : s.quat.normSq = 1) :
    s.switch_direction.p = s.p.neg
    ∧ s.switch_direction.quat
        = (⟨0, s.quat.toRotationMatrix.col1.x, s.quat.toRotationMatrix.col1.y,
            s.quat.toRotationMatrix.col1.z⟩ : Quaterniond).mul s.quat
    ∧ s.switch_direction.basis.col0
        = (⟨0, s.quat.toRotationMatrix.col1.x, s.quat.toRotationMatrix.col1.y,
            s.quat.toRotationMatrix.col1.z⟩ : Quaterniond).toRotationMatrix.mulVec s.basis.col0
    ∧ s.switch_direction.basis.col1
        = (⟨0, s.quat.toRotationMatrix.col1.x, s.quat.toRotationMatrix.col1.y,
            s.quat.toRotationMatrix.col1.z⟩ : Quaterniond).toRotationMatrix.mulVec s.basis.col1
    ∧ s.switch_direction.c = s.c ∧ s.switch_direction.convex_hull = s.convex_hull
    ∧ s.switch_direction.sizes = s.sizes := by
  have ha := Quaterniond.col1_unit s.quat h
  unfold plane_primitive.switch_direction
  simp only [half_turn_quaternion, half_turn_matrix _ ha]
  simp

theorem Matrix3d.mul_mulVec (a b : Matrix3d) (v : Vector3d) :
    (a.mul b).mulVec v = a.mulVec (b.mulVec v) := by
  unfold Matrix3d.mul Matrix3d.mulVec Vector3d.add Vector3d.scale
  refine Vector3d.ext ?_ ?_ ?_ <;> simp only <;> ring

/-- After `switch_direction` the orientation is again a unit quaternion; its first axis
is the old first axis turned about the old second axis, and its second axis is the old
second axis. -/
theorem switch_direction_orientation (s : plane_primitive) (h : s.quat.normSq = 1) :
    s.switch_direction.quat.normSq = 1
    ∧ s.switch_direction.quat.toRotationMatrix.col0
        = (s.quat.toRotationMatrix.col1.scale
            (2 * s.quat.toRotationMatrix.col1.dot s.quat.toRotationMatrix.col0)).sub
          s.quat.toRotationMatrix.col0
    ∧ s.switch_direction.quat.toRotationMatrix.col1 = s.quat.toRotationMatrix.col1 := by
  have ha := Quaterniond.col1_unit s.quat h
  have hq := pure_quaternion_normSq _ ha
  obtain ⟨_, e, _⟩ := switch_direction_of_unit s h
  rw [e]
  refine ⟨by rw [Quaterniond.normSq_mul, hq, h, one_mul], ?_, ?_⟩
  · rw [Quaterniond.toRotationMatrix_mul _ _ hq h]
    show Matrix3d.mulVec _ _ = _
    rw [pure_quaternion_mulVec _ _ ha]
  · rw [Quaterniond.toRotationMatrix_mul _ _ hq h]
    show Matrix3d.mulVec _ _ = _
    rw [pure_quaternion_mulVec _ _ ha, ha]
    unfold Vector3d.sub Vector3d.scale
    refine Vector3d.ext ?_ ?_ ?_ <;> simp only <;> ring

/-- Two half turns about the same unit axis give back every vector. -/
theorem pure_quaternion_mulVec_twice (a v : Vector3d) (h : a.dot a = 1) :
    (⟨0, a.x, a.y, a.z⟩ : Quaterniond).toRotationMatrix.mulVec
      ((⟨0, a.x, a.y, a.z⟩ : Quaterniond).toRotationMatrix.mulVec v) = v := by
  rw [pure_quaternion_mulVec _ _ h, pure_quaternion_mulVec _ _ h]
  unfold Vector3d.dot at h
  unfold Vector3d.sub Vector3d.scale Vector3d.dot
  refine Vector3d.ext ?_ ?_ ?_ <;> simp only
  · linear_combination (4 * a.x * (a.x * v.x + a.y * v.y + a.z * v.z)) * h
  · linear_combination (4 * a.y * (a.x * v.x + a.y * v.y + a.z * v.z)) * h
  · linear_combination (4 * a.z * (a.x * v.x + a.y * v.y + a.z * v.z)) * h

theorem pure_quaternion_mul_twice (a : Vector3d) (q : Quaterniond) (h : a.dot a = 1) :
    (⟨0, a.x, a.y, a.z⟩ : Quaterniond).mul ((⟨0, a.x, a.y, a.z⟩ : Quaterniond).mul q)
      = q.neg := by
  unfold Vector3d.dot at h
  unfold Quaterniond.mul Quaterniond.neg
  refine Quaterniond.ext ?_ ?_ ?_ ?_ <;> simp only
  · linear_combination (-q.w) * h
  · linear_combination (-q.x) * h
  · linear_combination (-q.y) * h
  · linear_combination (-q.z) * h

theorem Quaterniond.toRotationMatrix_neg (q : Quaterniond) :
    q.neg.toRotationMatrix = q.toRotationMatrix := by
  unfold Quaterniond.neg Quaterniond.toRotationMatrix
  refine Matrix3d.ext (Vector3d.ext ?_ ?_ ?_) (Vector3d.ext ?_ ?_ ?_) (Vector3d.ext ?_ ?_ ?_)
    <;> simp only <;> ring

theorem Vector4d.neg_neg (p : Vector4d) : p.neg.neg = p := by
  unfold Vector4d.neg
  refine Vector4d.ext ?_ ?_ ?_ ?_ <;> simp

/-- C13: `switch_direction` is an involution.  For every primitive whose orientation is
a unit quaternion, applying `switch_direction` twice restores the equation `(n, d)` and
both basis vectors exactly; the quaternion becomes its own negation, which is the same
rotation. -/
theorem switch_direction_involution (s : plane_primitive) (h : s.quat.normSq = 1) :
    s.switch_direction.switch_direction.p = s.p
    ∧ s.switch_direction.switch_direction.basis = s.basis
    ∧ s.switch_direction.switch_direction.quat = s.quat.neg
    ∧ s.switch_direction.switch_direction.quat.toRotationMatrix = s.quat.toRotationMatrix := by
  have ha := Quaterniond.col1_unit s.quat h
  obtain ⟨p1, q1, b10, b11, _⟩ := switch_direction_of_unit s h
  obtain ⟨h1, _, a1⟩ := switch_direction_orientation s h
  obtain ⟨p2, q2, b20, b21, _⟩ := switch_direction_of_unit s.switch_direction h1
  rw [a1] at q2 b20 b21
  have hquat : s.switch_direction.switch_direction.quat = s.quat.neg := by
    rw [q2, q1, pure_quaternion_mul_twice _ _ ha]
  refine ⟨?_, ?_, hquat, ?_⟩
  · rw [p2, p1, Vector4d.neg_neg]
  · refine Basis.ext ?_ ?_
    · rw [b20, b10, pure_quaternion_mulVec_twice _ _ ha]
    · rw [b21, b11, pure_quaternion_mulVec_twice _ _ ha]
  · rw [hquat, Quaterniond.toRotationMatrix_neg]

theorem ground_patch_unit_quat : ground_patch.quat.normSq = 1 := by
  simp [ground_patch, ground_plane, plane_primitive.empty, Quaterniond.normSq]

/-- C13 on `ground_patch`, whose orientation is the identity quaternion. -/
theorem switch_direction_involution_witness :
    ground_patch.quat.normSq = 1
    ∧ ground_patch.switch_direction.switch_direction.p = ⟨0, 0, 1, 0⟩
    ∧ ground_patch.switch_direction.switch_direction.basis = ⟨⟨1, 0, 0⟩, ⟨0, 1, 0⟩⟩
    ∧ ground_patch.switch_direction.switch_direction.quat = ⟨-1, -0, -0, -0⟩ :=
  ⟨ground_patch_unit_quat,
    (switch_direction_involution ground_patch ground_patch_unit_quat).1,
    (switch_direction_involution ground_patch ground_patch_unit_quat).2.1,
    (switch_direction_involution ground_patch ground_patch_unit_quat).2.2.1⟩

/-! ## The quaternion of a rotation matrix -/

/-- The relations of a rotation matrix are invariant under the cyclic renumbering
`0 -> 1 -> 2 -> 0` of rows and columns. -/
theorem rotation_entries_cycle (a b c d e f g h k : ℝ)
    (hr : rotation_entries a b c d e f g h k) : rotation_entries e f d h k g b c a := by
  obtain ⟨⟨c1, c2, c3, c4, c5, c6⟩, ⟨r1, r2, r3, r4, r5, r6⟩,
    ⟨m1, m2, m3, m4, m5, m6, m7, m8, m9⟩⟩ := hr
  refine ⟨⟨?_, ?_, ?_, ?_, ?_, ?_⟩, ⟨?_, ?_, ?_, ?_, ?_, ?_⟩,
    ⟨?_, ?_, ?_, ?_, ?_, ?_, ?_, ?_, ?_⟩⟩ <;> linarith

/-- The entries of a proper rotation satisfy `rotation_entries`. -/
theorem rotation_entries_of_is_rotation (m : Matrix3d) (hm : m.is_rotation) :
    rotation_entries m.col0.x m.col1.x m.col2.x m.col0.y m.col1.y m.col2.y
      m.col0.z m.col1.z m.col2.z := by
  obtain ⟨n0, n1, n2, o01, o02, o12, hc⟩ := hm
  have hcx := congrArg Vector3d.x hc
  have hcy := congrArg Vector3d.y hc
  have hcz := congrArg Vector3d.z hc
  simp only [Vector3d.cross] at hcx hcy hcz
  simp only [Vector3d.dot] at n0 n1 n2 o01 o02 o12
  generalize m.col0.x = a at *
  generalize m.col1.x = b at *
  generalize m.col2.x = c at *
  generalize m.col0.y = d at *
  generalize m.col1.y = e at *
  generalize m.col2.y = f at *
  generalize m.col0.z = g at *
  generalize m.col1.z = h at *
  generalize m.col2.z = k at *
  -- the rows, from the columns
  have h1 : (Matrix.of (fun i j : Fin 3 => ![![a, b, c], ![d, e, f], ![g, h, k]] j i))
      * (Matrix.of (fun i j : Fin 3 => ![![a, b, c], ![d, e, f], ![g, h, k]] i j)) = 1 := by
    ext i j
    fin_cases i <;> fin_cases j <;>
      simp [Matrix.mul_apply, Fin.sum_univ_three, Matrix.one_apply] <;> linarith
  have h2 := Matrix.mul_eq_one_comm.mp h1
  have rows : ∀ i j : Fin 3,
      ((Matrix.of (fun i j : Fin 3 => ![![a, b, c], ![d, e, f], ![g, h, k]] i j))
        * (Matrix.of (fun i j : Fin 3 => ![![a, b, c], ![d, e, f], ![g, h, k]] j i))) i j
        = (1 : Matrix (Fin 3) (Fin 3) ℝ) i j := by
    intro i j
    rw [h2]
  have r1 := rows 0 0
  have r2 := rows 1 1
  have r3 := rows 2 2
  have r4 := rows 0 1
  have r5 := rows 0 2
  have r6 := rows 1 2
  simp [Matrix.mul_apply, Fin.sum_univ_three, Matrix.one_apply] at r1 r2 r3 r4 r5 r6
  refine ⟨⟨?_, ?_, ?_, ?_, ?_, ?_⟩, ⟨?_, ?_, ?_, ?_, ?_, ?_⟩,
    ⟨?_, ?_, ?_, ?_, ?_, ?_, ?_, ?_, ?_⟩⟩
  · linarith
  · linarith
  · linarith
  · linarith
  · linarith
  · linarith
  · linarith
  · linarith
  · linarith
  · linarith
  · linarith
  · linarith
  · -- a = e k - f h
    linear_combination (-a) * n1 + b * o01 + e * hcz - h * hcy
  · -- b = f g - d k
    linear_combination (-b) * n0 + a * o01 - d * hcz + g * hcy
  · linarith
  · linear_combination (-d) * n1 + e * o01 + h * hcx - b * hcz
  · linear_combination (-e) * n0 + d * o01 + a * hcz - g * hcx
  · linarith
  · linear_combination (-g) * n1 + h * o01 + b * hcy - e * hcx
  · linear_combination (-h) * n0 + g * o01 + d * hcx - a * hcy
  · linarith

theorem quaternion_entries_of_products (w x y z a b c d e f g h k : ℝ)
    (hp : quaternion_products w x y z a b c d e f g h k) :
    quaternion_entries w x y z a b c d e f g h k := by
  obtain ⟨p1, p2, p3, p4, p5, p6, p7, p8, p9, p10⟩ := hp
  refine ⟨?_, ?_, ?_, ?_, ?_, ?_, ?_, ?_, ?_, ?_⟩ <;> linarith

theorem quaternion_products_cycle (w x y z a b c d e f g h k : ℝ)
    (hp : quaternion_products w x y z e f d h k g b c a) :
    quaternion_products w z x y a b c d e f g h k := by
  obtain ⟨p1, p2, p3, p4, p5, p6, p7, p8, p9, p10⟩ := hp
  refine ⟨?_, ?_, ?_, ?_, ?_, ?_, ?_, ?_, ?_, ?_⟩ <;> linarith

/-- The branch `t > 0` of Eigen's conversion, on the entries of a rotation matrix. -/
theorem shepperd_trace (a b c d e f g h k : ℝ) (hr : rotation_entries a b c d e f g h k)
    (ht : 0 < a + e + k) :
    quaternion_products (0.5 * Real.sqrt (a + e + k + 1))
      ((h - f) * (0.5 / Real.sqrt (a + e + k + 1)))
      ((c - g) * (0.5 / Real.sqrt (a + e + k + 1)))
      ((d - b) * (0.5 / Real.sqrt (a + e + k + 1))) a b c d e f g h k := by
  obtain ⟨⟨c1, c2, c3, c4, c5, c6⟩, ⟨r1, r2, r3, r4, r5, r6⟩,
    ⟨m1, m2, m3, m4, m5, m6, m7, m8, m9⟩⟩ := hr
  have hS : 0 < a + e + k + 1 := by linarith
  have hs := Real.mul_self_sqrt hS.le
  have hs0 : Real.sqrt (a + e + k + 1) ≠ 0 := ne_of_gt (Real.sqrt_pos.mpr hS)
  generalize Real.sqrt (a + e + k + 1) = s at *
  have h05 : (0.5 : ℝ) = 1 / 2 := by norm_num
  rw [h05]
  have hrs : 1 / 2 / s * s = 1 / 2 := by field_simp; ring
  have hr2 : 1 / 2 / s * (1 / 2 / s) * (a + e + k + 1) = 1 / 4 := by
    rw [← hs]; field_simp; ring
  generalize 1 / 2 / s = r at *
  have X2 : (h - f) * (h - f) = (a + e + k + 1) * (1 + a - e - k) := by linarith
  have Y2 : (c - g) * (c - g) = (a + e + k + 1) * (1 - a + e - k) := by linarith
  have Z2 : (d - b) * (d - b) = (a + e + k + 1) * (1 - a - e + k) := by linarith
  have O01 : (h - f) * (c - g) = (a + e + k + 1) * (d + b) := by linarith
  have O02 : (h - f) * (d - b) = (a + e + k + 1) * (c + g) := by linarith
  have O12 : (c - g) * (d - b) = (a + e + k + 1) * (f + h) := by linarith
  refine ⟨?_, ?_, ?_, ?_, ?_, ?_, ?_, ?_, ?_, ?_⟩
  · linear_combination hs
  · linear_combination (4 * r * r) * X2 + (4 * (1 + a - e - k)) * hr2
  · linear_combination (4 * r * r) * Y2 + (4 * (1 - a + e - k)) * hr2
  · linear_combination (4 * r * r) * Z2 + (4 * (1 - a - e + k)) * hr2
  · linear_combination (2 * (h - f)) * hrs
  · linear_combination (2 * (c - g)) * hrs
  · linear_combination (2 * (d - b)) * hrs
  · linear_combination (4 * r * r) * O01 + (4 * (d + b)) * hr2
  · linear_combination (4 * r * r) * O02 + (4 * (c + g)) * hr2
  · linear_combination (4 * r * r) * O12 + (4 * (f + h)) * hr2

/-- The branch `t <= 0` of Eigen's conversion when the first diagonal entry is the
largest, on the entries of a rotation matrix. -/
theorem shepperd_diagonal (a b c d e f g h k : ℝ) (hr : rotation_entries a b c d e f g h k)
    (hu : 0 < a - e - k + 1) :
    quaternion_products ((h - f) * (0.5 / Real.sqrt (a - e - k + 1)))
      (0.5 * Real.sqrt (a - e - k + 1))
      ((d + b) * (0.5 / Real.sqrt (a - e - k + 1)))
      ((g + c) * (0.5 / Real.sqrt (a - e - k + 1))) a b c d e f g h k := by
  obtain ⟨⟨c1, c2, c3, c4, c5, c6⟩, ⟨r1, r2, r3, r4, r5, r6⟩,
    ⟨m1, m2, m3, m4, m5, m6, m7, m8, m9⟩⟩ := hr
  have hs := Real.mul_self_sqrt hu.le
  have hs0 : Real.sqrt (a - e - k + 1) ≠ 0 := ne_of_gt (Real.sqrt_pos.mpr hu)
  generalize Real.sqrt (a - e - k + 1) = s at *
  have h05 : (0.5 : ℝ) = 1 / 2 := by norm_num
  rw [h05]
  have hrs : 1 / 2 / s * s = 1 / 2 := by field_simp; ring
  have hr2 : 1 / 2 / s * (1 / 2 / s) * (a - e - k + 1) = 1 / 4 := by
    rw [← hs]; field_simp; ring
  generalize 1 / 2 / s = r at *
  have X2 : (h - f) * (h - f) = (a - e - k + 1) * (1 + a + e + k) := by linarith
  have Y2 : (d + b) * (d + b) = (a - e - k + 1) * (1 - a + e - k) := by linarith
  have Z2 : (g + c) * (g + c) = (a - e - k + 1) * (1 - a - e + k) := by linarith
  have F2 : (h - f) * (d + b) = (a - e - k + 1) * (c - g) := by linarith
  have F1 : (h - f) * (g + c) = (a - e - k + 1) * (d - b) := by linarith
  have F3 : (d + b) * (g + c) = (a - e - k + 1) * (f + h) := by linarith
  refine ⟨?_, ?_, ?_, ?_, ?_, ?_, ?_, ?_, ?_, ?_⟩
  · linear_combination (4 * r * r) * X2 + (4 * (1 + a + e + k)) * hr2
  · linear_combination hs
  · linear_combination (4 * r * r) * Y2 + (4 * (1 - a + e - k)) * hr2
  · linear_combination (4 * r * r) * Z2 + (4 * (1 - a - e + k)) * hr2
  · linear_combination (2 * (h - f)) * hrs
  · linear_combination (4 * r * r) * F2 + (4 * (c - g)) * hr2
  · linear_combination (4 * r * r) * F1 + (4 * (d - b)) * hr2
  · linear_combination (2 * (d + b)) * hrs
  · linear_combination (2 * (g + c)) * hrs
  · linear_combination (4 * r * r) * F3 + (4 * (f + h)) * hr2

theorem Quaterniond.of_quaternion_entries (q : Quaterniond) (m : Matrix3d)
    (h : quaternion_entries q.w q.x q.y q.z m.col0.x m.col1.x m.col2.x m.col0.y m.col1.y
      m.col2.y m.col0.z m.col1.z m.col2.z) :
    q.toRotationMatrix = m ∧ q.normSq = 1 := by
  obtain ⟨h1, h2, h3, h4, h5, h6, h7, h8, h9, h10⟩ := h
  refine ⟨?_, h10⟩
  unfold Quaterniond.toRotationMatrix
  exact Matrix3d.ext (Vector3d.ext h1 h4 h7) (Vector3d.ext h2 h5 h8) (Vector3d.ext h3 h6 h9)

/-- The four values of Eigen's conversion `Quaterniond(mat)`, by the branch taken. -/
theorem Quaterniond.ofMatrix_cases (m : Matrix3d) :
    (0 < m.col0.x + m.col1.y + m.col2.z
      ∧ Quaterniond.ofMatrix m =
        ⟨0.5 * Real.sqrt (m.col0.x + m.col1.y + m.col2.z + 1),
         (m.col1.z - m.col2.y) * (0.5 / Real.sqrt (m.col0.x + m.col1.y + m.col2.z + 1)),
         (m.col2.x - m.col0.z) * (0.5 / Real.sqrt (m.col0.x + m.col1.y + m.col2.z + 1)),
         (m.col0.y - m.col1.x) * (0.5 / Real.sqrt (m.col0.x + m.col1.y + m.col2.z + 1))⟩)
    ∨ (m.col0.x + m.col1.y + m.col2.z ≤ 0 ∧ m.col1.y ≤ m.col0.x ∧ m.col2.z ≤ m.col0.x
      ∧ Quaterniond.ofMatrix m =
        ⟨(m.col1.z - m.col2.y) * (0.5 / Real.sqrt (m.col0.x - m.col1.y - m.col2.z + 1)),
         0.5 * Real.sqrt (m.col0.x - m.col1.y - m.col2.z + 1),
         (m.col0.y + m.col1.x) * (0.5 / Real.sqrt (m.col0.x - m.col1.y - m.col2.z + 1)),
         (m.col0.z + m.col2.x) * (0.5 / Real.sqrt (m.col0.x - m.col1.y - m.col2.z + 1))⟩)
    ∨ (m.col0.x + m.col1.y + m.col2.z ≤ 0 ∧ m.col0.x ≤ m.col1.y ∧ m.col2.z ≤ m.col1.y
      ∧ Quaterniond.ofMatrix m =
        ⟨(m.col2.x - m.col0.z) * (0.5 / Real.sqrt (m.col1.y - m.col2.z - m.col0.x + 1)),
         (m.col1.x + m.col0.y) * (0.5 / Real.sqrt (m.col1.y - m.col2.z - m.col0.x + 1)),
         0.5 * Real.sqrt (m.col1.y - m.col2.z - m.col0.x + 1),
         (m.col1.z + m.col2.y) * (0.5 / Real.sqrt (m.col1.y - m.col2.z - m.col0.x + 1))⟩)
    ∨ (m.col0.x + m.col1.y + m.col2.z ≤ 0 ∧ m.col0.x ≤ m.col2.z ∧ m.col1.y ≤ m.col2.z
      ∧ Quaterniond.ofMatrix m =
        ⟨(m.col0.y - m.col1.x) * (0.5 / Real.sqrt (m.col2.z - m.col0.x - m.col1.y + 1)),
         (m.col2.x + m.col0.z) * (0.5 / Real.sqrt (m.col2.z - m.col0.x - m.col1.y + 1)),
         (m.col2.y + m.col1.z) * (0.5 / Real.sqrt (m.col2.z - m.col0.x - m.col1.y + 1)),
         0.5 * Real.sqrt (m.col2.z - m.col0.x - m.col1.y + 1)⟩) := by
  have e00 : m.coeff 0 0 = m.col0.x := rfl
  have e01 : m.coeff 0 1 = m.col1.x := rfl
  have e02 : m.coeff 0 2 = m.col2.x := rfl
  have e10 : m.coeff 1 0 = m.col0.y := rfl
  have e11 : m.coeff 1 1 = m.col1.y := rfl
  have e12 : m.coeff 1 2 = m.col2.y := rfl
  have e20 : m.coeff 2 0 = m.col0.z := rfl
  have e21 : m.coeff 2 1 = m.col1.z := rfl
  have e22 : m.coeff 2 2 = m.col2.z := rfl
  have f01 : (0 : Fin 3) + 1 = 1 := rfl
  have f12 : (1 : Fin 3) + 1 = 2 := rfl
  have f20 : (2 : Fin 3) + 1 = 0 := rfl
  unfold Quaterniond.ofMatrix
  simp only [e00, e11, e22]
  by_cases ht : m.col0.x + m.col1.y + m.col2.z > 0
  · left
    refine ⟨ht, ?_⟩
    rw [if_pos ht]
    simp only [e01, e02, e10, e12, e20, e21]
  · right
    rw [if_neg ht]
    by_cases h1 : m.col1.y > m.col0.x
    · simp only [if_pos h1, e11]
      by_cases h2 : m.col2.z > m.col1.y
      · right; right
        refine ⟨not_lt.mp ht, by linarith, le_of_lt h2, ?_⟩
        simp only [if_pos h2, f20, f01, e00, e01, e02, e10, e11, e12, e20, e21, e22]
        simp
      · right; left
        refine ⟨not_lt.mp ht, le_of_lt h1, not_lt.mp h2, ?_⟩
        simp only [if_neg h2, f12, f20, e00, e01, e02, e10, e11, e12, e20, e21, e22]
        simp
    · simp only [if_neg h1, e00]
      by_cases h2 : m.col2.z > m.col0.x
      · right; right
        refine ⟨not_lt.mp ht, le_of_lt h2, by linarith [not_lt.mp h1], ?_⟩
        simp only [if_pos h2, f20, f01, e00, e01, e02, e10, e11, e12, e20, e21, e22]
        simp
      · left
        refine ⟨not_lt.mp ht, not_lt.mp h1, not_lt.mp h2, ?_⟩
        simp only [if_neg h2, f01, f12, e00, e01, e02, e10, e11, e12, e20, e21, e22]
        simp

/-- Eigen's conversion of a proper rotation matrix to a quaternion is a right inverse of
the conversion back: the quaternion has norm 1 and its matrix is the given matrix. -/
theorem Quaterniond.ofMatrix_of_rotation (m : Matrix3d) (hm : m.is_rotation) :
    (Quaterniond.ofMatrix m).toRotationMatrix = m ∧ (Quaterniond.ofMatrix m).normSq = 1 := by
  have hr := rotation_entries_of_is_rotation m hm
  apply Quaterniond.of_quaternion_entries
  apply quaternion_entries_of_products
  rcases Quaterniond.ofMatrix_cases m with ⟨ht, e⟩ | ⟨ht, h1, h2, e⟩ | ⟨ht, h1, h2, e⟩
    | ⟨ht, h1, h2, e⟩
  · rw [e]
    exact shepperd_trace _ _ _ _ _ _ _ _ _ hr ht
  · rw [e]
    exact shepperd_diagonal _ _ _ _ _ _ _ _ _ hr (by linarith)
  · rw [e]
    have := shepperd_diagonal _ _ _ _ _ _ _ _ _ (rotation_entries_cycle _ _ _ _ _ _ _ _ _ hr)
      (by linarith)
    have := quaternion_products_cycle _ _ _ _ _ _ _ _ _ _ _ _ _ this
    exact this
  · rw [e]
    have := shepperd_diagonal _ _ _ _ _ _ _ _ _
      (rotation_entries_cycle _ _ _ _ _ _ _ _ _ (rotation_entries_cycle _ _ _ _ _ _ _ _ _ hr))
      (by linarith)
    have := quaternion_products_cycle _ _ _ _ _ _ _ _ _ _ _ _ _
      (quaternion_products_cycle _ _ _ _ _ _ _ _ _ _ _ _ _ this)
    exact this

/-! ## The basis and orientation invariants -/

theorem Vector3d.norm_of_dot_self_one (v : Vector3d) (h : v.dot v = 1) : v.norm = 1 := by
  unfold Vector3d.norm
  rw [h, Real.sqrt_one]

theorem Vector3d.normalized_of_dot_self_one (v : Vector3d) (h : v.dot v = 1) :
    v.normalized = v := by
  unfold Vector3d.normalized
  rw [Vector3d.norm_of_dot_self_one v h]
  refine Vector3d.ext ?_ ?_ ?_ <;> simp

theorem Vector3d.normalized_dot_self (v : Vector3d) (h : v.norm ≠ 0) :
    v.normalized.dot v.normalized = 1 :=
  Vector3d.dot_self_of_norm_one _ (Vector3d.norm_normalized v h)

/-- Lagrange's identity. -/
theorem Vector3d.cross_dot_self (a b : Vector3d) :
    (a.cross b).dot (a.cross b) = a.dot a * b.dot b - a.dot b * a.dot b := by
  unfold Vector3d.cross Vector3d.dot
  simp only
  ring

theorem Vector3d.dot_cross_self_left (a b : Vector3d) : a.dot (a.cross b) = 0 := by
  unfold Vector3d.cross Vector3d.dot
  simp only
  ring

theorem Vector3d.dot_cross_self_right (a b : Vector3d) : b.dot (a.cross b) = 0 := by
  unfold Vector3d.cross Vector3d.dot
  simp only
  ring

theorem Vector3d.dot_normalized (a b : Vector3d) : a.dot b.normalized = a.dot b / b.norm := by
  unfold Vector3d.normalized Vector3d.dot
  simp only
  ring

/-- A unit normal `n` and a unit vector `u` orthogonal to it give a basis `(u, n x u)`
that satisfies the basis predicate. -/
theorem basis_ok_of_frame (s : plane_primitive) (n u : Vector3d)
    (hp : s.p.head3 = n) (hb0 : s.basis.col0 = u) (hb1 : s.basis.col1 = n.cross u)
    (hn : n.dot n = 1) (hu : u.dot u = 1) (hnu : n.dot u = 0) : s.basis_ok := by
  unfold plane_primitive.basis_ok
  rw [hp, hb0, hb1]
  refine ⟨hu, ?_, Vector3d.dot_cross_self_right n u, hnu, Vector3d.dot_cross_self_left n u, rfl⟩
  rw [Vector3d.cross_dot_self, hn, hu, hnu]
  ring

/-- After an accepting `construct` the normal has length 1, `basis[0]` is the normalised
first edge, `basis[1] = n x basis[0]`, and the basis predicate holds. -/
theorem construct_basis (self : plane_primitive) (points normals : Fin 3 → Vector3d)
    (inlier_threshold angle_threshold : ℝ) (s : plane_primitive)
    (h : self.construct points normals inlier_threshold angle_threshold
      = construct_result.accepted s) :
    s.p.head3.norm = 1
    ∧ s.basis.col0 = ((points 1).sub (points 0)).normalized
    ∧ s.basis.col1 = s.p.head3.cross s.basis.col0
    ∧ s.basis_ok := by
  obtain ⟨hc, e⟩ := construct_accepted_state self points normals inlier_threshold
    angle_threshold s h
  have hn := fitted_normal_norm points normals hc
  have hn1 := Vector3d.dot_self_of_norm_one _ hn
  have hf : ((points 1).sub (points 0)).norm ≠ 0 := by
    intro h0
    apply hc
    rw [(Vector3d.norm_eq_zero_iff _).mp h0, Vector3d.norm_eq_zero_iff]
    simp [Vector3d.cross, Vector3d.zero]
  have hu := Vector3d.normalized_dot_self _ hf
  have hnu : (fitted_normal points normals).dot ((points 1).sub (points 0)).normalized = 0 := by
    rw [Vector3d.dot_normalized, fitted_normal_dot_first, zero_div]
  have hcross : ((fitted_normal points normals).cross
      ((points 1).sub (points 0)).normalized).normalized
      = (fitted_normal points normals).cross ((points 1).sub (points 0)).normalized := by
    apply Vector3d.normalized_of_dot_self_one
    rw [Vector3d.cross_dot_self, hn1, hu, hnu]
    ring
  have hp : s.p.head3 = fitted_normal points normals := by rw [e]; rfl
  have hb0 : s.basis.col0 = ((points 1).sub (points 0)).normalized := by rw [e]
  have hb1 : s.basis.col1 = (fitted_normal points normals).cross
      ((points 1).sub (points 0)).normalized := by rw [e]; exact hcross
  refine ⟨by rw [hp]; exact hn, hb0, by rw [hb1, hp, hb0], ?_⟩
  exact basis_ok_of_frame s _ _ hp hb0 hb1 hn1 hu hnu

/-- With a consistent orientation, `switch_direction` turns the frame by a half turn
about the second axis of the orientation: the normal is mapped to its negation, which is
the new stored normal, so the orientation stays consistent. -/
theorem switch_direction_orientation_ok (s : plane_primitive) (h : s.orientation_ok) :
    s.switch_direction.orientation_ok
    ∧ (⟨0, s.quat.toRotationMatrix.col1.x, s.quat.toRotationMatrix.col1.y,
        s.quat.toRotationMatrix.col1.z⟩ : Quaterniond).toRotationMatrix.mulVec s.p.head3
      = s.switch_direction.p.head3 := by
  obtain ⟨hq, h0⟩ := h
  obtain ⟨hq1, hcol0, _⟩ := switch_direction_orientation s hq
  have hrot := Quaterniond.is_rotation_of_unit s.quat hq
  have ha := hrot.2.1
  have h01 : s.quat.toRotationMatrix.col1.dot s.quat.toRotationMatrix.col0 = 0 := by
    rw [Vector3d.dot_comm]; exact hrot.2.2.2.1
  have hneg : s.switch_direction.p.head3 = s.p.head3.scale (-1) := by
    rw [switch_direction_p]
    unfold Vector4d.neg Vector4d.head3 Vector3d.scale
    refine Vector3d.ext ?_ ?_ ?_ <;> simp
  have key : (s.quat.toRotationMatrix.col1.scale
      (2 * s.quat.toRotationMatrix.col1.dot s.quat.toRotationMatrix.col0)).sub
        s.quat.toRotationMatrix.col0 = s.p.head3.scale (-1) := by
    rw [h01, h0]
    unfold Vector3d.sub Vector3d.scale
    refine Vector3d.ext ?_ ?_ ?_ <;> simp
  refine ⟨⟨hq1, ?_⟩, ?_⟩
  · rw [hcol0, key, hneg]
  · rw [pure_quaternion_mulVec _ _ ha, ← h0, hneg, ← h0]
    exact key.trans (by rw [h0])

/-- With a consistent orientation, `switch_direction` preserves the basis predicate
(for the flipped normal). -/
theorem switch_direction_basis_ok (s : plane_primitive) (ho : s.orientation_ok)
    (hb : s.basis_ok) : s.switch_direction.basis_ok := by
  obtain ⟨hq, h0⟩ := ho
  have ha := Quaterniond.col1_unit s.quat hq
  have hqa := pure_quaternion_normSq _ ha
  obtain ⟨_, _, b0, b1, _⟩ := switch_direction_of_unit s hq
  obtain ⟨_, hn⟩ := switch_direction_orientation_ok s ⟨hq, h0⟩
  obtain ⟨u1, u2, u3, u4, u5, u6⟩ := hb
  unfold plane_primitive.basis_ok
  rw [b0, b1, ← hn]
  have hd := Quaterniond.rotation_dot _ hqa
  have hc := Quaterniond.rotation_cross _ hqa
  refine ⟨?_, ?_, ?_, ?_, ?_, ?_⟩
  · rw [hd]; exact u1
  · rw [hd]; exact u2
  · rw [hd]; exact u3
  · rw [hd]; exact u4
  · rw [hd]; exact u5
  · rw [hc, ← u6]

theorem Vector3d.dot_scale_right (a b : Vector3d) (k : ℝ) : a.dot (b.scale k) = k * a.dot b := by
  unfold Vector3d.dot Vector3d.scale
  simp only
  ring

theorem Vector3d.dot_add_left (a b c : Vector3d) : (a.add b).dot c = a.dot c + b.dot c := by
  unfold Vector3d.dot Vector3d.add
  simp only
  ring

/-- The function writes its outputs only from a candidate of some edge. -/
theorem find_smallest_enclosing_box_is_edge_box (pts : List Point) (b : box)
    (h : find_smallest_enclosing_box pts = some b) :
    ∃ i, i < pts.length ∧ is_edge_box (to_dpts pts) i b := by
  unfold find_smallest_enclosing_box at h
  simp only at h
  cases hb : (List.range (to_dpts pts).length).foldl (box_update (to_dpts pts)) none with
  | none => rw [hb] at h; cases h
  | some best =>
    rw [hb] at h
    have hbest : best.2 = b := Option.some.inj h
    obtain ⟨i, hi, e, _, _⟩ := (box_loop_spec (to_dpts pts) (to_dpts pts).length).2 best hb
    obtain ⟨hbox, _⟩ := is_edge_box_of_edge_candidate (to_dpts pts) i best.1 best.2 e
    rw [hbest] at hbox
    exact ⟨i, by rw [← to_dpts_length]; exact hi, hbox⟩

/-- The merged normal is not orthogonal to the first sibling's normal. -/
theorem merged_direction_dot_ne_zero (v_p v_q : Vector3d) (hp : v_p.norm = 1)
    (hq : v_q.norm = 1) :
    (if v_p.dot v_q > 0 then v_p.add v_q else v_p.sub v_q).normalized.dot v_p ≠ 0 := by
  have h1 := v_p.dot_self_of_norm_one hp
  have h2 := v_q.dot_self_of_norm_one hq
  have hne := merged_direction_norm_ne_zero v_p v_q hp hq
  have hle := Vector3d.abs_dot_le_one v_p v_q hp hq
  rw [Vector3d.normalized_dot]
  have hnum : (if v_p.dot v_q > 0 then v_p.add v_q else v_p.sub v_q).dot v_p ≠ 0 := by
    split
    · rename_i h
      have : (v_p.add v_q).dot v_p = 1 + v_p.dot v_q := by
        rw [Vector3d.dot_add_left, h1, Vector3d.dot_comm v_q v_p]
      rw [this]
      linarith
    · rename_i h
      have : (v_p.sub v_q).dot v_p = 1 - v_p.dot v_q := by
        rw [← h1]
        unfold Vector3d.dot Vector3d.sub
        simp only
        ring
      rw [this]
      intro h0
      have h3 : v_p.dot v_q = 1 := by linarith
      exact h (by rw [h3]; norm_num)
  exact div_ne_zero hnum hne

/-- The Gram-Schmidt step of `merge_planes`: for a unit vector `v` and a vector `a` whose
part `a - (v . a) v` orthogonal to `v` is not zero, the normalisation `r1` of that part is
a unit vector orthogonal to `v`, and `v x r1` has length 1. -/
theorem gram_schmidt_step (v a : Vector3d) (hvv : v.dot v = 1)
    (hpre : (a.sub (v.scale (v.dot a))).norm ≠ 0) :
    (a.sub (v.scale (v.dot a))).normalized.dot (a.sub (v.scale (v.dot a))).normalized = 1
    ∧ v.dot (a.sub (v.scale (v.dot a))).normalized = 0
    ∧ (v.cross (a.sub (v.scale (v.dot a))).normalized).norm = 1
    ∧ (v.cross (a.sub (v.scale (v.dot a))).normalized).normalized
        = v.cross (a.sub (v.scale (v.dot a))).normalized := by
  have hu := Vector3d.normalized_dot_self _ hpre
  have hvu : v.dot (a.sub (v.scale (v.dot a))).normalized = 0 := by
    rw [Vector3d.dot_normalized]
    have : v.dot (a.sub (v.scale (v.dot a))) = 0 := by
      rw [Vector3d.dot_sub, Vector3d.dot_scale_right, hvv]
      ring
    rw [this, zero_div]
  have hc : (v.cross (a.sub (v.scale (v.dot a))).normalized).dot
      (v.cross (a.sub (v.scale (v.dot a))).normalized) = 1 := by
    rw [Vector3d.cross_dot_self, hvv, hu, hvu]
    ring
  exact ⟨hu, hvu, Vector3d.norm_of_dot_self_one _ hc, Vector3d.normalized_of_dot_self_one _ hc⟩

/-- For a unit vector `v`, and a unit vector `a` orthogonal to a vector `n` that is not
orthogonal to `v`, the part `a - (v . a) v` of `a` orthogonal to `v` is not zero. -/
theorem merged_frame (v a n : Vector3d) (hvv : v.dot v = 1) (haa : a.dot a = 1)
    (hna : n.dot a = 0) (hvn : v.dot n ≠ 0) :
    (a.sub (v.scale (v.dot a))).norm ≠ 0 := by
  intro h0
  have hz := (Vector3d.norm_eq_zero_iff _).mp h0
  have hx : a = v.scale (v.dot a) := by
    have h1 := congrArg Vector3d.x hz
    have h2 := congrArg Vector3d.y hz
    have h3 := congrArg Vector3d.z hz
    unfold Vector3d.sub Vector3d.scale Vector3d.zero at h1 h2 h3
    simp only at h1 h2 h3
    unfold Vector3d.scale
    refine Vector3d.ext ?_ ?_ ?_ <;> simp only <;> linarith
  have hA : a.dot a = (v.dot a) * (v.dot a) := by
    have h1 := congrArg (fun t => a.dot t) hx
    simp only at h1
    rw [Vector3d.dot_scale_right, Vector3d.dot_comm a v] at h1
    exact h1
  have hB : n.dot a = (v.dot a) * (v.dot n) := by
    have h1 := congrArg (fun t => n.dot t) hx
    simp only at h1
    rw [Vector3d.dot_scale_right, Vector3d.dot_comm n v] at h1
    exact h1
  rw [haa] at hA
  rw [hna] at hB
  have hva : v.dot a ≠ 0 := by
    intro h3
    rw [h3] at hA
    norm_num at hA
  rcases mul_eq_zero.mp hB.symm with h3 | h3
  · exact hva h3
  · exact hvn h3

/-- Whenever `merge_planes` ends with finite values, whatever the two siblings are, the
primitive has a unit normal, a basis that satisfies the basis predicate, and an
orientation that is a unit quaternion with the normal as first axis. -/
theorem merge_planes_frame (self : plane_primitive)
    (convex_hull_fn : Vector3d → List Vector3d → List Vector3d)
    (other1 other2 s : plane_primitive)
    (h : self.merge_planes convex_hull_fn other1 other2 = merge_result.merged s) :
    s.p.head3.norm = 1 ∧ s.basis_ok ∧ s.orientation_ok := by
  have hv := merge_planes_unit_normal self convex_hull_fn other1 other2 s h
  have hvv := Vector3d.dot_self_of_norm_one _ hv
  obtain ⟨_, _, _, _, hpre, e0, _, e1, eq, _⟩ :=
    merge_planes_merged self convex_hull_fn other1 other2 s h
  obtain ⟨hu, hvu, _, hcross⟩ := gram_schmidt_step _ _ hvv hpre
  rw [← e0] at hu hvu hcross
  rw [hcross] at e1
  have hb := basis_ok_of_frame s _ _ rfl rfl e1 hvv hu hvu
  refine ⟨hv, hb, ?_⟩
  have hR : (Matrix3d.mk s.p.head3 s.basis.col0 s.basis.col1).is_rotation := by
    obtain ⟨u1, u2, u3, u4, u5, u6⟩ := hb
    exact ⟨hvv, u1, u2, u4, u5, u3, u6.symm⟩
  obtain ⟨h1, h2⟩ := Quaterniond.ofMatrix_of_rotation _ hR
  unfold plane_primitive.orientation_ok
  rw [eq]
  exact ⟨h2, by rw [h1]⟩

/-- When the two normals do not cancel and the second axis of the first sibling's
orientation is not parallel to the merged normal, no `normalize()` of `merge_planes`
divides by zero. -/
theorem merge_planes_returns (self : plane_primitive)
    (convex_hull_fn : Vector3d → List Vector3d → List Vector3d)
    (other1 other2 : plane_primitive)
    (h0 : (if other1.p.head3.dot other2.p.head3 > 0 then other1.p.head3.add other2.p.head3
        else other1.p.head3.sub other2.p.head3).norm ≠ 0)
    (h1 : (other1.quat.toRotationMatrix.col1.sub
        ((if other1.p.head3.dot other2.p.head3 > 0 then other1.p.head3.add other2.p.head3
            else other1.p.head3.sub other2.p.head3).normalized.scale
          ((if other1.p.head3.dot other2.p.head3 > 0 then other1.p.head3.add other2.p.head3
            else other1.p.head3.sub other2.p.head3).normalized.dot
              other1.quat.toRotationMatrix.col1))).norm ≠ 0) :
    ∃ s, self.merge_planes convex_hull_fn other1 other2 = merge_result.merged s := by
  have hvv := Vector3d.dot_self_of_norm_one _ (Vector3d.norm_normalized _ h0)
  obtain ⟨_, _, h2, _⟩ := gram_schmidt_step _ _ hvv h1
  have h3 : (((if other1.p.head3.dot other2.p.head3 > 0 then other1.p.head3.add other2.p.head3
        else other1.p.head3.sub other2.p.head3).normalized).cross
      (other1.quat.toRotationMatrix.col1.sub
        ((if other1.p.head3.dot other2.p.head3 > 0 then other1.p.head3.add other2.p.head3
            else other1.p.head3.sub other2.p.head3).normalized.scale
          ((if other1.p.head3.dot other2.p.head3 > 0 then other1.p.head3.add other2.p.head3
            else other1.p.head3.sub other2.p.head3).normalized.dot
              other1.quat.toRotationMatrix.col1))).normalized).norm ≠ 0 := by
    rw [h2]
    norm_num
  by_contra hcon
  have hall : ∀ s, self.merge_planes convex_hull_fn other1 other2 ≠ merge_result.merged s :=
    fun s hs => hcon ⟨s, hs⟩
  unfold plane_primitive.merge_planes at hall
  simp only [plane_primitive.direction_and_center] at hall
  by_cases hd : other1.p.head3.dot other2.p.head3 > 0
  · simp only [if_pos hd] at h0 h1 h3 hall
    split_ifs at hall with a b c
    · exact h0 a
    · exact h1 b
    · exact h3 c
    · exact hall _ rfl
  · simp only [if_neg hd] at h0 h1 h3 hall
    split_ifs at hall with a b c
    · exact h0 a
    · exact h1 b
    · exact h3 c
    · exact hall _ rfl

/-- For siblings with unit normals, the first with a consistent orientation, no
`normalize()` of `merge_planes` divides by zero. -/
theorem merge_planes_returns_of_orientation (self : plane_primitive)
    (convex_hull_fn : Vector3d → List Vector3d → List Vector3d)
    (other1 other2 : plane_primitive)
    (hp : other1.p.head3.norm = 1) (hq : other2.p.head3.norm = 1)
    (ho : other1.orientation_ok) :
    ∃ s, self.merge_planes convex_hull_fn other1 other2 = merge_result.merged s := by
  have h0 := merged_direction_norm_ne_zero _ _ hp hq
  have hvv := Vector3d.dot_self_of_norm_one _ (Vector3d.norm_normalized _ h0)
  have hvp := merged_direction_dot_ne_zero _ _ hp hq
  obtain ⟨hunit, hcol0⟩ := ho
  have hrot := Quaterniond.is_rotation_of_unit other1.quat hunit
  have hpa : other1.p.head3.dot other1.quat.toRotationMatrix.col1 = 0 := by
    rw [← hcol0]; exact hrot.2.2.2.1
  exact merge_planes_returns self convex_hull_fn other1 other2 h0
    (merged_frame _ _ _ hvv hrot.2.1 hpa hvp)

/-- The candidate of the first edge `(0,0) -> (0,H)` of the rectangle. -/
theorem rectangle_edge_zero (W H : ℝ) (hW : 0 < W) (hH : 0 < H) :
    edge_candidate [⟨0, 0⟩, ⟨0, H⟩, ⟨W, H⟩, ⟨W, 0⟩] 0
      = some (W * H, ⟨⟨W / 2, H / 2⟩, ⟨⟨0, 1⟩, ⟨-1, 0⟩⟩, ⟨H, -W⟩⟩) := by
  have hn : Real.sqrt (H * H) = H := Real.sqrt_mul_self hH.le
  have h1 : ¬ H < 0 := not_lt.mpr hH.le
  have h2 : ¬ W < 0 := not_lt.mpr hW.le
  simp [edge_candidate, Vector2d.sub, Vector2d.norm, Vector2d.dot, Vector2d.normalized,
    extent.step, extent.init, hn, hH.ne', hW.ne', h1, h2, hH, hW, Vector2d.add, Vector2d.scale,
    abs_of_pos hW, abs_of_pos hH]
  constructor <;> ring

/-- The candidates of the other three edges have the same area `W * H`. -/
theorem rectangle_edge_area (W H : ℝ) (hW : 0 < W) (hH : 0 < H) :
    (∃ b, edge_candidate [⟨0, 0⟩, ⟨0, H⟩, ⟨W, H⟩, ⟨W, 0⟩] 1 = some (W * H, b))
    ∧ (∃ b, edge_candidate [⟨0, 0⟩, ⟨0, H⟩, ⟨W, H⟩, ⟨W, 0⟩] 2 = some (W * H, b))
    ∧ (∃ b, edge_candidate [⟨0, 0⟩, ⟨0, H⟩, ⟨W, H⟩, ⟨W, 0⟩] 3 = some (W * H, b)) := by
  have hn : Real.sqrt (H * H) = H := Real.sqrt_mul_self hH.le
  have hm : Real.sqrt (W * W) = W := Real.sqrt_mul_self hW.le
  have h1 : ¬ H < 0 := not_lt.mpr hH.le
  have h2 : ¬ W < 0 := not_lt.mpr hW.le
  refine ⟨?_, ?_, ?_⟩
  · simp [edge_candidate, Vector2d.sub, Vector2d.norm, Vector2d.dot, Vector2d.normalized,
      extent.step, extent.init, hm, hH.ne', hW.ne', h1, h2, hH, hW, Vector2d.add,
      Vector2d.scale, abs_of_pos hW, abs_of_pos hH]
    ring
  · simp [edge_candidate, Vector2d.sub, Vector2d.norm, Vector2d.dot, Vector2d.normalized,
      extent.step, extent.init, hn, hH.ne', hW.ne', h1, h2, hH, hW, Vector2d.add,
      Vector2d.scale, abs_of_pos hW, abs_of_pos hH]
  · simp [edge_candidate, Vector2d.sub, Vector2d.norm, Vector2d.dot, Vector2d.normalized,
      extent.step, extent.init, hm, hH.ne', hW.ne', h1, h2, hH, hW, Vector2d.add,
      Vector2d.scale, abs_of_pos hW, abs_of_pos hH]
    ring

/-- On the rectangle the loop keeps the candidate of the first edge: the other three
have the same area, and the test of line 92 is strict. -/
theorem find_smallest_enclosing_box_rectangle_eq (W H : Int) (hW : 0 < W) (hH : 0 < H) :
    find_smallest_enclosing_box (rectangle_hull W H)
      = some ⟨⟨(W : ℝ) / 2, (H : ℝ) / 2⟩, ⟨⟨0, 1⟩, ⟨-1, 0⟩⟩, ⟨(H : ℝ), -(W : ℝ)⟩⟩ := by
  have hWr : (0 : ℝ) < (W : ℝ) := by exact_mod_cast hW
  have hHr : (0 : ℝ) < (H : ℝ) := by exact_mod_cast hH
  have hd : to_dpts (rectangle_hull W H)
      = [⟨0, 0⟩, ⟨0, (H : ℝ)⟩, ⟨(W : ℝ), (H : ℝ)⟩, ⟨(W : ℝ), 0⟩] := by
    simp [to_dpts, rectangle_hull]
  obtain ⟨⟨b1, e1⟩, ⟨b2, e2⟩, ⟨b3, e3⟩⟩ := rectangle_edge_area (W : ℝ) (H : ℝ) hWr hHr
  have e0 := rectangle_edge_zero (W : ℝ) (H : ℝ) hWr hHr
  have hr : List.range 4 = [0, 1, 2, 3] := by decide
  unfold find_smallest_enclosing_box
  simp only [hd, List.length_cons, List.length_nil, hr, List.foldl_cons, List.foldl_nil,
    box_update, e0, e1, e2, e3, lt_irrefl, if_false, Option.map_some']

/-- The footprint of `scenario_patch` at resolution 1/2 over `sample_points`: the cells
`(0,0)` and `(1,2)`, two columns wide, so the hull is built at line 137. -/
theorem scenario_patch_footprint :
    scenario_patch.footprint (1 / 2) no_contours keep_contour sample_points
      = footprint_result.hull ⟨⟨0, 0⟩, ⟨1, 2⟩, [⟨0, 0⟩, ⟨1, 2⟩]⟩ (rectangle_hull 1 2) := by
  have c0 : cast_int (0 : ℝ) = some 0 := by simpa using cast_int_natCast 0 (by norm_num)
  have c1 : cast_int (1 : ℝ) = some 1 := by simpa using cast_int_natCast 1 (by norm_num)
  have c2 : cast_int (2 : ℝ) = some 2 := by simpa using cast_int_natCast 2 (by norm_num)
  have hs : (0.5 : ℝ) / (1 / 2) = 1 := by norm_num
  have hscan : scenario_patch.scan_cells 1 sample_points [0, 1] raster_scan.init
      = some ⟨⟨0, 0⟩, ⟨1, 2⟩, [⟨0, 0⟩, ⟨1, 2⟩]⟩ := by
    simp [plane_primitive.scan_cells, scenario_patch, plane_primitive.empty, MatrixXd.col,
      sample_points, plane_primitive.project_cell, Vector3d.dot, c0, c1, c2, raster_scan.push,
      raster_scan.init, INT32_MAX]
  have hw : (⟨⟨0, 0⟩, ⟨1, 2⟩, [⟨0, 0⟩, ⟨1, 2⟩]⟩ : raster_scan).width = 2 := by decide
  have hh : (⟨⟨0, 0⟩, ⟨1, 2⟩, [⟨0, 0⟩, ⟨1, 2⟩]⟩ : raster_scan).height = 3 := by decide
  have h1 : wrap32 (2 - 1) = 1 := by decide
  have h2 : wrap32 (3 - 1) = 2 := by decide
  have hsi : scenario_patch.supporting_inds = [0, 1] := rfl
  unfold plane_primitive.footprint
  rw [if_neg (by norm_num), hs, hsi, hscan]
  simp only [hw, hh, h1, h2, le_refl, true_or, if_true, rectangle_hull]

/-- What `compute_shape_size` stores for a given footprint: it runs to line 220, whether
or not the orientation is finite, and writes the sizes and one hull vertex per pixel of
the 2-D hull. -/
theorem compute_shape_size_of_footprint (self : plane_primitive) (connectedness_res : ℝ)
    (findContours : Mat → List (List Point)) (convexHull : List Point → List Point)
    (uninit : box) (points : MatrixXd) (r : raster_scan) (hull : List Point)
    (h : self.footprint connectedness_res findContours convexHull points
      = footprint_result.hull r hull) :
    (self.compute_shape_size connectedness_res findContours convexHull uninit points).sizes
        = some ⟨2.0 * connectedness_res
            * |((find_smallest_enclosing_box hull).getD uninit).lengths.x|,
          2.0 * connectedness_res
            * |((find_smallest_enclosing_box hull).getD uninit).lengths.y|⟩
    ∧ ∃ hull3,
        (self.compute_shape_size connectedness_res findContours convexHull uninit
          points).convex_hull = some hull3
        ∧ hull3.length = hull.length := by
  unfold plane_primitive.compute_shape_size
  rw [h]
  simp only
  split_ifs
  · exact ⟨rfl, _, rfl, by simp⟩
  · exact ⟨rfl, _, rfl, by simp⟩

/-- C11: on the rectangle hull `(0,0), (0,H), (W,H), (W,0)` with `W > 0` and `H > 0`,
`find_smallest_enclosing_box` writes the axes `(0,1)` and `(-1,0)`, which are
orthonormal, the lengths `(H, -W)`, whose absolute values are the side along the first
axis and the side along the second, of area `W * H`, and the center `(W/2, H/2)`; and a
`compute_shape_size` whose footprint has this hull runs to its end and stores the sizes
`2 * connectedness_res * (H, W)` and a hull of 4 vertices. -/
theorem find_smallest_enclosing_box_rectangle (W H : Int) (hW : 0 < W) (hH : 0 < H) :
    ∃ b, find_smallest_enclosing_box (rectangle_hull W H) = some b
      ∧ b.axes = ⟨⟨0, 1⟩, ⟨-1, 0⟩⟩
      ∧ b.axes.col0.norm = 1 ∧ b.axes.col1.norm = 1 ∧ b.axes.col0.dot b.axes.col1 = 0
      ∧ |b.lengths.x| = (H : ℝ) ∧ |b.lengths.y| = (W : ℝ) ∧ b.area = (W : ℝ) * (H : ℝ)
      ∧ b.cmin = ⟨(W : ℝ) / 2, (H : ℝ) / 2⟩
      ∧ ∀ (self : plane_primitive) (connectedness_res : ℝ)
          (findContours : Mat → List (List Point)) (convexHull : List Point → List Point)
          (uninit : box) (points : MatrixXd) (r : raster_scan),
          self.footprint connectedness_res findContours convexHull points
            = footprint_result.hull r (rectangle_hull W H) →
          (self.compute_shape_size connectedness_res findContours convexHull uninit
              points).sizes
            = some ⟨2 * connectedness_res * (H : ℝ), 2 * connectedness_res * (W : ℝ)⟩
          ∧ ∃ hull3,
              (self.compute_shape_size connectedness_res findContours convexHull uninit
                points).convex_hull = some hull3
              ∧ hull3.length = 4 := by
  have hWr : (0 : ℝ) < (W : ℝ) := by exact_mod_cast hW
  have hHr : (0 : ℝ) < (H : ℝ) := by exact_mod_cast hH
  have hb := find_smallest_enclosing_box_rectangle_eq W H hW hH
  refine ⟨_, hb, rfl, ?_, ?_, ?_, ?_, ?_, ?_, rfl, ?_⟩
  · simp [Vector2d.norm, Vector2d.dot]
  · simp [Vector2d.norm, Vector2d.dot]
  · simp [Vector2d.dot]
  · exact abs_of_pos hHr
  · simp only [abs_neg]; exact abs_of_pos hWr
  · simp only [box.area, abs_neg, abs_of_pos hWr]
  · intro self connectedness_res findContours convexHull uninit points r hf
    obtain ⟨hsz, hull3, hh, hlen⟩ := compute_shape_size_of_footprint self connectedness_res
      findContours convexHull uninit points r _ hf
    refine ⟨?_, hull3, hh, ?_⟩
    · rw [hsz, hb]
      simp only [Option.getD_some, abs_neg, abs_of_pos hWr, abs_of_pos hHr]
      norm_num
    · rw [hlen]; rfl

/-- C11 at `W = 1`, `H = 2`, the hull of the footprint of `scenario_patch`. -/
theorem find_smallest_enclosing_box_rectangle_witness :
    scenario_patch.footprint (1 / 2) no_contours keep_contour sample_points
      = footprint_result.hull ⟨⟨0, 0⟩, ⟨1, 2⟩, [⟨0, 0⟩, ⟨1, 2⟩]⟩ (rectangle_hull 1 2)
    ∧ ∃ b, find_smallest_enclosing_box (rectangle_hull 1 2) = some b
      ∧ b.axes = ⟨⟨0, 1⟩, ⟨-1, 0⟩⟩
      ∧ b.axes.col0.norm = 1 ∧ b.axes.col1.norm = 1 ∧ b.axes.col0.dot b.axes.col1 = 0
      ∧ |b.lengths.x| = ((2 : Int) : ℝ) ∧ |b.lengths.y| = ((1 : Int) : ℝ)
      ∧ b.area = ((1 : Int) : ℝ) * ((2 : Int) : ℝ)
      ∧ b.cmin = ⟨((1 : Int) : ℝ) / 2, ((2 : Int) : ℝ) / 2⟩
      ∧ ∀ (self : plane_primitive) (connectedness_res : ℝ)
          (findContours : Mat → List (List Point)) (convexHull : List Point → List Point)
          (uninit : box) (points : MatrixXd) (r : raster_scan),
          self.footprint connectedness_res findContours convexHull points
            = footprint_result.hull r (rectangle_hull 1 2) →
          (self.compute_shape_size connectedness_res findContours convexHull uninit
              points).sizes
            = some ⟨2 * connectedness_res * ((2 : Int) : ℝ),
                2 * connectedness_res * ((1 : Int) : ℝ)⟩
          ∧ ∃ hull3,
              (self.compute_shape_size connectedness_res findContours convexHull uninit
                points).convex_hull = some hull3
              ∧ hull3.length = 4 :=
  ⟨scenario_patch_footprint, find_smallest_enclosing_box_rectangle 1 2 (by decide) (by decide)⟩

/-! ## The basis invariant -/

theorem tilted_cross :
    ((tilted_points 1).sub (tilted_points 0)).cross
      ((tilted_points 2).sub (tilted_points 0)) = ⟨0, 1, 0⟩ := by
  simp [tilted_points, Vector3d.sub, Vector3d.cross]

theorem tilted_fitted_normal :
    fitted_normal tilted_points tilted_normals = ⟨0, 1, 0⟩ := by
  unfold fitted_normal
  simp only [tilted_cross]
  simp [Vector3d.normalized, Vector3d.norm, Vector3d.dot, tilted_normals]

/-- The receiver `plane_primitive.empty` accepts `tilted_points` and becomes `tilted`. -/
theorem tilted_accepted :
    plane_primitive.empty.construct tilted_points tilted_normals 1 (1 / 10)
      = construct_result.accepted tilted := by
  have hc : (((tilted_points 1).sub (tilted_points 0)).cross
      ((tilted_points 2).sub (tilted_points 0))).norm ≠ 0 := by
    rw [tilted_cross]
    simp [Vector3d.norm, Vector3d.dot]
  rw [construct_accepted_of_within plane_primitive.empty tilted_points tilted_normals 1 (1 / 10)
    hc (by
      intro i
      rw [tilted_fitted_normal]
      simp [Vector3d.dot, tilted_normals])]
  rw [tilted_fitted_normal]
  simp [tilted, tilted_points, Vector3d.sub, Vector3d.normalized, Vector3d.norm, Vector3d.dot,
    Vector3d.cross]

theorem tilted_basis_ok : tilted.basis_ok := by
  simp [plane_primitive.basis_ok, tilted, plane_primitive.empty, Vector4d.head3, Vector3d.dot,
    Vector3d.cross]

/-- On `tilted` the half turn of `switch_direction` is about the normal itself: both
basis vectors are negated, and so is the normal. -/
theorem tilted_switch_direction :
    tilted.switch_direction.p.head3 = ⟨0, -1, 0⟩
    ∧ tilted.switch_direction.basis.col0 = ⟨0, 0, -1⟩
    ∧ tilted.switch_direction.basis.col1 = ⟨-1, 0, 0⟩ := by
  have hq : tilted.quat.normSq = 1 := by
    simp [tilted, plane_primitive.empty, Quaterniond.normSq]
  obtain ⟨hp, _, b0, b1, _⟩ := switch_direction_of_unit tilted hq
  refine ⟨?_, ?_, ?_⟩
  · rw [hp]
    simp [tilted, plane_primitive.empty, Vector4d.neg, Vector4d.head3]
  · rw [b0]
    simp [tilted, plane_primitive.empty, Quaterniond.toRotationMatrix, Matrix3d.mulVec,
      Vector3d.add, Vector3d.scale]
    norm_num
  · rw [b1]
    simp [tilted, plane_primitive.empty, Quaterniond.toRotationMatrix, Matrix3d.mulVec,
      Vector3d.add, Vector3d.scale]
    norm_num

/-- C16 fails as stated: `construct` accepts `tilted_points` and leaves a basis that
satisfies the predicate, but after `switch_direction` the normal is `(0,-1,0)` and the
basis is `(0,0,-1), (-1,0,0)`, where `n x basis[0] = (1,0,0)` is not `basis[1]`. -/
theorem switch_direction_basis_counterexample :
    plane_primitive.empty.construct tilted_points tilted_normals 1 (1 / 10)
      = construct_result.accepted tilted
    ∧ tilted.basis_ok ∧ ¬ tilted.switch_direction.basis_ok := by
  refine ⟨tilted_accepted, tilted_basis_ok, ?_⟩
  obtain ⟨hp, b0, b1⟩ := tilted_switch_direction
  rintro ⟨_, _, _, _, _, h⟩
  rw [hp, b0, b1] at h
  have := congrArg Vector3d.x h
  simp [Vector3d.cross] at this
  norm_num at this

theorem upright_frame :
    upright.p.head3.norm = 1 ∧ upright.orientation_ok ∧ upright.basis_ok := by
  refine ⟨?_, ?_, ?_⟩
  · simp [upright, plane_primitive.empty, Vector4d.head3, Vector3d.norm, Vector3d.dot]
  · simp [plane_primitive.orientation_ok, upright, plane_primitive.empty, Quaterniond.normSq,
      Quaterniond.toRotationMatrix, Vector4d.head3]
  · simp [plane_primitive.basis_ok, upright, plane_primitive.empty, Vector4d.head3,
      Vector3d.dot, Vector3d.cross]

/-- C16, amended: after an accepting `construct` the two basis vectors are unit length,
mutually orthogonal, both orthogonal to the stored normal `n`, with `basis[0] =
normalize(p1 - p0)` and `basis[1] = n x basis[0]`; the basis predicate is preserved by
`switch_direction` (with the flipped normal) on a primitive whose stored orientation is
a unit quaternion with the normal as first axis; and for siblings with unit normals of
which the first has such an orientation, no `normalize()` of `merge_planes` divides by
zero and the merged primitive satisfies the basis predicate. -/
theorem basis_invariant (self : plane_primitive) (points normals : Fin 3 → Vector3d)
    (inlier_threshold angle_threshold : ℝ) (s : plane_primitive)
    (hc : self.construct points normals inlier_threshold angle_threshold
      = construct_result.accepted s)
    (t : plane_primitive) (ho : t.orientation_ok) (hb : t.basis_ok)
    (parent other1 other2 : plane_primitive)
    (convex_hull_fn : Vector3d → List Vector3d → List Vector3d)
    (hp : other1.p.head3.norm = 1) (hq : other2.p.head3.norm = 1)
    (ho1 : other1.orientation_ok) :
    (s.basis.col0.dot s.basis.col0 = 1 ∧ s.basis.col1.dot s.basis.col1 = 1
      ∧ s.basis.col0.dot s.basis.col1 = 0
      ∧ s.p.head3.dot s.basis.col0 = 0 ∧ s.p.head3.dot s.basis.col1 = 0
      ∧ s.basis.col0 = ((points 1).sub (points 0)).normalized
      ∧ s.basis.col1 = s.p.head3.cross s.basis.col0)
    ∧ (t.switch_direction.p.head3 = t.p.head3.scale (-1) ∧ t.switch_direction.basis_ok)
    ∧ ∃ m, parent.merge_planes convex_hull_fn other1 other2 = merge_result.merged m
        ∧ m.basis_ok := by
  obtain ⟨_, h0, h1, u1, u2, u3, u4, u5, _⟩ := construct_basis self points normals
    inlier_threshold angle_threshold s hc
  obtain ⟨m, hm⟩ := merge_planes_returns_of_orientation parent convex_hull_fn other1 other2
    hp hq ho1
  refine ⟨⟨u1, u2, u3, u4, u5, h0, h1⟩, ⟨?_, switch_direction_basis_ok t ho hb⟩,
    m, hm, (merge_planes_frame parent convex_hull_fn other1 other2 m hm).2.1⟩
  rw [switch_direction_p]
  unfold Vector4d.neg Vector4d.head3 Vector3d.scale
  refine Vector3d.ext ?_ ?_ ?_ <;> simp

/-- C16 on the spec's scenario, on `upright`, and on the merge of `upright` with
itself. -/
theorem basis_invariant_witness :
    plane_primitive.empty.construct scenario_points scenario_normals 1 (1 / 10)
      = construct_result.accepted
        { plane_primitive.empty with
          p := ⟨(fitted_normal scenario_points scenario_normals).x,
            (fitted_normal scenario_points scenario_normals).y,
            (fitted_normal scenario_points scenario_normals).z,
            -((fitted_normal scenario_points scenario_normals).dot (scenario_points 0))⟩
          basis := ⟨((scenario_points 1).sub (scenario_points 0)).normalized,
            ((fitted_normal scenario_points scenario_normals).cross
              ((scenario_points 1).sub (scenario_points 0)).normalized).normalized⟩ }
    ∧ upright.orientation_ok ∧ upright.basis_ok ∧ upright.p.head3.norm = 1
    ∧ upright.switch_direction.basis_ok
    ∧ ∃ m, plane_primitive.empty.merge_planes keep_points upright upright
          = merge_result.merged m
        ∧ m.basis_ok :=
  ⟨scenario_accepted, upright_frame.2.1, upright_frame.2.2, upright_frame.1,
    (basis_invariant _ _ _ _ _ _ scenario_accepted upright upright_frame.2.1 upright_frame.2.2
      plane_primitive.empty upright upright keep_points upright_frame.1 upright_frame.1
      upright_frame.2.1).2.1.2,
    (basis_invariant _ _ _ _ _ _ scenario_accepted upright upright_frame.2.1 upright_frame.2.2
      plane_primitive.empty upright upright keep_points upright_frame.1 upright_frame.1
      upright_frame.2.1).2.2⟩

/-! ## Orientation and normal -/

/-- A hull with an edge of non-zero length gets a rectangle. -/
theorem find_smallest_enclosing_box_isSome_of_proper (pts : List Point)
    (h : has_proper_edge pts) : (find_smallest_enclosing_box pts).isSome := by
  obtain ⟨i0, a, a1, ha, ha1, hne⟩ := h
  have hsome := edge_candidate_isSome_of_proper (to_dpts pts) i0 a a1 ha ha1 hne
  have hi0 : i0 < (to_dpts pts).length := by
    by_contra hcon
    rw [List.get?_eq_none.mpr (not_lt.mp hcon)] at ha
    cases ha
  obtain ⟨h0, _⟩ := box_loop_spec (to_dpts pts) (to_dpts pts).length
  cases hb : (List.range (to_dpts pts).length).foldl (box_update (to_dpts pts)) none with
  | none => exact absurd (h0 hb i0 hi0) hsome
  | some best =>
    unfold find_smallest_enclosing_box
    simp only [hb, Option.map_some', Option.isSome_some]

theorem Mat.zeros_has_shape (height width : Int) :
    (Mat.zeros height width).has_shape height.toNat width.toNat := by
  unfold Mat.zeros Mat.has_shape
  refine ⟨List.length_replicate _ _, ?_⟩
  intro row hrow
  rw [List.eq_of_mem_replicate hrow, List.length_replicate]

/-- A read inside the matrix returns a value. -/
theorem Mat.at_of_has_shape (m : Mat) (h w : Nat) (hm : m.has_shape h w) (row col : Int)
    (h0 : 0 ≤ row) (h1 : row < (h : Int)) (h2 : 0 ≤ col) (h3 : col < (w : Int)) :
    ∃ v, Mat.at m row col = some v := by
  obtain ⟨hl, hr⟩ := hm
  have hrow : row.toNat < m.length := by omega
  have hcol : col.toNat < (m.get ⟨row.toNat, hrow⟩).length := by
    rw [hr _ (List.get_mem m row.toNat hrow)]
    omega
  refine ⟨(m.get ⟨row.toNat, hrow⟩).get ⟨col.toNat, hcol⟩, ?_⟩
  unfold Mat.at
  rw [if_pos ⟨h0, h2⟩, List.get?_eq_get hrow]
  simp only [Option.some_bind]
  exact List.get?_eq_get hcol

theorem modify_row_length (f : List Int → List Int) (hf : ∀ r, (f r).length = r.length)
    (w : Nat) : ∀ (n : Nat) (m : Mat), (∀ row ∈ m, row.length = w) →
      ∀ row ∈ List.modify f n m, row.length = w := by
  intro n m
  induction m generalizing n with
  | nil => intro _ row hrow; rw [List.modify_nil] at hrow; cases hrow
  | cons a rest ih =>
    intro hm row hrow
    cases n with
    | zero =>
      rw [List.modify_zero_cons] at hrow
      rcases List.mem_cons.mp hrow with rfl | h
      · rw [hf]; exact hm a (List.mem_cons_self _ _)
      · exact hm row (List.mem_cons_of_mem _ h)
    | succ k =>
      rw [List.modify_succ_cons] at hrow
      rcases List.mem_cons.mp hrow with rfl | h
      · exact hm _ (List.mem_cons_self _ _)
      · exact ih k (fun r hr => hm r (List.mem_cons_of_mem _ hr)) row h

/-- A write inside the matrix succeeds and leaves the size as it is. -/
theorem Mat.set_of_has_shape (m : Mat) (h w : Nat) (hm : m.has_shape h w) (row col v : Int)
    (h0 : 0 ≤ row) (h1 : row < (h : Int)) (h2 : 0 ≤ col) (h3 : col < (w : Int)) :
    ∃ m1, Mat.set m row col v = some m1 ∧ Mat.has_shape m1 h w := by
  obtain ⟨x, hx⟩ := Mat.at_of_has_shape m h w hm row col h0 h1 h2 h3
  refine ⟨_, by unfold Mat.set; rw [hx], ?_⟩
  refine ⟨by rw [List.length_modify]; exact hm.1, ?_⟩
  exact modify_row_length _ (fun r => List.length_set _ _ _) w _ m hm.2

/-- The loop of lines 141-143 writes inside the matrix when every shifted cell is inside
it. -/
theorem mark_footprint_of_has_shape (minpt : Vector2i) (h w : Nat) :
    ∀ (pts : List Vector2i) (m : Mat), m.has_shape h w →
      (∀ pp ∈ pts, (0 ≤ wrap32 (pp.y - minpt.y) ∧ wrap32 (pp.y - minpt.y) < (h : Int))
        ∧ (0 ≤ wrap32 (pp.x - minpt.x) ∧ wrap32 (pp.x - minpt.x) < (w : Int))) →
      ∃ m1, mark_footprint minpt m pts = some m1 ∧ Mat.has_shape m1 h w := by
  intro pts
  induction pts with
  | nil => intro m hm _; exact ⟨m, rfl, hm⟩
  | cons pp rest ih =>
    intro m hm hin
    obtain ⟨⟨a0, a1⟩, ⟨a2, a3⟩⟩ := hin pp (List.mem_cons_self _ _)
    obtain ⟨m1, e1, hm1⟩ := Mat.set_of_has_shape m h w hm _ _ 255 a0 a1 a2 a3
    obtain ⟨m2, e2, hm2⟩ := ih m1 hm1 (fun q hq => hin q (List.mem_cons_of_mem _ hq))
    refine ⟨m2, ?_, hm2⟩
    unfold mark_footprint
    rw [e1]
    exact e2

/-- The loop of lines 281-285 writes inside the matrix when every cell is inside it. -/
theorem mark_cells_of_has_shape (h w : Nat) :
    ∀ (pts : List Vector2i) (m : Mat), m.has_shape h w →
      (∀ pp ∈ pts, (0 ≤ pp.y ∧ pp.y < (h : Int)) ∧ (0 ≤ pp.x ∧ pp.x < (w : Int))) →
      ∃ m1, mark_cells m pts = some m1 ∧ Mat.has_shape m1 h w := by
  intro pts
  induction pts with
  | nil => intro m hm _; exact ⟨m, rfl, hm⟩
  | cons pp rest ih =>
    intro m hm hin
    obtain ⟨⟨a0, a1⟩, ⟨a2, a3⟩⟩ := hin pp (List.mem_cons_self _ _)
    obtain ⟨m1, e1, hm1⟩ := Mat.set_of_has_shape m h w hm _ _ 1 a0 a1 a2 a3
    obtain ⟨m2, e2, hm2⟩ := ih m1 hm1 (fun q hq => hin q (List.mem_cons_of_mem _ hq))
    refine ⟨m2, ?_, hm2⟩
    unfold mark_cells
    rw [e1]
    exact e2

/-- The loop of lines 295-301 reads inside the matrix when every cell is inside it. -/
theorem collect_largest_of_has_shape (binary : Mat) (largest : Int) (h w : Nat)
    (hm : binary.has_shape h w) :
    ∀ (pts : List Vector2i) (inds inliers : List Int),
      (∀ pp ∈ pts, (0 ≤ pp.y ∧ pp.y < (h : Int)) ∧ (0 ≤ pp.x ∧ pp.x < (w : Int))) →
      ∃ out, collect_largest binary largest pts inds inliers = some out := by
  intro pts
  induction pts with
  | nil => intro inds inliers _; exact ⟨inliers, by unfold collect_largest; rfl⟩
  | cons pp rest ih =>
    intro inds inliers hin
    cases inds with
    | nil => exact ⟨inliers, by unfold collect_largest; rfl⟩
    | cons i more =>
      obtain ⟨⟨a0, a1⟩, ⟨a2, a3⟩⟩ := hin pp (List.mem_cons_self _ _)
      obtain ⟨x, hx⟩ := Mat.at_of_has_shape binary h w hm _ _ a0 a1 a2 a3
      unfold collect_largest
      rw [hx]
      simp only
      split
      · exact ih more _ (fun q hq => hin q (List.mem_cons_of_mem _ hq))
      · exact ih more _ (fun q hq => hin q (List.mem_cons_of_mem _ hq))

/-- A scan that returns has read one cell per index: it is the fold over the cells. -/
theorem scan_cells_some (self : plane_primitive) (scale : ℝ) (points : MatrixXd)
    (inds : List Int) :
    ∀ (r0 r : raster_scan), self.scan_cells scale points inds r0 = some r →
      ∃ cs, self.cells_of scale points inds = some cs ∧ r = cs.foldl raster_scan.push r0
        ∧ cs.length = inds.length := by
  induction inds with
  | nil =>
    intro r0 r h
    unfold plane_primitive.scan_cells at h
    exact ⟨[], rfl, (Option.some.inj h).symm, rfl⟩
  | cons i rest ih =>
    intro r0 r h
    unfold plane_primitive.scan_cells at h
    unfold plane_primitive.cells_of
    cases hcol : points.col i with
    | none => simp [hcol] at h
    | some v =>
      cases hcell : self.project_cell scale v with
      | none => simp [hcol, hcell] at h
      | some pt =>
        simp only [hcol, hcell] at h
        obtain ⟨cs, e1, e2, e3⟩ := ih (r0.push pt) r h
        refine ⟨pt :: cs, ?_, ?_, ?_⟩
        · simp only [e1, Option.map_some', hcell]
        · rw [e2]; rfl
        · simp [e3]

/-- After a scan of a non-empty index list, `minpt` and `maxpt` bound every cell, and
both are `int` values. -/
theorem scan_cells_bounds (self : plane_primitive) (scale : ℝ) (points : MatrixXd)
    (inds : List Int) (r : raster_scan) (hne : inds ≠ [])
    (hscan : self.scan_cells scale points inds raster_scan.init = some r) :
    r.pts ≠ []
    ∧ (∀ pt ∈ r.pts, r.minpt.x ≤ pt.x ∧ pt.x ≤ r.maxpt.x ∧ r.minpt.y ≤ pt.y ∧ pt.y ≤ r.maxpt.y)
    ∧ -2147483648 ≤ r.minpt.x ∧ r.maxpt.x ≤ 2147483647
    ∧ -2147483648 ≤ r.minpt.y ∧ r.maxpt.y ≤ 2147483647 := by
  obtain ⟨cs, hcs, hr, hlen⟩ := scan_cells_some self scale points inds _ _ hscan
  have hrange := cells_of_range self scale points inds cs hcs
  obtain ⟨e1, e2, e3, e4, e5⟩ := foldl_push_eq cs raster_scan.init
  rw [← hr] at e1 e2 e3 e4 e5
  have hpts : r.pts = cs := by rw [e5]; rfl
  have hI : raster_scan.init.minpt.x = INT32_MAX ∧ raster_scan.init.minpt.y = INT32_MAX
      ∧ raster_scan.init.maxpt.x = -INT32_MAX ∧ raster_scan.init.maxpt.y = -INT32_MAX :=
    ⟨rfl, rfl, rfl, rfl⟩
  rw [hI.1] at e1
  rw [hI.2.1] at e2
  rw [hI.2.2.1] at e3
  rw [hI.2.2.2] at e4
  rw [hpts, e1, e2, e3, e4]
  refine ⟨?_, ?_, ?_, ?_, ?_, ?_⟩
  · intro h0
    rw [h0] at hlen
    exact hne (List.length_eq_zero.mp hlen.symm)
  · intro pt hpt
    exact ⟨fold_min_le_mem _ cs _ pt hpt, fold_max_ge_mem _ cs _ pt hpt,
      fold_min_le_mem _ cs _ pt hpt, fold_max_ge_mem _ cs _ pt hpt⟩
  · exact fold_min_ge _ cs _ (fun c hc => (hrange c hc).1.1) _ (by unfold INT32_MAX; norm_num)
  · exact fold_max_le _ cs _ (fun c hc => (hrange c hc).1.2) _ (by unfold INT32_MAX; norm_num)
  · exact fold_min_ge _ cs _ (fun c hc => (hrange c hc).2.1) _ (by unfold INT32_MAX; norm_num)
  · exact fold_max_le _ cs _ (fun c hc => (hrange c hc).2.2) _ (by unfold INT32_MAX; norm_num)

/-- When the `int` value of `1 + max - min` is positive, it is the exact value, and the
`int` difference `c - min` of a value between `min` and `max` is exact and below it. -/
theorem wrap32_span (mn mx c : Int) (h1 : -2147483648 ≤ mn) (h2 : mx ≤ 2147483647)
    (hc1 : mn ≤ c) (hc2 : c ≤ mx) (hw : 0 < wrap32 (1 + mx - mn)) :
    wrap32 (1 + mx - mn) = 1 + mx - mn
    ∧ 0 ≤ wrap32 (c - mn) ∧ wrap32 (c - mn) < 1 + mx - mn := by
  unfold wrap32 at *
  omega

/-- The grid of a scan of a non-empty index list whose `int` width and height are
positive: the two are the exact values, and every shifted cell is inside the grid. -/
theorem scan_cells_grid (self : plane_primitive) (scale : ℝ) (points : MatrixXd)
    (inds : List Int) (r : raster_scan) (hne : inds ≠ [])
    (hscan : self.scan_cells scale points inds raster_scan.init = some r)
    (hw : 0 < r.width) (hh : 0 < r.height) :
    r.width = 1 + r.maxpt.x - r.minpt.x ∧ r.height = 1 + r.maxpt.y - r.minpt.y
    ∧ ∀ pp ∈ r.pts,
        (0 ≤ wrap32 (pp.y - r.minpt.y) ∧ wrap32 (pp.y - r.minpt.y) < (r.height.toNat : Int))
        ∧ (0 ≤ wrap32 (pp.x - r.minpt.x) ∧ wrap32 (pp.x - r.minpt.x) < (r.width.toNat : Int)) := by
  obtain ⟨hpts, hb, x1, x2, y1, y2⟩ := scan_cells_bounds self scale points inds r hne hscan
  obtain ⟨p0, hp0⟩ := List.exists_mem_of_ne_nil _ hpts
  obtain ⟨a1, a2, a3, a4⟩ := hb p0 hp0
  have ew := (wrap32_span _ _ _ x1 x2 a1 a2 hw).1
  have eh := (wrap32_span _ _ _ y1 y2 a3 a4 hh).1
  refine ⟨ew, eh, ?_⟩
  intro pp hpp
  obtain ⟨b1, b2, b3, b4⟩ := hb pp hpp
  obtain ⟨_, c1, c2⟩ := wrap32_span _ _ _ x1 x2 b1 b2 hw
  obtain ⟨_, d1, d2⟩ := wrap32_span _ _ _ y1 y2 b3 b4 hh
  rw [Int.toNat_of_nonneg hw.le, Int.toNat_of_nonneg hh.le]
  unfold raster_scan.width raster_scan.height at *
  exact ⟨⟨d1, by omega⟩, ⟨c1, by omega⟩⟩

/-- C20: after the scan of a non-empty index list, every rasterised cell `pt` has
`0 <= pt.x - minpt.x < 1 + maxpt.x - minpt.x` and `0 <= pt.y - minpt.y < 1 + maxpt.y -
minpt.y`.  Whenever one of the two functions allocates its grid (the `int` width and
height are above 2 in `compute_shape_size`, at least 10 in
`largest_connected_component`), the `int` values `width` and `height` are these two
bounds, every write of lines 141-143 and 281-285 addresses a cell of the grid, and so
does every read of lines 295-301 when `find_blobs` keeps the size of the matrix.  So
the first part of `compute_shape_size` never faults on the grid, and
`largest_connected_component` returns. -/
theorem raster_indexing_in_bounds (self : plane_primitive) (scale : ℝ) (points : MatrixXd)
    (inds : List Int) (r : raster_scan) (hne : inds ≠ [])
    (hscan : self.scan_cells scale points inds raster_scan.init = some r) :
    (∀ pt ∈ r.pts, (0 ≤ pt.x - r.minpt.x ∧ pt.x - r.minpt.x < 1 + r.maxpt.x - r.minpt.x)
        ∧ (0 ≤ pt.y - r.minpt.y ∧ pt.y - r.minpt.y < 1 + r.maxpt.y - r.minpt.y))
    ∧ (¬ (r.width ≤ 2 ∨ r.height ≤ 2) →
        r.width = 1 + r.maxpt.x - r.minpt.x ∧ r.height = 1 + r.maxpt.y - r.minpt.y
        ∧ ∃ binary, mark_footprint r.minpt (Mat.zeros r.height r.width) r.pts = some binary)
    ∧ (¬ (r.width < 10 ∨ r.height < 10) →
        r.width = 1 + r.maxpt.x - r.minpt.x ∧ r.height = 1 + r.maxpt.y - r.minpt.y
        ∧ ∃ binary, mark_cells (Mat.zeros r.height r.width)
              (r.pts.map (fun pp =>
                (⟨wrap32 (pp.x - r.minpt.x), wrap32 (pp.y - r.minpt.y)⟩ : Vector2i)))
            = some binary
          ∧ ∀ find_blobs : Mat → Mat × Int, keeps_shape find_blobs →
              ∀ inds1 inliers : List Int, ∃ out,
                collect_largest (find_blobs binary).1 (find_blobs binary).2
                  (r.pts.map (fun pp =>
                    (⟨wrap32 (pp.x - r.minpt.x), wrap32 (pp.y - r.minpt.y)⟩ : Vector2i)))
                  inds1 inliers = some out)
    ∧ (∀ (connectedness_res : ℝ) (findContours : Mat → List (List Point))
          (convexHull : List Point → List Point),
        connectedness_res ≠ 0 → scale = 0.5 / connectedness_res →
        inds = self.supporting_inds →
        self.footprint connectedness_res findContours convexHull points
          ≠ footprint_result.fault)
    ∧ (∀ (find_blobs : Mat → Mat × Int) (current_connectedness_res : ℝ) (inliers : List Int),
        current_connectedness_res ≠ 0 → scale = 1 / current_connectedness_res →
        inds = self.conforming_inds → keeps_shape find_blobs →
        ∃ out, self.largest_connected_component find_blobs current_connectedness_res inliers
          points = some out) := by
  obtain ⟨hpts, hb, x1, x2, y1, y2⟩ := scan_cells_bounds self scale points inds r hne hscan
  have hcss : ¬ (r.width ≤ 2 ∨ r.height ≤ 2) →
      r.width = 1 + r.maxpt.x - r.minpt.x ∧ r.height = 1 + r.maxpt.y - r.minpt.y
      ∧ ∃ binary, mark_footprint r.minpt (Mat.zeros r.height r.width) r.pts = some binary := by
    intro hg
    have hw : 0 < r.width := by omega
    have hh : 0 < r.height := by omega
    obtain ⟨ew, eh, hin⟩ := scan_cells_grid self scale points inds r hne hscan hw hh
    obtain ⟨m1, e1, _⟩ := mark_footprint_of_has_shape r.minpt _ _ r.pts _
      (Mat.zeros_has_shape r.height r.width) hin
    exact ⟨ew, eh, m1, e1⟩
  have hlcc : ¬ (r.width < 10 ∨ r.height < 10) →
      r.width = 1 + r.maxpt.x - r.minpt.x ∧ r.height = 1 + r.maxpt.y - r.minpt.y
      ∧ ∃ binary, mark_cells (Mat.zeros r.height r.width)
            (r.pts.map (fun pp =>
              (⟨wrap32 (pp.x - r.minpt.x), wrap32 (pp.y - r.minpt.y)⟩ : Vector2i)))
          = some binary
        ∧ ∀ find_blobs : Mat → Mat × Int, keeps_shape find_blobs →
            ∀ inds1 inliers : List Int, ∃ out,
              collect_largest (find_blobs binary).1 (find_blobs binary).2
                (r.pts.map (fun pp =>
                  (⟨wrap32 (pp.x - r.minpt.x), wrap32 (pp.y - r.minpt.y)⟩ : Vector2i)))
                inds1 inliers = some out := by
    intro hg
    have hw : 0 < r.width := by omega
    have hh : 0 < r.height := by omega
    obtain ⟨ew, eh, hin⟩ := scan_cells_grid self scale points inds r hne hscan hw hh
    have hin1 : ∀ pp ∈ r.pts.map (fun pp =>
        (⟨wrap32 (pp.x - r.minpt.x), wrap32 (pp.y - r.minpt.y)⟩ : Vector2i)),
        (0 ≤ pp.y ∧ pp.y < (r.height.toNat : Int)) ∧ (0 ≤ pp.x ∧ pp.x < (r.width.toNat : Int)) := by
      intro pp hpp
      obtain ⟨q, hq, rfl⟩ := List.mem_map.mp hpp
      exact hin q hq
    obtain ⟨m1, e1, hm1⟩ := mark_cells_of_has_shape _ _ _ _
      (Mat.zeros_has_shape r.height r.width) hin1
    refine ⟨ew, eh, m1, e1, ?_⟩
    intro find_blobs hk inds1 inliers
    exact collect_largest_of_has_shape _ _ _ _ (hk m1 _ _ hm1) _ inds1 inliers hin1
  refine ⟨?_, hcss, hlcc, ?_, ?_⟩
  · intro pt hpt
    obtain ⟨b1, b2, b3, b4⟩ := hb pt hpt
    exact ⟨⟨by omega, by omega⟩, ⟨by omega, by omega⟩⟩
  · intro connectedness_res findContours convexHull hres hscale hinds
    unfold plane_primitive.footprint
    rw [if_neg hres, ← hscale, ← hinds, hscan]
    simp only
    by_cases hg : r.width ≤ 2 ∨ r.height ≤ 2
    · rw [if_pos hg]
      exact fun h => footprint_result.noConfusion h
    · rw [if_neg hg]
      obtain ⟨_, _, binary, e⟩ := hcss hg
      rw [e]
      simp only
      cases largest_contour (findContours binary) with
      | none => exact fun h => footprint_result.noConfusion h
      | some contour => exact fun h => footprint_result.noConfusion h
  · intro find_blobs current_connectedness_res inliers hres hscale hinds hk
    unfold plane_primitive.largest_connected_component
    rw [if_neg hres, ← hscale, ← hinds, hscan]
    simp only
    by_cases hg : r.width < 10 ∨ r.height < 10
    · rw [if_pos hg]
      exact ⟨_, rfl⟩
    · rw [if_neg hg]
      obtain ⟨_, _, binary, e, hread⟩ := hlcc hg
      rw [e]
      exact hread find_blobs hk _ inliers

/-- The scan of the conforming points of `ground_patch` at scale 1: the cells `(3,1)`,
`(0,0)`, `(1,2)` in a grid of 4 columns and 3 rows. -/
theorem ground_patch_scan :
    ground_patch.scan_cells 1 sample_points [3, 0, 1] raster_scan.init
      = some ⟨⟨0, 0⟩, ⟨3, 2⟩, [⟨3, 1⟩, ⟨0, 0⟩, ⟨1, 2⟩]⟩ := by
  have c0 : cast_int (0 : ℝ) = some 0 := by simpa using cast_int_natCast 0 (by norm_num)
  have c1 : cast_int (1 : ℝ) = some 1 := by simpa using cast_int_natCast 1 (by norm_num)
  have c2 : cast_int (2 : ℝ) = some 2 := by simpa using cast_int_natCast 2 (by norm_num)
  have c3 : cast_int (3 : ℝ) = some 3 := by simpa using cast_int_natCast 3 (by norm_num)
  simp [plane_primitive.scan_cells, ground_patch, ground_plane, plane_primitive.empty,
    MatrixXd.col, sample_points, plane_primitive.project_cell, Vector3d.dot, c0, c1, c2, c3,
    raster_scan.push, raster_scan.init, INT32_MAX]

/-- C20 on the three conforming points of `ground_patch`: the grid has 3 rows and 4
columns, above the guard of `compute_shape_size`, and the three writes succeed. -/
theorem raster_indexing_in_bounds_witness :
    ([3, 0, 1] : List Int) ≠ []
    ∧ ground_patch.scan_cells 1 sample_points [3, 0, 1] raster_scan.init
      = some ⟨⟨0, 0⟩, ⟨3, 2⟩, [⟨3, 1⟩, ⟨0, 0⟩, ⟨1, 2⟩]⟩
    ∧ ¬ ((⟨⟨0, 0⟩, ⟨3, 2⟩, [⟨3, 1⟩, ⟨0, 0⟩, ⟨1, 2⟩]⟩ : raster_scan).width ≤ 2
        ∨ (⟨⟨0, 0⟩, ⟨3, 2⟩, [⟨3, 1⟩, ⟨0, 0⟩, ⟨1, 2⟩]⟩ : raster_scan).height ≤ 2)
    ∧ (∀ pt ∈ ([⟨3, 1⟩, ⟨0, 0⟩, ⟨1, 2⟩] : List Vector2i),
        (0 ≤ pt.x - 0 ∧ pt.x - 0 < 1 + 3 - 0) ∧ (0 ≤ pt.y - 0 ∧ pt.y - 0 < 1 + 2 - 0))
    ∧ ∃ binary, mark_footprint ⟨0, 0⟩
        (Mat.zeros (⟨⟨0, 0⟩, ⟨3, 2⟩, [⟨3, 1⟩, ⟨0, 0⟩, ⟨1, 2⟩]⟩ : raster_scan).height
          (⟨⟨0, 0⟩, ⟨3, 2⟩, [⟨3, 1⟩, ⟨0, 0⟩, ⟨1, 2⟩]⟩ : raster_scan).width)
        [⟨3, 1⟩, ⟨0, 0⟩, ⟨1, 2⟩] = some binary :=
  ⟨by simp, ground_patch_scan, by decide,
    (raster_indexing_in_bounds ground_patch 1 sample_points [3, 0, 1] _ (by simp)
      ground_patch_scan).1,
    ((raster_indexing_in_bounds ground_patch 1 sample_points [3, 0, 1] _ (by simp)
      ground_patch_scan).2.1 (by decide)).2.2⟩

/-! ## Enclosure -/

/-- A value between 0 and `h` is within `|h| / 2` of `h / 2`. -/
theorem abs_sub_half_le (o h : ℝ) (hb : |o| ≤ |h|)
    (hs : (0 ≤ o ∧ 0 ≤ h) ∨ (o ≤ 0 ∧ h ≤ 0)) : |o - 0.5 * h| ≤ |h| / 2 := by
  rcases hs with ⟨h1, h2⟩ | ⟨h1, h2⟩
  · rw [abs_of_nonneg h1, abs_of_nonneg h2] at hb
    rw [abs_of_nonneg h2, abs_le]
    constructor <;> norm_num <;> linarith
  · rw [abs_of_nonpos h1, abs_of_nonpos h2] at hb
    rw [abs_of_nonpos h2, abs_le]
    constructor <;> norm_num <;> linarith

/-- The rectangle of an edge contains every vertex along the edge direction; it contains
every vertex across the edge when all vertices are on one side of the edge line. -/
theorem is_edge_box_encloses (dpts : List Vector2d) (i : Nat) (b : box)
    (hbox : is_edge_box dpts i b)
    (hside : ∀ a a1, dpts.get? i = some a → dpts.get? ((i + 1) % dpts.length) = some a1 →
      (∀ q ∈ dpts, 0 ≤ (a1.sub a).cross (q.sub a))
      ∨ (∀ q ∈ dpts, (a1.sub a).cross (q.sub a) ≤ 0)) :
    b.axes.col0.norm = 1 ∧ b.axes.col1.norm = 1 ∧ b.axes.col0.dot b.axes.col1 = 0
    ∧ ∀ q ∈ dpts, |b.axes.col0.dot (q.sub b.cmin)| ≤ b.lengths.x / 2
        ∧ |b.axes.col1.dot (q.sub b.cmin)| ≤ |b.lengths.y| / 2 := by
  obtain ⟨a, a1, vec, ovec, lo, hi, h, hga, hga1, hvec, ⟨k, hk, hek⟩, hovec, _, hlo, _, hhi,
    ⟨qh, hqh, hqh1⟩, hh, hlen, haxes, hcmin⟩ := hbox
  have vv : vec.x * vec.x + vec.y * vec.y = 1 := by
    have := vec.planar_norm_sq
    rw [hvec] at this
    unfold Vector2d.dot at this
    linarith
  have hcross : ∀ q : Vector2d, (a1.sub a).cross (q.sub a) = k * ovec.dot (q.sub a) := by
    intro q
    rw [hek, hovec]
    unfold Vector2d.cross Vector2d.scale Vector2d.dot Vector2d.sub
    simp only
    ring
  have hsign : (∀ q ∈ dpts, 0 ≤ ovec.dot (q.sub a)) ∨ (∀ q ∈ dpts, ovec.dot (q.sub a) ≤ 0) := by
    rcases hside a a1 hga hga1 with hs | hs
    · left
      intro q hq
      have := hs q hq
      rw [hcross] at this
      exact nonneg_of_mul_nonneg_right this hk
    · right
      intro q hq
      have := hs q hq
      rw [hcross] at this
      by_contra hcon
      have := mul_pos hk (not_le.mp hcon)
      linarith
  rw [haxes, hlen, hcmin]
  simp only
  refine ⟨hvec, ?_, ?_, ?_⟩
  · rw [hovec]
    unfold Vector2d.norm Vector2d.dot
    simp only
    have : -vec.y * -vec.y + vec.x * vec.x = 1 := by linarith
    rw [this, Real.sqrt_one]
  · rw [hovec]
    unfold Vector2d.dot
    simp only
    ring
  · intro q hq
    have e1 : vec.dot (q.sub (a.add (((vec.scale (lo + hi)).add (ovec.scale h)).scale 0.5)))
        = vec.dot (q.sub a) - 0.5 * (lo + hi) := by
      rw [hovec]
      unfold Vector2d.dot Vector2d.sub Vector2d.add Vector2d.scale
      simp only
      linear_combination (-(0.5 : ℝ) * (lo + hi)) * vv
    have e2 : ovec.dot (q.sub (a.add (((vec.scale (lo + hi)).add (ovec.scale h)).scale 0.5)))
        = ovec.dot (q.sub a) - 0.5 * h := by
      rw [hovec]
      unfold Vector2d.dot Vector2d.sub Vector2d.add Vector2d.scale
      simp only
      linear_combination (-(0.5 : ℝ) * h) * vv
    rw [e1, e2]
    constructor
    · have h1 := hlo q hq
      have h2 := hhi q hq
      rw [abs_le]
      constructor <;> norm_num <;> linarith
    · apply abs_sub_half_le _ _ (hh q hq)
      rcases hsign with hs | hs
      · left
        exact ⟨hs q hq, by rw [← hqh1]; exact hs qh hqh⟩
      · right
        exact ⟨hs q hq, by rw [← hqh1]; exact hs qh hqh⟩

/-- C19: for a convex polygon given in boundary order with at least 3 vertices, not all
on one line, and with distinct consecutive vertices, `find_smallest_enclosing_box`
returns a rectangle with orthonormal axes that contains every vertex `q` of the
polygon: `|axes0 . (q - cmin)| <= lengths(0) / 2` and `|axes1 . (q - cmin)| <=
|lengths(1)| / 2`. -/
theorem find_smallest_enclosing_box_encloses (pts : List Point) (h3 : 3 ≤ pts.length)
    (hd : distinct_consecutive (to_dpts pts)) (hnc : not_all_collinear (to_dpts pts))
    (hconv : convex_in_order (to_dpts pts)) :
    ∃ b, find_smallest_enclosing_box pts = some b
      ∧ b.axes.col0.norm = 1 ∧ b.axes.col1.norm = 1 ∧ b.axes.col0.dot b.axes.col1 = 0
      ∧ ∀ q ∈ to_dpts pts, |b.axes.col0.dot (q.sub b.cmin)| ≤ b.lengths.x / 2
          ∧ |b.axes.col1.dot (q.sub b.cmin)| ≤ |b.lengths.y| / 2 := by
  have hlen : (to_dpts pts).length = pts.length := to_dpts_length pts
  have h0 : 0 < (to_dpts pts).length := by omega
  have h1 : (0 + 1) % (to_dpts pts).length < (to_dpts pts).length := Nat.mod_lt _ h0
  have hproper : has_proper_edge pts :=
    ⟨0, _, _, List.get?_eq_get h0, List.get?_eq_get h1,
      hd 0 _ _ (List.get?_eq_get h0) (List.get?_eq_get h1)⟩
  obtain ⟨b, hb⟩ := Option.isSome_iff_exists.mp
    (find_smallest_enclosing_box_isSome_of_proper pts hproper)
  obtain ⟨i, _, hbox⟩ := find_smallest_enclosing_box_is_edge_box pts b hb
  refine ⟨b, hb, is_edge_box_encloses (to_dpts pts) i b hbox ?_⟩
  intro a a1 ha ha1
  rcases hconv with hc | hc
  · exact Or.inl (hc i a a1 ha ha1)
  · exact Or.inr (hc i a a1 ha ha1)

theorem rectangle_hull_dpts :
    to_dpts (rectangle_hull 1 2) = [⟨0, 0⟩, ⟨0, 2⟩, ⟨1, 2⟩, ⟨1, 0⟩] := by
  simp [to_dpts, rectangle_hull]

/-- The four edges of the 1 x 2 rectangle hull. -/
theorem rectangle_hull_edges (i : Nat) (a a1 : Vector2d)
    (ha : (to_dpts (rectangle_hull 1 2)).get? i = some a)
    (ha1 : (to_dpts (rectangle_hull 1 2)).get? ((i + 1) % (to_dpts (rectangle_hull 1 2)).length)
      = some a1) :
    (a = ⟨0, 0⟩ ∧ a1 = ⟨0, 2⟩) ∨ (a = ⟨0, 2⟩ ∧ a1 = ⟨1, 2⟩) ∨ (a = ⟨1, 2⟩ ∧ a1 = ⟨1, 0⟩)
    ∨ (a = ⟨1, 0⟩ ∧ a1 = ⟨0, 0⟩) := by
  rw [rectangle_hull_dpts] at ha ha1
  have hi : i < 4 := by
    by_contra hcon
    rw [List.get?_eq_none.mpr (by simpa using hcon)] at ha
    cases ha
  interval_cases i
  · simp at ha ha1; exact Or.inl ⟨ha.symm, ha1.symm⟩
  · simp at ha ha1; exact Or.inr (Or.inl ⟨ha.symm, ha1.symm⟩)
  · simp at ha ha1; exact Or.inr (Or.inr (Or.inl ⟨ha.symm, ha1.symm⟩))
  · simp at ha ha1; exact Or.inr (Or.inr (Or.inr ⟨ha.symm, ha1.symm⟩))

/-- The 1 x 2 rectangle hull is a convex polygon in clockwise order, with distinct
consecutive vertices, not all on one line. -/
theorem rectangle_hull_convex :
    distinct_consecutive (to_dpts (rectangle_hull 1 2))
    ∧ not_all_collinear (to_dpts (rectangle_hull 1 2))
    ∧ convex_in_order (to_dpts (rectangle_hull 1 2)) := by
  refine ⟨?_, ?_, Or.inr ?_⟩
  · intro i a a1 ha ha1 h
    have hx := congrArg Vector2d.x h
    have hy := congrArg Vector2d.y h
    rcases rectangle_hull_edges i a a1 ha ha1 with ⟨rfl, rfl⟩ | ⟨rfl, rfl⟩ | ⟨rfl, rfl⟩
      | ⟨rfl, rfl⟩ <;> norm_num at hx hy
  · rw [rectangle_hull_dpts]
    refine ⟨⟨0, 0⟩, by simp, ⟨0, 2⟩, by simp, ⟨1, 2⟩, by simp, ?_⟩
    norm_num [Vector2d.cross, Vector2d.sub]
  · intro i a a1 ha ha1 q hq
    rw [rectangle_hull_dpts] at hq
    simp only [List.mem_cons, List.mem_singleton, List.not_mem_nil, or_false] at hq
    rcases rectangle_hull_edges i a a1 ha ha1 with ⟨rfl, rfl⟩ | ⟨rfl, rfl⟩ | ⟨rfl, rfl⟩
      | ⟨rfl, rfl⟩ <;> rcases hq with rfl | rfl | rfl | rfl <;>
      norm_num [Vector2d.cross, Vector2d.sub]

/-- C19 on the 1 x 2 rectangle hull. -/
theorem find_smallest_enclosing_box_encloses_witness :
    3 ≤ (rectangle_hull 1 2).length
    ∧ distinct_consecutive (to_dpts (rectangle_hull 1 2))
    ∧ not_all_collinear (to_dpts (rectangle_hull 1 2))
    ∧ convex_in_order (to_dpts (rectangle_hull 1 2))
    ∧ ∃ b, find_smallest_enclosing_box (rectangle_hull 1 2) = some b
      ∧ b.axes.col0.norm = 1 ∧ b.axes.col1.norm = 1 ∧ b.axes.col0.dot b.axes.col1 = 0
      ∧ ∀ q ∈ to_dpts (rectangle_hull 1 2), |b.axes.col0.dot (q.sub b.cmin)| ≤ b.lengths.x / 2
          ∧ |b.axes.col1.dot (q.sub b.cmin)| ≤ |b.lengths.y| / 2 :=
  ⟨by decide, rectangle_hull_convex.1, rectangle_hull_convex.2.1, rectangle_hull_convex.2.2,
    find_smallest_enclosing_box_encloses (rectangle_hull 1 2) (by decide)
      rectangle_hull_convex.1 rectangle_hull_convex.2.1 rectangle_hull_convex.2.2⟩

/-! ## The on-plane invariant of the stored footprint -/

/-- C18 on the merge of `upright` with itself: the first basis vector of the merged
primitive is derived from the second axis of the orientation of `upright`. -/
theorem shape_data_layout_witness :
    ∃ m, plane_primitive.empty.merge_planes keep_points upright upright
        = merge_result.merged m
      ∧ m.basis.col0
        = (upright.quat.toRotationMatrix.col1.sub
            (m.p.head3.scale (m.p.head3.dot upright.quat.toRotationMatrix.col1))).normalized := by
  obtain ⟨m, hm⟩ := merge_planes_returns_of_orientation plane_primitive.empty keep_points
    upright upright upright_frame.1 upright_frame.1 upright_frame.2.1
  exact ⟨m, hm, (shape_data_layout upright).2.2.2 plane_primitive.empty upright m keep_points hm⟩

end ransac_primitives

end
